import Mathlib

/-!
# FnordMetric query parser and URI: embedding and verified properties

The definitions below embed `fnordmetric-core/query/parser.cc` (the
recursive-descent / precedence-climbing SQL parser).  The token cursor is an
index into the immutable token list, the error list is threaded through every
call, and every function that can recurse or loop carries a fuel argument:
running out of fuel is the outer `none`, a C++ null pointer is the inner
`none`.  The functions that call back into `expr` (`exprLHS`, `methodCall`,
`binaryExpr` and the per-operator helpers) take that entry as their first
argument; `Parser.expr` passes itself with one unit of fuel less, and each loop
is a recursive function that spends one unit of fuel per iteration.

`util/uri.cc` is embedded after the parser: strings are lists of characters, a
pointer into a string is the suffix it points to, the scanning loops are
`takeWhile` and `dropWhile`, and the two exceptions are the values of
`URIError`.
-/

namespace fnordmetric.query

/-! ## Tokens -/

/-- Modelled from the spec: `Token::kTokenType` (token.h is not part of the
sources).  The enumeration is the closed set of token kinds of the external
interface, with the `T_` names the parser uses; `T_END` is the end-of-input
sentinel kind. -/
inductive kTokenType where
  | T_SELECT | T_FROM | T_WHERE | T_GROUP | T_BY | T_HAVING | T_ORDER
  | T_ASC | T_DESC | T_LIMIT | T_OFFSET | T_AS | T_AND | T_OR | T_NOT
  | T_TRUE | T_FALSE | T_DIV | T_MOD | T_IDENTIFIER | T_NUMERIC | T_STRING
  | T_LPAREN | T_RPAREN | T_COMMA | T_SEMICOLON | T_DOT | T_ASTERISK
  | T_PLUS | T_MINUS | T_SLASH | T_PERCENT | T_CIRCUMFLEX | T_EQUAL | T_BANG
  | T_END
  deriving DecidableEq, Repr

/-- Modelled from the spec: `Token` (token.h is not part of the sources): a
kind, the lexeme and the byte span `[start, end)` in the input. -/
structure Token where
  type : kTokenType
  lexeme : String
  span : Nat × Nat
  deriving DecidableEq, Repr

/-- Modelled from the spec: the token a read at or past the end of the token
list yields ("lookahead past end must be safe and return the sentinel
kind"). -/
def Token.sentinel : Token := ⟨.T_END, "", (0, 0)⟩

/-! ## AST nodes -/

/-- Modelled from the spec: `ASTNode::kASTNodeType` (ast.h is not part of the
sources), the closed set of AST kinds of the glossary. -/
inductive kASTNodeType where
  | T_ROOT | T_SELECT | T_SELECT_LIST | T_ALL | T_DERIVED_COLUMN | T_FROM
  | T_WHERE | T_GROUP_BY | T_HAVING | T_ORDER_BY | T_SORT_SPEC | T_LIMIT
  | T_OFFSET | T_TABLE_NAME | T_COLUMN_NAME | T_LITERAL | T_METHOD_CALL
  | T_NEGATE_EXPR | T_EQ_EXPR | T_AND_EXPR | T_OR_EXPR | T_ADD_EXPR
  | T_SUB_EXPR | T_MUL_EXPR | T_DIV_EXPR | T_MOD_EXPR | T_POW_EXPR
  deriving DecidableEq, Repr

/-- Modelled from the spec: `ASTNode` (ast.h is not part of the sources): a
kind, an optional reference to the originating token and the ordered sequence
of children.  A child is a pointer, so it can be null (`none`): the parser
itself tests `where != nullptr` before it appends a clause. -/
inductive ASTNode where
  | mk (type : kASTNodeType) (token : Option Token)
      (children : List (Option ASTNode))

namespace ASTNode

/-- Modelled from the spec: `new ASTNode(type)`, a node without token and
without children. -/
def new (type : kASTNodeType) : ASTNode := .mk type none []

/-- Modelled from the spec: the kind of a node. -/
def getType : ASTNode → kASTNodeType
  | .mk t _ _ => t

/-- Modelled from the spec: the token of a node, if any. -/
def getToken : ASTNode → Option Token
  | .mk _ t _ => t

/-- Modelled from the spec: the children of a node, in order. -/
def getChildren : ASTNode → List (Option ASTNode)
  | .mk _ _ c => c

/-- Modelled from the spec: `setToken(token)`. -/
def setToken : ASTNode → Token → ASTNode
  | .mk t _ c, tok => .mk t (some tok) c

/-- Modelled from the spec: `appendChild(ASTNode*)`: the pointer is pushed at
the end of the ordered child sequence, whatever it is. -/
def appendChild : ASTNode → Option ASTNode → ASTNode
  | .mk t tok c, child => .mk t tok (c ++ [child])

end ASTNode

/-! ## Parser state and token cursor -/

/-- The only error kind of the parser. -/
inductive kParserErrorType where
  | ERR_UNEXPECTED_TOKEN
  deriving DecidableEq, Repr

/-- An entry of the error list (`addError` stores the type only). -/
structure ParserError where
  type : kParserErrorType
  deriving DecidableEq, Repr

/-- The mutable part of a `Parser` object during `parse`: the token list,
the cursor `cur_token_` (as an index into the list) and the error list. -/
structure Parser where
  token_list_ : List Token
  cur_token_ : Nat
  errors_ : List ParserError

/-- The outcome of a parsing function: `none` when the fuel ran out, otherwise
the returned node pointer (`none` for `nullptr`) and the parser state. -/
abbrev Result := Option (Option ASTNode × Parser)

/-- The type of the recursive `expr(precedence)` entry the helpers call. -/
abbrev ExprFn := Int → Parser → Result

namespace Parser

/-- Modelled from the spec: `peek(i)`, the token at `cur_token_ + i`, or the end
sentinel past the end of the list. -/
def peekToken (p : Parser) (n : Nat) : Token :=
  (p.token_list_.get? (p.cur_token_ + n)).getD Token.sentinel

/-- The token under the cursor, `*cur_token_`. -/
def curToken (p : Parser) : Token := p.peekToken 0

/-- The kind under the cursor, `cur_token_->getType()`. -/
def curType (p : Parser) : kTokenType := p.curToken.type

/-- Modelled from the spec: `consume()` (parser.h is not part of the
sources): returns the current token and advances the cursor by one. -/
def consumeToken (p : Parser) : Token × Parser :=
  (p.curToken, { p with cur_token_ := p.cur_token_ + 1 })

/-- Modelled from the spec: `lookahead(n, kind)` (parser.h is not part of the
sources): the kind at `cur_token_ + n` is `kind`; past the end the kind is
the sentinel's. -/
def lookahead (p : Parser) (n : Nat) (expectation : kTokenType) : Bool :=
  (p.peekToken n).type == expectation

/-- Source `Parser::addError`: push an error of the given type. -/
def addError (p : Parser) (type : kParserErrorType) : Parser :=
  { p with errors_ := p.errors_ ++ [⟨type⟩] }

/-- Source `Parser::assertExpectation`: non-consuming; records one error when the
current kind is not the expected one. -/
def assertExpectation (p : Parser) (expectation : kTokenType) : Bool × Parser :=
  if p.curType = expectation then (true, p)
  else (false, p.addError .ERR_UNEXPECTED_TOKEN)

/-- Modelled from the spec: `consumeIf(kind)` (parser.h is not part of the
sources): if the current token matches, advance and return true. -/
def consumeIf (p : Parser) (expectation : kTokenType) : Bool × Parser :=
  if p.curType = expectation then (true, p.consumeToken.2) else (false, p)

/-- Modelled from the spec: `expect(kind)` (`expectAndConsume`; parser.h is not
part of the sources): if the current token matches, advance; otherwise record
`UNEXPECTED_TOKEN` and do not advance. -/
def expectAndConsume (p : Parser) (expectation : kTokenType) : Bool × Parser :=
  match p.assertExpectation expectation with
  | (true, p1) => (true, p1.consumeToken.2)
  | (false, p1) => (false, p1)

/-! ## Expression parser -/

/-- Source `Parser::eqExpr`. -/
def eqExpr (expr : ExprFn) (lhs : ASTNode) (precedence : Int) (p : Parser) :
    Result :=
  if precedence < 6 then
    let p1 := p.consumeToken.2
    let e := (ASTNode.new .T_EQ_EXPR).appendChild (some lhs)
    match expr 6 p1 with
    | none => none
    | some (rhs, p2) => some (some (e.appendChild rhs), p2)
  else some (none, p)

/-- Source `Parser::andExpr`. -/
def andExpr (expr : ExprFn) (lhs : ASTNode) (precedence : Int) (p : Parser) :
    Result :=
  if precedence < 3 then
    let p1 := p.consumeToken.2
    let e := (ASTNode.new .T_AND_EXPR).appendChild (some lhs)
    match expr 3 p1 with
    | none => none
    | some (rhs, p2) => some (some (e.appendChild rhs), p2)
  else some (none, p)

/-- Source `Parser::orExpr`. -/
def orExpr (expr : ExprFn) (lhs : ASTNode) (precedence : Int) (p : Parser) :
    Result :=
  if precedence < 1 then
    let p1 := p.consumeToken.2
    let e := (ASTNode.new .T_OR_EXPR).appendChild (some lhs)
    match expr 1 p1 with
    | none => none
    | some (rhs, p2) => some (some (e.appendChild rhs), p2)
  else some (none, p)

/-- Source `Parser::addExpr`. -/
def addExpr (expr : ExprFn) (lhs : ASTNode) (precedence : Int) (p : Parser) :
    Result :=
  if precedence < 10 then
    let p1 := p.consumeToken.2
    let e := (ASTNode.new .T_ADD_EXPR).appendChild (some lhs)
    match expr 10 p1 with
    | none => none
    | some (rhs, p2) => some (some (e.appendChild rhs), p2)
  else some (none, p)

/-- Source `Parser::subExpr`. -/
def subExpr (expr : ExprFn) (lhs : ASTNode) (precedence : Int) (p : Parser) :
    Result :=
  if precedence < 10 then
    let p1 := p.consumeToken.2
    let e := (ASTNode.new .T_SUB_EXPR).appendChild (some lhs)
    match expr 10 p1 with
    | none => none
    | some (rhs, p2) => some (some (e.appendChild rhs), p2)
  else some (none, p)

/-- Source `Parser::mulExpr`. -/
def mulExpr (expr : ExprFn) (lhs : ASTNode) (precedence : Int) (p : Parser) :
    Result :=
  if precedence < 11 then
    let p1 := p.consumeToken.2
    let e := (ASTNode.new .T_MUL_EXPR).appendChild (some lhs)
    match expr 11 p1 with
    | none => none
    | some (rhs, p2) => some (some (e.appendChild rhs), p2)
  else some (none, p)

/-- Source `Parser::divExpr`. -/
def divExpr (expr : ExprFn) (lhs : ASTNode) (precedence : Int) (p : Parser) :
    Result :=
  if precedence < 11 then
    let p1 := p.consumeToken.2
    let e := (ASTNode.new .T_DIV_EXPR).appendChild (some lhs)
    match expr 11 p1 with
    | none => none
    | some (rhs, p2) => some (some (e.appendChild rhs), p2)
  else some (none, p)

/-- Source `Parser::modExpr`. -/
def modExpr (expr : ExprFn) (lhs : ASTNode) (precedence : Int) (p : Parser) :
    Result :=
  if precedence < 11 then
    let p1 := p.consumeToken.2
    let e := (ASTNode.new .T_MOD_EXPR).appendChild (some lhs)
    match expr 11 p1 with
    | none => none
    | some (rhs, p2) => some (some (e.appendChild rhs), p2)
  else some (none, p)

/-- Source `Parser::powExpr`: guarded by `precedence < 12`, right operand parsed
with `expr(11)`. -/
def powExpr (expr : ExprFn) (lhs : ASTNode) (precedence : Int) (p : Parser) :
    Result :=
  if precedence < 12 then
    let p1 := p.consumeToken.2
    let e := (ASTNode.new .T_POW_EXPR).appendChild (some lhs)
    match expr 11 p1 with
    | none => none
    | some (rhs, p2) => some (some (e.appendChild rhs), p2)
  else some (none, p)

/-- Source `Parser::binaryExpr`: dispatch on the current token kind. -/
def binaryExpr (expr : ExprFn) (lhs : ASTNode) (precedence : Int) (p : Parser) :
    Result :=
  match p.curType with
  | .T_EQUAL => eqExpr expr lhs precedence p
  | .T_AND => andExpr expr lhs precedence p
  | .T_OR => orExpr expr lhs precedence p
  | .T_PLUS => addExpr expr lhs precedence p
  | .T_MINUS => subExpr expr lhs precedence p
  | .T_ASTERISK => mulExpr expr lhs precedence p
  | .T_SLASH => divExpr expr lhs precedence p
  | .T_DIV => divExpr expr lhs precedence p
  | .T_PERCENT => modExpr expr lhs precedence p
  | .T_MOD => modExpr expr lhs precedence p
  | .T_CIRCUMFLEX => powExpr expr lhs precedence p
  | _ => some (none, p)

/-- The `do { consumeToken(); e->appendChild(expr()); } while (*cur_token_ ==
T_COMMA)` loop of `Parser::methodCall`; one unit of fuel per iteration. -/
def methodCallArgs (expr : ExprFn) : Nat → ASTNode → Parser → Option (ASTNode × Parser)
  | 0, _, _ => none
  | fuel + 1, e, p =>
    let p1 := p.consumeToken.2
    match expr 0 p1 with
    | none => none
    | some (arg, p2) =>
      let e1 := e.appendChild arg
      if p2.curType = .T_COMMA then methodCallArgs expr fuel e1 p2
      else some (e1, p2)

/-- Source `Parser::methodCall`. -/
def methodCall (expr : ExprFn) (fuel : Nat) (p : Parser) : Result :=
  let e := (ASTNode.new .T_METHOD_CALL).setToken p.consumeToken.1
  let p1 := p.consumeToken.2
  match methodCallArgs expr fuel e p1 with
  | none => none
  | some (e1, p2) => some (some e1, (p2.expectAndConsume .T_RPAREN).2)

/-- Source `Parser::exprLHS`: dispatch on the current token kind. -/
def exprLHS (expr : ExprFn) (fuel : Nat) (p : Parser) : Result :=
  match p.curType with
  | .T_LPAREN =>
    let p1 := p.consumeToken.2
    match expr 0 p1 with
    | none => none
    | some (e, p2) =>
      match p2.assertExpectation .T_RPAREN with
      | (true, p3) => some (e, p3.consumeToken.2)
      | (false, p3) => some (e, p3)
  | .T_BANG | .T_MINUS | .T_NOT =>
    let p1 := p.consumeToken.2
    let e := ASTNode.new .T_NEGATE_EXPR
    match expr 0 p1 with
    | none => none
    | some (operand, p2) => some (some (e.appendChild operand), p2)
  | .T_TRUE | .T_FALSE | .T_NUMERIC | .T_STRING =>
    let e := (ASTNode.new .T_LITERAL).setToken p.curToken
    some (some e, p.consumeToken.2)
  | .T_IDENTIFIER =>
    if p.cur_token_ + 1 < p.token_list_.length ∧
        (p.peekToken 1).type = .T_DOT then
      let table_name := (ASTNode.new .T_TABLE_NAME).setToken p.curToken
      let p1 := p.consumeToken.2
      let p2 := p1.consumeToken.2
      match p2.assertExpectation .T_IDENTIFIER with
      | (true, p3) =>
        let col_name := (ASTNode.new .T_COLUMN_NAME).setToken p3.curToken
        some (some (table_name.appendChild (some col_name)), p3.consumeToken.2)
      | (false, p3) => some (some table_name, p3)
    else if p.lookahead 1 .T_LPAREN then
      methodCall expr fuel p
    else
      let e := (ASTNode.new .T_COLUMN_NAME).setToken p.curToken
      some (some e, p.consumeToken.2)
  | _ => some (none, p)

/-- The `for (;;)` loop of `Parser::expr`; one unit of fuel per iteration. -/
def exprLoop (expr : ExprFn) : Nat → ASTNode → Int → Parser → Result
  | 0, _, _, _ => none
  | fuel + 1, lhs, precedence, p =>
    match binaryExpr expr lhs precedence p with
    | none => none
    | some (none, p1) => some (some lhs, p1)
    | some (some e, p1) => exprLoop expr fuel e precedence p1

/-- Source `Parser::expr`; one unit of fuel per nested call. -/
def expr : Nat → Int → Parser → Result
  | 0, _, _ => none
  | fuel + 1, precedence, p =>
    match exprLHS (expr fuel) fuel p with
    | none => none
    | some (none, p1) => some (none, p1)
    | some (some lhs, p1) => exprLoop (expr fuel) fuel lhs precedence p1

/-! ## Statement parser -/

/-- Source `Parser::tableName`. -/
def tableName (p : Parser) : Option ASTNode × Parser :=
  match p.assertExpectation .T_IDENTIFIER with
  | (false, p1) => (none, p1)
  | (true, p1) =>
    (some ((ASTNode.new .T_TABLE_NAME).setToken p1.consumeToken.1),
      p1.consumeToken.2)

/-- Source `Parser::selectSublist`. -/
def selectSublist (fuel : Nat) (p : Parser) : Result :=
  if p.lookahead 0 .T_IDENTIFIER && p.lookahead 1 .T_DOT &&
      p.lookahead 2 .T_ASTERISK then
    let select_all := (ASTNode.new .T_ALL).setToken p.curToken
    some (some select_all, { p with cur_token_ := p.cur_token_ + 3 })
  else
    let derived := ASTNode.new .T_DERIVED_COLUMN
    match expr fuel 0 p with
    | none => none
    | some (none, p1) => some (none, p1.addError .ERR_UNEXPECTED_TOKEN)
    | some (some value_expr, p1) =>
      let derived1 := derived.appendChild (some value_expr)
      if p1.curType = .T_AS then
        let p2 := p1.consumeToken.2
        match p2.assertExpectation .T_IDENTIFIER with
        | (true, p3) =>
          let column_name := (ASTNode.new .T_COLUMN_NAME).setToken p3.curToken
          some (some (derived1.appendChild (some column_name)), p3.consumeToken.2)
        | (false, p3) => some (some derived1, p3)
      else some (some derived1, p1)

/-- The `for (;;)` loop over the select sublists in `Parser::selectStatement`; one
unit of fuel per iteration. -/
def selectListLoop : Nat → ASTNode → Parser → Option (ASTNode × Parser)
  | 0, _, _ => none
  | fuel + 1, select_list, p =>
    match selectSublist fuel p with
    | none => none
    | some (item, p1) =>
      let select_list1 := select_list.appendChild item
      if p1.curType = .T_COMMA then
        selectListLoop fuel select_list1 p1.consumeToken.2
      else some (select_list1, p1)

/-- The select-list block of `Parser::selectStatement` (the `T_SELECT_LIST` node
is the first child appended to the `T_SELECT` node and is filled here). -/
def selectList (fuel : Nat) (p : Parser) : Option (ASTNode × Parser) :=
  let select_list := ASTNode.new .T_SELECT_LIST
  if p.curType = .T_ASTERISK then
    some (select_list.appendChild (some (ASTNode.new .T_ALL)), p.consumeToken.2)
  else selectListLoop fuel select_list p

/-- The `do { consumeToken(); clause->appendChild(tableName()); } while
(*cur_token_ == T_COMMA)` loop of `Parser::fromClause`. -/
def fromClauseLoop : Nat → ASTNode → Parser → Option (ASTNode × Parser)
  | 0, _, _ => none
  | fuel + 1, clause, p =>
    let p1 := p.consumeToken.2
    match tableName p1 with
    | (name, p2) =>
      let clause1 := clause.appendChild name
      if p2.curType = .T_COMMA then fromClauseLoop fuel clause1 p2
      else some (clause1, p2)

/-- Source `Parser::fromClause`. -/
def fromClause (fuel : Nat) (p : Parser) : Result :=
  match p.assertExpectation .T_FROM with
  | (false, p1) => some (none, p1)
  | (true, p1) =>
    match fromClauseLoop fuel (ASTNode.new .T_FROM) p1 with
    | none => none
    | some (clause, p2) => some (some clause, p2)

/-- Source `Parser::whereClause`. -/
def whereClause (fuel : Nat) (p : Parser) : Result :=
  match p.consumeIf .T_WHERE with
  | (false, p1) => some (none, p1)
  | (true, p1) =>
    match expr fuel 0 p1 with
    | none => none
    | some (e, p2) => some (some ((ASTNode.new .T_WHERE).appendChild e), p2)

/-- The `do { clause->appendChild(expr()); } while (consumeIf(T_COMMA))` loop
of `Parser::groupByClause`. -/
def groupByLoop : Nat → ASTNode → Parser → Option (ASTNode × Parser)
  | 0, _, _ => none
  | fuel + 1, clause, p =>
    match expr fuel 0 p with
    | none => none
    | some (e, p1) =>
      let clause1 := clause.appendChild e
      match p1.consumeIf .T_COMMA with
      | (true, p2) => groupByLoop fuel clause1 p2
      | (false, p2) => some (clause1, p2)

/-- Source `Parser::groupByClause`. -/
def groupByClause (fuel : Nat) (p : Parser) : Result :=
  match p.consumeIf .T_GROUP with
  | (false, p1) => some (none, p1)
  | (true, p1) =>
    let p2 := (p1.expectAndConsume .T_BY).2
    match groupByLoop fuel (ASTNode.new .T_GROUP_BY) p2 with
    | none => none
    | some (clause, p3) => some (some clause, p3)

/-- Source `Parser::havingClause`. -/
def havingClause (fuel : Nat) (p : Parser) : Result :=
  match p.consumeIf .T_HAVING with
  | (false, p1) => some (none, p1)
  | (true, p1) =>
    match expr fuel 0 p1 with
    | none => none
    | some (e, p2) => some (some ((ASTNode.new .T_HAVING).appendChild e), p2)

/-- The `do { ... } while (consumeIf(T_COMMA))` loop of
`Parser::orderByClause`: each iteration appends one `T_SORT_SPEC`. -/
def orderByLoop : Nat → ASTNode → Parser → Option (ASTNode × Parser)
  | 0, _, _ => none
  | fuel + 1, clause, p =>
    match expr fuel 0 p with
    | none => none
    | some (e, p1) =>
      let spec := (ASTNode.new .T_SORT_SPEC).appendChild e
      let (spec1, p2) :=
        match p1.curType with
        | .T_ASC | .T_DESC => (spec.setToken p1.consumeToken.1, p1.consumeToken.2)
        | _ => (spec, p1)
      let clause1 := clause.appendChild (some spec1)
      match p2.consumeIf .T_COMMA with
      | (true, p3) => orderByLoop fuel clause1 p3
      | (false, p3) => some (clause1, p3)

/-- Source `Parser::orderByClause`. -/
def orderByClause (fuel : Nat) (p : Parser) : Result :=
  match p.consumeIf .T_ORDER with
  | (false, p1) => some (none, p1)
  | (true, p1) =>
    let p2 := (p1.expectAndConsume .T_BY).2
    match orderByLoop fuel (ASTNode.new .T_ORDER_BY) p2 with
    | none => none
    | some (clause, p3) => some (some clause, p3)

/-- Source `Parser::limitClause`. -/
def limitClause (p : Parser) : Option ASTNode × Parser :=
  match p.consumeIf .T_LIMIT with
  | (false, p1) => (none, p1)
  | (true, p1) =>
    match p1.assertExpectation .T_NUMERIC with
    | (false, p2) => (none, p2)
    | (true, p2) =>
      let clause := (ASTNode.new .T_LIMIT).setToken p2.consumeToken.1
      let p3 := p2.consumeToken.2
      match p3.consumeIf .T_OFFSET with
      | (false, p4) => (some clause, p4)
      | (true, p4) =>
        match p4.assertExpectation .T_NUMERIC with
        | (true, p5) =>
          let offset := (ASTNode.new .T_OFFSET).setToken p5.consumeToken.1
          (some (clause.appendChild (some offset)), p5.consumeToken.2)
        | (false, p5) => (some clause, p5)

/-- The guarded append `if (clause != nullptr) select->appendChild(clause)` of
`Parser::selectStatement`. -/
def appendIfNotNull (select : ASTNode) : Option ASTNode → ASTNode
  | none => select
  | some clause => select.appendChild (some clause)

/-- Source `Parser::selectStatement`. -/
def selectStatement (fuel : Nat) (p : Parser) : Result :=
  match p.assertExpectation .T_SELECT with
  | (false, p0) => some (none, p0)
  | (true, p0) =>
    let p1 := p0.consumeToken.2
    match selectList fuel p1 with
    | none => none
    | some (select_list, p2) =>
      let select := (ASTNode.new .T_SELECT).appendChild (some select_list)
      if p2.curType = .T_SEMICOLON then some (some select, p2)
      else
        match fromClause fuel p2 with
        | none => none
        | some (from_clause, p3) =>
        let select1 := select.appendChild from_clause
        match whereClause fuel p3 with
        | none => none
        | some (where_clause, p4) =>
        let select2 := appendIfNotNull select1 where_clause
        match groupByClause fuel p4 with
        | none => none
        | some (group, p5) =>
        let select3 := appendIfNotNull select2 group
        match havingClause fuel p5 with
        | none => none
        | some (having, p6) =>
        let select4 := appendIfNotNull select3 having
        match orderByClause fuel p6 with
        | none => none
        | some (order, p7) =>
        let select5 := appendIfNotNull select4 order
        match limitClause p7 with
        | (limit, p8) => some (some (appendIfNotNull select5 limit), p8)

end Parser

/-- Source `Parser::parse`, from the token list on (the tokenizer is not part of
the sources): the return code, the root node and the final parser state.  An
empty token list returns 0 at once; otherwise the statement is appended to the
root and the return code is `errors_.size() == 0`. -/
def parse (fuel : Nat) (token_list : List Token) :
    Option (Nat × ASTNode × Parser) :=
  let p : Parser := ⟨token_list, 0, []⟩
  let root := ASTNode.new .T_ROOT
  if token_list.length = 0 then some (0, root, p)
  else
    match Parser.selectStatement fuel p with
    | none => none
    | some (stmt, p1) =>
      some (if p1.errors_.length = 0 then 1 else 0, root.appendChild stmt, p1)

/-! ## Vocabulary of the specification used to state the properties -/

/-- The precedence table of the specification: for a binary-operator token
kind, the node kind, the left binding power and the right binding power. -/
def binaryOp : kTokenType → Option (kASTNodeType × Int × Int)
  | .T_OR => some (.T_OR_EXPR, 1, 1)
  | .T_AND => some (.T_AND_EXPR, 3, 3)
  | .T_EQUAL => some (.T_EQ_EXPR, 6, 6)
  | .T_PLUS => some (.T_ADD_EXPR, 10, 10)
  | .T_MINUS => some (.T_SUB_EXPR, 10, 10)
  | .T_ASTERISK => some (.T_MUL_EXPR, 11, 11)
  | .T_SLASH => some (.T_DIV_EXPR, 11, 11)
  | .T_DIV => some (.T_DIV_EXPR, 11, 11)
  | .T_PERCENT => some (.T_MOD_EXPR, 11, 11)
  | .T_MOD => some (.T_MOD_EXPR, 11, 11)
  | .T_CIRCUMFLEX => some (.T_POW_EXPR, 12, 11)
  | _ => none

/-- Kinds of the single-token atoms: the literals and the identifier. -/
def isAtomKind : kTokenType → Bool
  | .T_TRUE | .T_FALSE | .T_NUMERIC | .T_STRING | .T_IDENTIFIER => true
  | _ => false

/-- The leaf a single-token atom stands for: `T_COLUMN_NAME` for an identifier,
`T_LITERAL` for a literal, carrying the token and no children. -/
def atomNode (t : Token) : ASTNode :=
  if t.type = .T_IDENTIFIER then .mk .T_COLUMN_NAME (some t) []
  else .mk .T_LITERAL (some t) []

/-- A binary node `kind(lhs, rhs)` without token. -/
def binNode (kind : kASTNodeType) (lhs rhs : ASTNode) : ASTNode :=
  .mk kind none [some lhs, some rhs]

/-- Kind of the first token of a list, the sentinel kind when it is empty. -/
def headType (ts : List Token) : kTokenType :=
  (ts.head?.getD Token.sentinel).type

/-- The tokens from the cursor on. -/
def Parser.rest (p : Parser) : List Token := p.token_list_.drop p.cur_token_

/-- The parser state with the cursor moved `n` tokens forward. -/
def Parser.advance (p : Parser) (n : Nat) : Parser :=
  { p with cur_token_ := p.cur_token_ + n }

/-- The token list `o1 x1 o2 x2 ...` of a list of (operator, operand) token
pairs. -/
def opChain : List (Token × Token) → List Token
  | [] => []
  | (o, x) :: r => o :: x :: opChain r

/-- The node kind the table gives for an operator token kind (`T_ROOT` stands
for "not an operator"). -/
def opKind (t : kTokenType) : kASTNodeType :=
  match binaryOp t with
  | some (k, _, _) => k
  | none => .T_ROOT

/-- The right-nested tree `a1 op (a2 op (... op an))` over single-token atoms,
every node of kind `k`. -/
def rightNest (k : kASTNodeType) (a : Token) : List (Token × Token) → ASTNode
  | [] => atomNode a
  | (_, x) :: r => binNode k (atomNode a) (rightNest k x r)

/-- The left-nested tree `((lhs op1 a2) op2 a3) ...` over single-token atoms,
each node of the kind of its operator. -/
def leftNest (lhs : ASTNode) : List (Token × Token) → ASTNode
  | [] => lhs
  | (o, x) :: r => leftNest (binNode (opKind o.type) lhs (atomNode x)) r

/-- A token of the given kind and lexeme starting at byte offset `start`. -/
def mkToken (kind : kTokenType) (lexeme : String) (start : Nat) : Token :=
  ⟨kind, lexeme, (start, start + lexeme.length)⟩

/-- The `i`-th child of a node: `none` when there is no such child or when it
is a null pointer. -/
def ASTNode.child (n : ASTNode) (i : Nat) : Option ASTNode :=
  (n.getChildren.get? i).join

/-- The value expression of the `i`-th item of the select list of the statement
under `root`: the first child of the `i`-th child of the first child of the
first child of the root. -/
def selectExprOf (root : ASTNode) (i : Nat) : Option ASTNode :=
  (((root.child 0).bind (fun s => s.child 0)).bind (fun l => l.child i)).bind
    (fun d => d.child 0)

/-! ## Well-formed expressions -/

/-- Kinds of the literal tokens. -/
def isLiteralKind : kTokenType → Bool
  | .T_TRUE | .T_FALSE | .T_NUMERIC | .T_STRING => true
  | _ => false

/-- Kinds of the unary operators `!`, `-` and `NOT`. -/
def isNegationKind : kTokenType → Bool
  | .T_BANG | .T_MINUS | .T_NOT => true
  | _ => false

/-- Kinds at which a complete expression ends: not a binary operator of the
table, not `.` and not `(`.  The end sentinel, `,`, `)`, `;` and the clause
keywords are all of this sort. -/
def isStopKind (t : kTokenType) : Bool :=
  (binaryOp t).isNone && t != .T_DOT && t != .T_LPAREN

/-- The token list `s1 e1 s2 e2 ...` of a list of (separator, expression)
pairs, each expression being a token list. -/
def argChain : List (Token × List Token) → List Token
  | [] => []
  | (s, e) :: r => s :: (e ++ argChain r)

/-- The expression grammar of the specification, as a predicate on token
lists: literals, column names, qualified columns `t . c`, calls `f ( )` and
`f ( e1 , ... , en )`, parenthesized expressions, the unary operators and the
binary operators of the precedence table. -/
inductive WellFormedExpr : List Token → Prop where
  | literal (t : Token) : isLiteralKind t.type = true → WellFormedExpr [t]
  | column (t : Token) : t.type = .T_IDENTIFIER → WellFormedExpr [t]
  | qualified (t d c : Token) : t.type = .T_IDENTIFIER → d.type = .T_DOT →
      c.type = .T_IDENTIFIER → WellFormedExpr [t, d, c]
  | call0 (f lp rp : Token) : f.type = .T_IDENTIFIER → lp.type = .T_LPAREN →
      rp.type = .T_RPAREN → WellFormedExpr [f, lp, rp]
  | call (f lp rp : Token) (e : List Token) (more : List (Token × List Token)) :
      f.type = .T_IDENTIFIER → lp.type = .T_LPAREN → rp.type = .T_RPAREN →
      WellFormedExpr e → (∀ x ∈ more, x.1.type = .T_COMMA) →
      (∀ x ∈ more, WellFormedExpr x.2) →
      WellFormedExpr (f :: lp :: (e ++ argChain more ++ [rp]))
  | paren (lp rp : Token) (e : List Token) : lp.type = .T_LPAREN →
      rp.type = .T_RPAREN → WellFormedExpr e → WellFormedExpr (lp :: (e ++ [rp]))
  | negate (o : Token) (e : List Token) : isNegationKind o.type = true →
      WellFormedExpr e → WellFormedExpr (o :: e)
  | binary (e1 : List Token) (o : Token) (e2 : List Token) : WellFormedExpr e1 →
      (binaryOp o.type).isSome = true → WellFormedExpr e2 →
      WellFormedExpr (e1 ++ o :: e2)

/-- The same language in right-linear form, the shape the parser follows: a
primary operand (index `true`) is a literal, a column, a qualified column, a
call or a parenthesized expression; an expression (index `false`) is a primary
operand, a unary operator applied to an expression, or a primary operand, a
binary operator and an expression. -/
inductive Canon : Bool → List Token → Prop where
  | literal (t : Token) : isLiteralKind t.type = true → Canon true [t]
  | column (t : Token) : t.type = .T_IDENTIFIER → Canon true [t]
  | qualified (t d c : Token) : t.type = .T_IDENTIFIER → d.type = .T_DOT →
      c.type = .T_IDENTIFIER → Canon true [t, d, c]
  | call0 (f lp rp : Token) : f.type = .T_IDENTIFIER → lp.type = .T_LPAREN →
      rp.type = .T_RPAREN → Canon true [f, lp, rp]
  | call (f lp rp : Token) (e : List Token) (more : List (Token × List Token)) :
      f.type = .T_IDENTIFIER → lp.type = .T_LPAREN → rp.type = .T_RPAREN →
      Canon false e → (∀ x ∈ more, x.1.type = .T_COMMA) →
      (∀ x ∈ more, Canon false x.2) →
      Canon true (f :: lp :: (e ++ argChain more ++ [rp]))
  | paren (lp rp : Token) (e : List Token) : lp.type = .T_LPAREN →
      rp.type = .T_RPAREN → Canon false e → Canon true (lp :: (e ++ [rp]))
  | prim (u : List Token) : Canon true u → Canon false u
  | neg (o : Token) (e : List Token) : isNegationKind o.type = true →
      Canon false e → Canon false (o :: e)
  | step (u : List Token) (o : Token) (e : List Token) : Canon true u →
      (binaryOp o.type).isSome = true → Canon false e → Canon false (u ++ o :: e)

/-- What can follow an operand inside an expression: nothing, or a binary
operator and an expression. -/
def Tail (t : List Token) : Prop :=
  t = [] ∨ ∃ o e, t = o :: e ∧ (binaryOp o.type).isSome = true ∧ Canon false e

/-- A tail at which `expr(prec)` stops: nothing, or an operator whose left
binding power is at most `prec`, and an expression. -/
def TailStops (t : List Token) (prec : Int) : Prop :=
  t = [] ∨ ∃ o e k l r, t = o :: e ∧ binaryOp o.type = some (k, l, r) ∧
    l ≤ prec ∧ Canon false e

/-- The node `expr(0)` returns for the token list `e` on its own, followed by
the end sentinel only (`none` when it returns null). -/
def parseAlone (e : List Token) : Option ASTNode :=
  match Parser.expr (e.length + 1) 0 ⟨e ++ [Token.sentinel], 0, []⟩ with
  | some (node, _) => node
  | none => none

/-- The parser handles the expression `e` in every context: wherever the
cursor stands on `e` followed by a token at which expressions end, `expr(0)`
returns the node of `e` on its own, the cursor right after `e` and the error
list untouched, for any fuel above the length of `e`. -/
def ParsesInContext (e : List Token) : Prop :=
  ∀ (p : Parser) (post : List Token) (fuel : Nat),
    p.rest = e ++ post → isStopKind (headType post) = true → e.length + 1 ≤ fuel →
    Parser.expr fuel 0 p = some (parseAlone e, p.advance e.length)

/-- The node `n` with the pointers `cs` appended to its children, in order. -/
def ASTNode.appendChildren : ASTNode → List (Option ASTNode) → ASTNode
  | .mk t tok c, cs => .mk t tok (c ++ cs)

/-- The select-list child the parser builds for the expression `e`: a
`T_DERIVED_COLUMN` node whose only child is the node of `e`. -/
def derivedColumn (e : List Token) : Option ASTNode :=
  (parseAlone e).map (fun v => .mk .T_DERIVED_COLUMN none [some v])

/-! ## Invariants of the tree and of the cursor -/

mutual
/-- All nodes of a tree: the node itself and the nodes below its non-null
children. -/
def ASTNode.nodes : ASTNode → List ASTNode
  | .mk t tok cs => .mk t tok cs :: nodesOfChildren cs
/-- The nodes below a child sequence; a null child has none. -/
def nodesOfChildren : List (Option ASTNode) → List ASTNode
  | [] => []
  | none :: cs => nodesOfChildren cs
  | some c :: cs => c.nodes ++ nodesOfChildren cs
end

/-- Kinds of the binary operator nodes. -/
def isBinaryKind : kASTNodeType → Bool
  | .T_EQ_EXPR | .T_AND_EXPR | .T_OR_EXPR | .T_ADD_EXPR | .T_SUB_EXPR
  | .T_MUL_EXPR | .T_DIV_EXPR | .T_MOD_EXPR | .T_POW_EXPR => true
  | _ => false

/-- The shape of a `T_LITERAL` node: no children, and a token of the token list
`toks` of a literal kind. -/
def LiteralShape (toks : List Token) (n : ASTNode) : Prop :=
  n.getChildren = [] ∧
    ∃ t : Token, n.getToken = some t ∧ t ∈ toks ∧ isLiteralKind t.type = true

/-- The shape every binary operator node has: exactly two children, the first
of them not null. -/
def BinaryShape (n : ASTNode) : Prop :=
  ∃ (a : ASTNode) (b : Option ASTNode), n.getChildren = [some a, b]

/-- What is asked of a single node: a literal node has the literal shape, a
binary operator node the binary shape. -/
def NodeShape (toks : List Token) (n : ASTNode) : Prop :=
  (n.getType = .T_LITERAL → LiteralShape toks n) ∧
    (isBinaryKind n.getType = true → BinaryShape n)

/-- Every node of the tree has its shape. -/
def Shaped (toks : List Token) (e : ASTNode) : Prop :=
  ∀ n ∈ e.nodes, NodeShape toks n

/-- A node pointer that is null or points to a shaped tree. -/
def ShapedOpt (toks : List Token) (r : Option ASTNode) : Prop :=
  ∀ e, r = some e → Shaped toks e

/-- A shaped tree whose root is neither a literal nor a binary operator node:
the nodes the parser appends children to one by one. -/
def Container (toks : List Token) (e : ASTNode) : Prop :=
  Shaped toks e ∧ e.getType ≠ .T_LITERAL ∧ isBinaryKind e.getType = false

/-- The cursor moved from `p` to `q` over matched tokens only: the token list is
the same, the cursor did not move back, and every index it passed holds a token
of the list whose kind is not `T_END`. -/
def Step (p q : Parser) : Prop :=
  q.token_list_ = p.token_list_ ∧ p.cur_token_ ≤ q.cur_token_ ∧
    ∀ i, p.cur_token_ ≤ i → i < q.cur_token_ →
      ∃ t : Token, p.token_list_.get? i = some t ∧ t.type ≠ .T_END

/-- The two invariants of a parsing function that returns a node pointer: the
cursor moved over matched tokens only, and the tree returned is shaped. -/
def Post (p : Parser) (r : Option ASTNode) (q : Parser) : Prop :=
  Step p q ∧ ShapedOpt p.token_list_ r

/-- The invariants of a loop that fills a node. -/
def LoopPost (p : Parser) (e : ASTNode) (q : Parser) : Prop :=
  Step p q ∧ Container p.token_list_ e

/-- The invariants, for an `expr` entry, whenever it returns. -/
def ExprPost (expr : ExprFn) : Prop :=
  ∀ (prec : Int) (p : Parser) (r : Option ASTNode) (q : Parser),
    expr prec p = some (r, q) → Post p r q

/-- Number of tokens from the cursor to the end of the token list. -/
def Parser.remaining (p : Parser) : Nat := p.token_list_.length - p.cur_token_

/-- An `expr` entry that returns on every state with at most `bound - 2` tokens
left. -/
def ExprTotal (expr : ExprFn) (bound : Nat) : Prop :=
  ∀ (prec : Int) (p : Parser), p.remaining + 2 ≤ bound → ∃ r, expr prec p = some r

end fnordmetric.query

namespace fnordmetric.util

/-! ## URI (`util/uri.cc`)

Strings are lists of characters; a pointer into the string is the suffix that
starts at it, and a scanning loop `for (; cur < end && ok(*cur); ++cur);` yields
the characters passed (`takeWhile`) and the suffix left (`dropWhile`). -/

/-- The exceptions `URI::parse` can end in: the `RuntimeException` "invalid URI:
must begin with scheme:" and the `std::out_of_range` of `std::stoi`. -/
inductive URIError where
  | invalidScheme
  | portOutOfRange
  deriving DecidableEq, Repr

/-- The fields of a `URI` object (uri.h is not part of the sources; the fields
are the ones `uri.cc` assigns and reads). -/
structure URI where
  scheme_ : List Char
  userinfo_ : List Char
  host_ : List Char
  port_ : Nat
  path_ : List Char
  query_ : List Char
  fragment_ : List Char
  deriving DecidableEq, Repr

/-- The state of a `URI` object when the constructor calls `parse`: empty
strings and `port_(0)`. -/
def URI.empty : URI := ⟨[], [], [], 0, [], [], []⟩

/-- The test `*cur >= '0' && *cur <= '9'` of the port loop. -/
def isDigitChar (c : Char) : Bool := decide ('0' ≤ c) && decide (c ≤ '9')

/-- The decimal value of a string of digits. -/
def decimalValue (digits : List Char) : Nat :=
  digits.foldl (fun acc c => acc * 10 + (c.toNat - 48)) 0

/-- The call `std::stoi(digits)` on a non-empty string of digits: the value, or
`std::out_of_range` when it does not fit an `int`. -/
def stoi (digits : List Char) : Except URIError Nat :=
  if decimalValue digits ≤ 2147483647 then .ok (decimalValue digits)
  else .error .portOutOfRange

/-- The call `std::to_string(port_)`: the decimal digits of the number. -/
def to_string (n : Nat) : List Char := Nat.toDigits 10 n

/-- The test of the userinfo loop of `parseAuthority`: the loop goes on while the
character is none of `/`, `?`, `#` (break) and `@` (userinfo found). -/
def isUserinfoChar (c : Char) : Bool :=
  c != '/' && c != '?' && c != '#' && c != '@'

/-- The test of the host loop of `parseAuthority`. -/
def isHostChar (c : Char) : Bool :=
  c != '/' && c != '?' && c != '#' && c != ':'

/-- The test of the authority loop of `parse`. -/
def isAuthorityChar (c : Char) : Bool :=
  c != '/' && c != '?' && c != '#'

/-- The test of the path loop of `parse`. -/
def isPathChar (c : Char) : Bool :=
  c != '?' && c != '#'

namespace URI

/-- Source `URI::parseAuthority`. -/
def parseAuthority (u : URI) (authority : List Char) : Except URIError URI :=
  /- userinfo -/
  let found := authority.dropWhile isUserinfoChar
  let u1 : URI :=
    match found with
    | [] => u
    | c :: _ =>
      if c = '@' then { u with userinfo_ := authority.takeWhile isUserinfoChar }
      else u
  let begin : List Char :=
    match found with
    | [] => authority
    | c :: r => if c = '@' then r else authority
  /- host -/
  let cur := begin.dropWhile isHostChar
  let u2 : URI := { u1 with host_ := begin.takeWhile isHostChar }
  /- port -/
  if 1 < cur.length ∧ cur.head? = some ':' then
    let digits := cur.tail.takeWhile isDigitChar
    if 0 < digits.length then
      match stoi digits with
      | .ok n => .ok { u2 with port_ := n }
      | .error e => .error e
    else .ok u2
  else .ok u2

/-- The `/* authority */` block of `URI::parse`: the object and the suffix at
`begin` after the block. -/
def parseAuthorityBlock (u : URI) (begin : List Char) :
    Except URIError (URI × List Char) :=
  if 2 < begin.length ∧ begin.get? 0 = some '/' ∧ begin.get? 1 = some '/' then
    let begin1 := begin.drop 2
    let cur := begin1.dropWhile isAuthorityChar
    if 0 < (begin1.takeWhile isAuthorityChar).length then
      match parseAuthority u (begin1.takeWhile isAuthorityChar) with
      | .ok u1 => .ok (u1, cur)
      | .error e => .error e
    else .ok (u, cur)
  else .ok (u, begin)

/-- The `/* path */` block of `URI::parse`. -/
def parsePathBlock (u : URI) (begin : List Char) : URI × List Char :=
  if 0 < begin.length then
    let cur := begin.dropWhile isPathChar
    if 0 < (begin.takeWhile isPathChar).length then
      ({ u with path_ := begin.takeWhile isPathChar }, cur)
    else (u, cur)
  else (u, begin)

/-- The `/* query */` block of `URI::parse`. -/
def parseQueryBlock (u : URI) (begin : List Char) : URI × List Char :=
  if 0 < begin.length ∧ begin.head? = some '?' then
    let begin1 := begin.tail
    let cur := begin1.dropWhile (fun c => c != '#')
    if 0 < (begin1.takeWhile (fun c => c != '#')).length then
      ({ u with query_ := begin1.takeWhile (fun c => c != '#') }, cur)
    else (u, cur)
  else (u, begin)

/-- The `/* fragment */` block of `URI::parse`. -/
def parseFragmentBlock (u : URI) (begin : List Char) : URI :=
  if 1 < begin.length ∧ begin.head? = some '#' then
    { u with fragment_ := begin.tail }
  else u

/-- Source `URI::parse`, as called by the constructor on a fresh object. -/
def parse (uri_str : List Char) : Except URIError URI :=
  /- scheme -/
  let u0 : URI :=
    match uri_str.dropWhile (fun c => c != ':') with
    | [] => URI.empty
    | _ :: _ => { URI.empty with scheme_ := uri_str.takeWhile (fun c => c != ':') }
  let begin : List Char :=
    match uri_str.dropWhile (fun c => c != ':') with
    | [] => uri_str
    | _ :: r => r
  if u0.scheme_.length = 0 then .error .invalidScheme
  else
    match parseAuthorityBlock u0 begin with
    | .error e => .error e
    | .ok (u1, begin1) =>
      let (u2, begin2) := parsePathBlock u1 begin1
      let (u3, begin3) := parseQueryBlock u2 begin2
      .ok (parseFragmentBlock u3 begin3)

/-- Source `URI::toString`. -/
def toString (u : URI) : List Char :=
  let s0 := u.scheme_ ++ [':']
  let s1 :=
    if 0 < u.host_.length then
      let a := s0 ++ ['/', '/']
      let b := if 0 < u.userinfo_.length then a ++ u.userinfo_ ++ ['@'] else a
      let c := b ++ u.host_
      if 0 < u.port_ then c ++ [':'] ++ to_string u.port_ else c
    else s0
  let s2 := s1 ++ u.path_
  let s3 := if 0 < u.query_.length then s2 ++ ['?'] ++ u.query_ else s2
  if 0 < u.fragment_.length then s3 ++ ['#'] ++ u.fragment_ else s3

/-- The authority part `toString` prints between `//` and the path. -/
def authorityString (u : URI) : List Char :=
  (if 0 < u.userinfo_.length then u.userinfo_ ++ ['@'] else []) ++ u.host_ ++
    (if 0 < u.port_ then ':' :: to_string u.port_ else [])

/-- The query part `toString` prints: `?` and the query, when there is one. -/
def queryString (u : URI) : List Char :=
  if 0 < u.query_.length then '?' :: u.query_ else []

/-- The fragment part `toString` prints: `#` and the fragment, when there is
one. -/
def fragmentString (u : URI) : List Char :=
  if 0 < u.fragment_.length then '#' :: u.fragment_ else []

/-- What `parse` guarantees of the fields of a URI with a host: a non-empty scheme
without `:`, a userinfo without `/`, `?`, `#`, `@`, a host without `/`, `?`,
`#`, `:`, a port that fits an `int`, a path without `?` and `#` that is empty or
starts with `/`, and a query without `#`. -/
def Canonical (u : URI) : Prop :=
  u.scheme_ ≠ [] ∧ (∀ c ∈ u.scheme_, c ≠ ':') ∧
  (∀ c ∈ u.userinfo_, isUserinfoChar c = true) ∧
  (∀ c ∈ u.host_, isHostChar c = true) ∧
  u.port_ ≤ 2147483647 ∧
  (∀ c ∈ u.path_, isPathChar c = true) ∧
  (∀ c r, u.path_ = c :: r → c = '/') ∧
  (∀ c ∈ u.query_, c ≠ '#')

end URI

/-- Example string `a://u@h:80/p?q#f`. -/
def uriExample : List Char :=
  ['a', ':', '/', '/', 'u', '@', 'h', ':', '8', '0', '/', 'p', '?', 'q', '#', 'f']

/-- The URI `parse` builds from `uriExample`. -/
def uriExampleParsed : URI :=
  ⟨['a'], ['u'], ['h'], 80, ['/', 'p'], ['q'], ['f']⟩

end fnordmetric.util

namespace fnordmetric.query

/-! ## Properties -/

namespace Parser

theorem advance_advance (p : Parser) (a b : Nat) :
    (p.advance a).advance b = p.advance (a + b) := by
  simp [advance, Nat.add_assoc]

theorem consumeToken_snd (p : Parser) : p.consumeToken.2 = p.advance 1 := rfl

theorem rest_advance (p : Parser) (n : Nat) : (p.advance n).rest = p.rest.drop n := by
  simp [rest, advance, List.drop_drop, Nat.add_comm]

theorem peekToken_eq (p : Parser) (n : Nat) :
    p.peekToken n = ((p.rest.drop n).head?).getD Token.sentinel := by
  simp [peekToken, rest, List.head?_drop, List.getElem?_drop]

theorem curType_eq (p : Parser) : p.curType = headType p.rest := by
  simp [curType, curToken, peekToken_eq, headType]

theorem curToken_of_rest {p : Parser} {t : Token} {r : List Token}
    (h : p.rest = t :: r) : p.curToken = t := by
  simp [curToken, peekToken_eq, h]

theorem peek_one_type {p : Parser} {t : Token} {r : List Token}
    (h : p.rest = t :: r) : (p.peekToken 1).type = headType r := by
  simp [peekToken_eq, h, headType]

theorem rest_next {p : Parser} {t : Token} {r : List Token}
    (h : p.rest = t :: r) : (p.advance 1).rest = r := by
  simp [rest_advance, h]

theorem rest_skip {p : Parser} (ts : List Token) {r : List Token}
    (h : p.rest = ts ++ r) : (p.advance ts.length).rest = r := by
  simp [rest_advance, h]

theorem binaryExpr_eq (e : ExprFn) (lhs : ASTNode) (prec : Int) (p : Parser) :
    binaryExpr e lhs prec p =
      match binaryOp p.curType with
      | none => some (none, p)
      | some (k, l, r) =>
        if prec < l then
          match e r (p.advance 1) with
          | none => none
          | some (rhs, p2) => some (some (.mk k none [some lhs, rhs]), p2)
        else some (none, p) := by
  unfold binaryExpr
  generalize p.curType = t
  cases t <;> simp only [binaryOp, eqExpr, andExpr, orExpr, addExpr, subExpr, mulExpr, divExpr, modExpr, powExpr] <;> rfl

/-- Facts about the table: binding powers lie in `1..12` and the right binding
power equals the left one except for `^`. -/
theorem binaryOp_bounds {t : kTokenType} {k : kASTNodeType} {l r : Int}
    (h : binaryOp t = some (k, l, r)) :
    1 ≤ l ∧ l ≤ 12 ∧ ((r = l ∧ l ≠ 12) ∨ (l = 12 ∧ r = 11)) := by
  cases t <;> simp [binaryOp] at h <;> obtain ⟨_, rfl, rfl⟩ := h <;> decide

theorem exprLHS_atom (e : ExprFn) (fuel : Nat) {p : Parser} {a : Token}
    {r : List Token} (h : p.rest = a :: r) (ha : isAtomKind a.type = true)
    (hdot : headType r ≠ .T_DOT) (hpar : headType r ≠ .T_LPAREN) :
    exprLHS e fuel p = some (some (atomNode a), p.advance 1) := by
  have hc : p.curType = a.type := by rw [curType_eq, h]; rfl
  have hk : p.curToken = a := curToken_of_rest h
  have h1 : (p.peekToken 1).type = headType r := peek_one_type h
  unfold exprLHS
  rw [hc]
  cases hty : a.type <;> simp [hty, isAtomKind] at ha <;>
    simp [hk, h1, hdot, hpar, lookahead, atomNode, hty, ASTNode.new, ASTNode.setToken, consumeToken, advance]

theorem exprLoop_stop (e : ExprFn) (fuel : Nat) (lhs : ASTNode) (prec : Int)
    (p : Parser)
    (h : ∀ k l r, binaryOp p.curType = some (k, l, r) → l ≤ prec) :
    exprLoop e (fuel + 1) lhs prec p = some (some lhs, p) := by
  unfold exprLoop
  rw [binaryExpr_eq]
  cases hb : binaryOp p.curType with
  | none => rfl
  | some v =>
    obtain ⟨k, l, r⟩ := v
    have := h k l r hb
    simp [not_lt.mpr this]

theorem exprLoop_step (e : ExprFn) (fuel : Nat) (lhs : ASTNode) (prec : Int)
    (p : Parser) {k : kASTNodeType} {l r : Int} {rhs : Option ASTNode} {p2 : Parser}
    (hb : binaryOp p.curType = some (k, l, r)) (hl : prec < l)
    (he : e r (p.advance 1) = some (rhs, p2)) :
    exprLoop e (fuel + 1) lhs prec p =
      exprLoop e fuel (.mk k none [some lhs, rhs]) prec p2 := by
  conv => lhs; unfold exprLoop
  rw [binaryExpr_eq]
  simp [hb, hl, he]

theorem expr_succ (fuel : Nat) (prec : Int) (p : Parser) :
    expr (fuel + 1) prec p =
      match exprLHS (expr fuel) fuel p with
      | none => none
      | some (none, p1) => some (none, p1)
      | some (some lhs, p1) => exprLoop (expr fuel) fuel lhs prec p1 := rfl

theorem binaryOp_ne_dot {t : kTokenType} {v : kASTNodeType × Int × Int}
    (h : binaryOp t = some v) : t ≠ .T_DOT ∧ t ≠ .T_LPAREN := by
  constructor <;> rintro rfl <;> simp [binaryOp] at h

/-- A single-token atom followed by a token at which the loop stops. -/
theorem expr_atom_stop (fuel : Nat) (prec : Int) {p : Parser} {a : Token}
    {r : List Token} (h : p.rest = a :: r) (ha : isAtomKind a.type = true)
    (hdot : headType r ≠ .T_DOT) (hpar : headType r ≠ .T_LPAREN)
    (hstop : ∀ k l rb, binaryOp (headType r) = some (k, l, rb) → l ≤ prec) :
    expr (fuel + 2) prec p = some (some (atomNode a), p.advance 1) := by
  rw [expr_succ, exprLHS_atom _ _ h ha hdot hpar]
  simp only []
  apply exprLoop_stop
  rw [curType_eq, rest_next h]
  exact hstop

/-- Two single-token atoms joined by one operator that binds at `prec`,
followed by a token at which both loops stop. -/
theorem expr_binary (fuel : Nat) (prec : Int) {p : Parser} {a o b : Token}
    {r : List Token} {k : kASTNodeType} {l rb : Int}
    (h : p.rest = a :: o :: b :: r)
    (ha : isAtomKind a.type = true) (hb : isAtomKind b.type = true)
    (ho : binaryOp o.type = some (k, l, rb)) (hl : prec < l)
    (hdot : headType r ≠ .T_DOT) (hpar : headType r ≠ .T_LPAREN)
    (hstop1 : ∀ k1 l1 r1, binaryOp (headType r) = some (k1, l1, r1) → l1 ≤ rb)
    (hstop2 : ∀ k1 l1 r1, binaryOp (headType r) = some (k1, l1, r1) → l1 ≤ prec) :
    expr (fuel + 3) prec p =
      some (some (binNode k (atomNode a) (atomNode b)), p.advance 3) := by
  have hro : (p.advance 1).rest = o :: b :: r := rest_next h
  have hrb : ((p.advance 1).advance 1).rest = b :: r := rest_next hro
  have hoh : headType (o :: b :: r) = o.type := rfl
  rw [expr_succ, exprLHS_atom _ _ h ha (by rw [hoh]; exact (binaryOp_ne_dot ho).1)
    (by rw [hoh]; exact (binaryOp_ne_dot ho).2)]
  simp only []
  have hcur : (p.advance 1).curType = o.type := by rw [curType_eq, hro]; rfl
  rw [exprLoop_step (expr (fuel + 2)) (fuel + 1) _ prec (p.advance 1)
    (by rw [hcur]; exact ho) hl
    (expr_atom_stop fuel rb hrb hb hdot hpar hstop1)]
  rw [advance_advance, advance_advance]
  apply exprLoop_stop
  rw [curType_eq, ← advance_advance, ← advance_advance, rest_next hrb]
  exact hstop2

end Parser

/-- C1: precedence law.  For single-token atoms `a`, `b`, `c` and binary
operators `o1`, `o2` of the precedence table, `expr(0)` on `a o1 b o2 c` followed
by the end sentinel returns `o1(a, o2(b, c))` when the left binding power of `o2`
is strictly greater than that of `o1`, and `o2(o1(a, b), c)` when it is strictly
smaller; the cursor ends on the sentinel and no error is recorded.  Any fuel of
at least 4 is enough. -/
theorem expr_precedence_law (a o1 b o2 c eof : Token) (errs : List ParserError)
    (k1 k2 : kASTNodeType) (l1 r1 l2 r2 : Int) (fuel : Nat)
    (ha : isAtomKind a.type = true) (hb : isAtomKind b.type = true)
    (hc : isAtomKind c.type = true)
    (h1 : binaryOp o1.type = some (k1, l1, r1))
    (h2 : binaryOp o2.type = some (k2, l2, r2))
    (heof : eof.type = .T_END) (hfuel : 4 ≤ fuel) :
    (l1 < l2 →
      Parser.expr fuel 0 ⟨[a, o1, b, o2, c, eof], 0, errs⟩ =
        some (some (binNode k1 (atomNode a) (binNode k2 (atomNode b) (atomNode c))),
          ⟨[a, o1, b, o2, c, eof], 5, errs⟩)) ∧
    (l2 < l1 →
      Parser.expr fuel 0 ⟨[a, o1, b, o2, c, eof], 0, errs⟩ =
        some (some (binNode k2 (binNode k1 (atomNode a) (atomNode b)) (atomNode c)),
          ⟨[a, o1, b, o2, c, eof], 5, errs⟩)) := by
  obtain ⟨n, rfl⟩ := Nat.exists_eq_add_of_le hfuel
  have hend : headType [eof] = .T_END := by simp [headType, heof]
  have hstopEnd : ∀ (q : Int) k l r, binaryOp (headType [eof]) = some (k, l, r) → l ≤ q := by
    intro q k l r h; rw [hend] at h; simp [binaryOp] at h
  have b1 := Parser.binaryOp_bounds h1
  have b2 := Parser.binaryOp_bounds h2
  set p : Parser := ⟨[a, o1, b, o2, c, eof], 0, errs⟩ with hp
  have hr0 : p.rest = a :: o1 :: b :: o2 :: c :: [eof] := rfl
  have hr1 : (p.advance 1).rest = o1 :: b :: o2 :: c :: [eof] := rfl
  have hr2 : ((p.advance 1).advance 1).rest = b :: o2 :: c :: [eof] := rfl
  have hr3 : (p.advance 3).rest = o2 :: c :: [eof] := rfl
  have hr4 : ((p.advance 3).advance 1).rest = c :: [eof] := rfl
  have hr5 : (p.advance 5).rest = [eof] := rfl
  have hcur1 : (p.advance 1).curType = o1.type := rfl
  have hcur3 : (p.advance 3).curType = o2.type := rfl
  have hcur5 : (p.advance 5).curType = headType [eof] := rfl
  have hlhs := Parser.exprLHS_atom (Parser.expr (n + 3)) (n + 3) hr0 ha
    (Parser.binaryOp_ne_dot h1).1 (Parser.binaryOp_ne_dot h1).2
  have hfuel4 : 4 + n = (n + 3) + 1 := by omega
  rw [hfuel4, Parser.expr_succ, hlhs]
  simp only []
  constructor
  · intro hlt
    have hin := Parser.expr_binary n r1 hr2 hb hc h2
      (by omega) (by rw [hend]; decide) (by rw [hend]; decide)
      (hstopEnd r2) (hstopEnd r1)
    rw [Parser.exprLoop_step (Parser.expr (n + 3)) (n + 2) _ 0 (p.advance 1)
      (by rw [hcur1]; exact h1) (by omega) hin]
    exact Parser.exprLoop_stop _ (n + 1) _ 0 (p.advance 5)
      (by rw [hcur5]; exact hstopEnd 0)
  · intro hlt
    have hin := Parser.expr_atom_stop (n + 1) r1 hr2 hb
      (Parser.binaryOp_ne_dot h2).1 (Parser.binaryOp_ne_dot h2).2
      (by
        intro k l r h
        have : headType (o2 :: c :: [eof]) = o2.type := rfl
        rw [this, h2] at h
        simp only [Option.some.injEq, Prod.mk.injEq] at h
        omega)
    rw [Parser.exprLoop_step (Parser.expr (n + 3)) (n + 2) _ 0 (p.advance 1)
      (by rw [hcur1]; exact h1) (by omega) hin]
    have hin2 := Parser.expr_atom_stop (n + 1) r2 hr4 hc
      (by rw [hend]; decide) (by rw [hend]; decide) (hstopEnd r2)
    have hstep := Parser.exprLoop_step (Parser.expr (n + 3)) (n + 1)
      (binNode k1 (atomNode a) (atomNode b)) 0 (p.advance 3)
      (by rw [hcur3]; exact h2) (by omega) hin2
    refine hstep.trans ?_
    exact Parser.exprLoop_stop _ n _ 0 (p.advance 5)
      (by rw [hcur5]; exact hstopEnd 0)

namespace Parser

theorem opChain_length (rest : List (Token × Token)) :
    (opChain rest).length = 2 * rest.length := by
  induction rest with
  | nil => rfl
  | cons ox r ih => obtain ⟨o, x⟩ := ox; simp [opChain, ih]; omega

/-- A chain of `^` over single-token atoms, parsed at any precedence below 12,
nests to the right. -/
theorem expr_pow_chain (rest : List (Token × Token)) :
    ∀ (a : Token) (p : Parser) (prec : Int) (post : List Token) (fuel : Nat),
      p.rest = a :: (opChain rest ++ post) →
      isAtomKind a.type = true →
      (∀ ox ∈ rest, ox.1.type = .T_CIRCUMFLEX ∧ isAtomKind ox.2.type = true) →
      binaryOp (headType post) = none →
      headType post ≠ .T_DOT → headType post ≠ .T_LPAREN →
      prec < 12 →
      expr (fuel + rest.length + 2) prec p =
        some (some (rightNest .T_POW_EXPR a rest), p.advance (2 * rest.length + 1)) := by
  induction rest with
  | nil =>
    intro a p prec post fuel h ha _ hpost hdot hpar _
    have h0 : p.rest = a :: post := h
    exact expr_atom_stop fuel prec h0 ha hdot hpar
      (by intro k l r hb; rw [hpost] at hb; cases hb)
  | cons ox r ih =>
    obtain ⟨o, x⟩ := ox
    intro a p prec post fuel h ha hall hpost hdot hpar hprec
    have hox := hall (o, x) (List.mem_cons_self _ _)
    have ho : binaryOp o.type = some (.T_POW_EXPR, 12, 11) := by rw [hox.1]; rfl
    have h0 : p.rest = a :: o :: x :: (opChain r ++ post) := h
    have h1 : (p.advance 1).rest = o :: x :: (opChain r ++ post) := rest_next h0
    have h2 : ((p.advance 1).advance 1).rest = x :: (opChain r ++ post) := rest_next h1
    have hcur : (p.advance 1).curType = o.type := by rw [curType_eq, h1]; rfl
    have hin := ih x ((p.advance 1).advance 1) 11 post fuel h2 hox.2
      (fun ox hm => hall ox (List.mem_cons_of_mem _ hm)) hpost hdot hpar (by decide)
    have hf : fuel + (r.length + 1) + 2 = (fuel + r.length + 1 + 1) + 1 := by omega
    simp only [List.length_cons]
    rw [hf, expr_succ, exprLHS_atom _ _ h0 ha
      (by show o.type ≠ _; exact (binaryOp_ne_dot ho).1)
      (by show o.type ≠ _; exact (binaryOp_ne_dot ho).2)]
    simp only []
    rw [exprLoop_step (expr (fuel + r.length + 1 + 1)) (fuel + r.length + 1) _ prec
      (p.advance 1) (by rw [hcur]; exact ho) hprec hin]
    have hadv : ((p.advance 1).advance 1).advance (2 * r.length + 1) =
        p.advance (2 * (r.length + 1) + 1) := by
      simp only [advance_advance]; congr 1; omega
    rw [hadv]
    have h3 : (p.advance (2 * (r.length + 1) + 1)).rest = post := by
      have := rest_skip (p := p) (a :: o :: x :: opChain r) (r := post) (by simpa using h0)
      simpa [opChain_length, Nat.mul_add, Nat.add_assoc] using this
    have hstop := exprLoop_stop (expr (fuel + r.length + 1 + 1)) (fuel + r.length)
      (binNode .T_POW_EXPR (atomNode a) (rightNest .T_POW_EXPR x r)) prec
      (p.advance (2 * (r.length + 1) + 1))
      (by rw [curType_eq, h3, hpost]; intro k l r hb; cases hb)
    exact hstop

/-- The loop of `expr` over a chain of operators of one binding power `L`
(not 12) with single-token operands nests to the left. -/
theorem exprLoop_left_chain (L : Int) (post : List Token) (prec : Int)
    (hL : L ≠ 12) (hprec : prec < L)
    (hpost : binaryOp (headType post) = none)
    (hdot : headType post ≠ .T_DOT) (hpar : headType post ≠ .T_LPAREN)
    (rest : List (Token × Token)) :
    ∀ (lhs : ASTNode) (p : Parser) (F fuel : Nat),
      p.rest = opChain rest ++ post →
      (∀ ox ∈ rest, (∃ k r, binaryOp ox.1.type = some (k, L, r)) ∧
        isAtomKind ox.2.type = true) →
      exprLoop (expr (F + 2)) (fuel + rest.length + 1) lhs prec p =
        some (some (leftNest lhs rest), p.advance (2 * rest.length)) := by
  induction rest with
  | nil =>
    intro lhs p F fuel h _
    exact exprLoop_stop _ _ _ _ _
      (by rw [curType_eq, h]; simp only [opChain, List.nil_append, hpost]; intro k l r hb; cases hb)
  | cons ox r ih =>
    obtain ⟨o, x⟩ := ox
    intro lhs p F fuel h hall
    obtain ⟨⟨k, rb, ho⟩, hx⟩ := hall (o, x) (List.mem_cons_self _ _)
    have hrb : rb = L := by
      rcases (binaryOp_bounds ho).2.2 with h1 | h1
      · exact h1.1
      · exact absurd h1.1 hL
    subst hrb
    have h0 : p.rest = o :: x :: (opChain r ++ post) := h
    have h1 : (p.advance 1).rest = x :: (opChain r ++ post) := rest_next h0
    have hcur : p.curType = o.type := by rw [curType_eq, h0]; rfl
    have hall2 : ∀ ox ∈ r, (∃ k r, binaryOp ox.1.type = some (k, rb, r)) ∧
        isAtomKind ox.2.type = true := fun ox hm => hall ox (List.mem_cons_of_mem _ hm)
    -- what follows the operand: the next operator of the chain, or `post`
    have hnext : (binaryOp (headType (opChain r ++ post)) = none ∨
        ∃ k2 r2, binaryOp (headType (opChain r ++ post)) = some (k2, rb, r2)) ∧
        headType (opChain r ++ post) ≠ .T_DOT ∧
        headType (opChain r ++ post) ≠ .T_LPAREN := by
      cases r with
      | nil => exact ⟨Or.inl hpost, hdot, hpar⟩
      | cons oy r2 =>
        obtain ⟨o2, y⟩ := oy
        obtain ⟨⟨k2, r2b, ho2⟩, _⟩ := hall2 (o2, y) (List.mem_cons_self _ _)
        have hh : headType (opChain ((o2, y) :: r2) ++ post) = o2.type := rfl
        rw [hh]
        exact ⟨Or.inr ⟨k2, r2b, ho2⟩, (binaryOp_ne_dot ho2).1, (binaryOp_ne_dot ho2).2⟩
    have hin := expr_atom_stop F rb h1 hx hnext.2.1 hnext.2.2
      (by
        intro k2 l2 r2 hb
        rcases hnext.1 with hn | ⟨k3, r3, hn⟩
        · rw [hn] at hb; cases hb
        · rw [hn] at hb
          simp only [Option.some.injEq, Prod.mk.injEq] at hb
          omega)
    have hf : fuel + ((o, x) :: r).length + 1 = (fuel + r.length + 1) + 1 := by
      simp only [List.length_cons]; omega
    rw [hf, exprLoop_step (expr (F + 2)) (fuel + r.length + 1) lhs prec p
      (by rw [hcur]; exact ho) hprec hin]
    have h2 : ((p.advance 1).advance 1).rest = opChain r ++ post := rest_next h1
    rw [ih _ ((p.advance 1).advance 1) F fuel h2 hall2]
    have hk : opKind o.type = k := by simp [opKind, ho]
    simp only [leftNest, hk, binNode, advance_advance, List.length_cons]
    congr 3
    omega

end Parser

/-- Witness of C1: `1 + 2 * 3` gives `ADD(1, MUL(2, 3))`. -/
theorem expr_precedence_law_witness :
    Parser.expr 4 0
      ⟨[mkToken .T_NUMERIC "1" 0, mkToken .T_PLUS "+" 2,
        mkToken .T_NUMERIC "2" 4, mkToken .T_ASTERISK "*" 6,
        mkToken .T_NUMERIC "3" 8, mkToken .T_END "" 9], 0, []⟩ =
      some (some (.mk .T_ADD_EXPR none
        [some (.mk .T_LITERAL (some (mkToken .T_NUMERIC "1" 0)) []),
         some (.mk .T_MUL_EXPR none
          [some (.mk .T_LITERAL (some (mkToken .T_NUMERIC "2" 4)) []),
           some (.mk .T_LITERAL (some (mkToken .T_NUMERIC "3" 8)) [])])]),
        ⟨[mkToken .T_NUMERIC "1" 0, mkToken .T_PLUS "+" 2,
          mkToken .T_NUMERIC "2" 4, mkToken .T_ASTERISK "*" 6,
          mkToken .T_NUMERIC "3" 8, mkToken .T_END "" 9], 5, []⟩) :=
  (expr_precedence_law (mkToken .T_NUMERIC "1" 0) (mkToken .T_PLUS "+" 2)
    (mkToken .T_NUMERIC "2" 4) (mkToken .T_ASTERISK "*" 6)
    (mkToken .T_NUMERIC "3" 8) (mkToken .T_END "" 9) []
    .T_ADD_EXPR .T_MUL_EXPR 10 10 11 11 4 rfl rfl rfl rfl rfl rfl (by decide)).1
    (by decide)

/-- The second example of the precedence laws, by evaluation:
`1 = 2 AND 3 = 4 OR 5` gives `OR(AND(EQ(1, 2), EQ(3, 4)), 5)`. -/
theorem expr_precedence_example :
    Parser.expr 5 0
      ⟨[mkToken .T_NUMERIC "1" 0, mkToken .T_EQUAL "=" 2,
        mkToken .T_NUMERIC "2" 4, mkToken .T_AND "AND" 6,
        mkToken .T_NUMERIC "3" 10, mkToken .T_EQUAL "=" 12,
        mkToken .T_NUMERIC "4" 14, mkToken .T_OR "OR" 16,
        mkToken .T_NUMERIC "5" 19, mkToken .T_END "" 20], 0, []⟩ =
      some (some (.mk .T_OR_EXPR none
        [some (.mk .T_AND_EXPR none
          [some (.mk .T_EQ_EXPR none
            [some (.mk .T_LITERAL (some (mkToken .T_NUMERIC "1" 0)) []),
             some (.mk .T_LITERAL (some (mkToken .T_NUMERIC "2" 4)) [])]),
           some (.mk .T_EQ_EXPR none
            [some (.mk .T_LITERAL (some (mkToken .T_NUMERIC "3" 10)) []),
             some (.mk .T_LITERAL (some (mkToken .T_NUMERIC "4" 14)) [])])]),
         some (.mk .T_LITERAL (some (mkToken .T_NUMERIC "5" 19)) [])]),
        ⟨[mkToken .T_NUMERIC "1" 0, mkToken .T_EQUAL "=" 2,
          mkToken .T_NUMERIC "2" 4, mkToken .T_AND "AND" 6,
          mkToken .T_NUMERIC "3" 10, mkToken .T_EQUAL "=" 12,
          mkToken .T_NUMERIC "4" 14, mkToken .T_OR "OR" 16,
          mkToken .T_NUMERIC "5" 19, mkToken .T_END "" 20], 9, []⟩) := by
  rfl

/-- C2: the power operator is right-associative.  For single-token atoms
`a1 .. an` (here `a` and the operands of `rest`, so `n = rest.length + 1`) joined
by `^` tokens and followed by the end sentinel, `expr(0)` returns the right-nested
tree `POW(a1, POW(a2, ... POW(a(n-1), an)))` and leaves the cursor on the
sentinel, every token of the chain consumed, whenever the fuel is at least
`n + 1`. -/
theorem pow_right_associative (a : Token) (rest : List (Token × Token))
    (eof : Token) (errs : List ParserError) (fuel : Nat)
    (ha : isAtomKind a.type = true)
    (hrest : ∀ ox ∈ rest, ox.1.type = .T_CIRCUMFLEX ∧ isAtomKind ox.2.type = true)
    (heof : eof.type = .T_END) (hfuel : rest.length + 2 ≤ fuel) :
    Parser.expr fuel 0 ⟨a :: (opChain rest ++ [eof]), 0, errs⟩ =
      some (some (rightNest .T_POW_EXPR a rest),
        ⟨a :: (opChain rest ++ [eof]), 2 * rest.length + 1, errs⟩) := by
  obtain ⟨n, rfl⟩ := Nat.exists_eq_add_of_le hfuel
  have hend : headType [eof] = .T_END := by simp [headType, heof]
  have h := Parser.expr_pow_chain rest a ⟨a :: (opChain rest ++ [eof]), 0, errs⟩ 0 [eof] n
    rfl ha hrest (by rw [hend]; rfl) (by rw [hend]; decide) (by rw [hend]; decide)
    (by decide)
  have hf : rest.length + 2 + n = n + rest.length + 2 := by omega
  rw [hf, h]
  simp [Parser.advance]

/-- Witness of C2: `2 ^ 3 ^ 2` gives `POW(2, POW(3, 2))`. -/
theorem pow_right_associative_witness :
    Parser.expr 4 0
      ⟨[mkToken .T_NUMERIC "2" 0, mkToken .T_CIRCUMFLEX "^" 2,
        mkToken .T_NUMERIC "3" 4, mkToken .T_CIRCUMFLEX "^" 6,
        mkToken .T_NUMERIC "2" 8, mkToken .T_END "" 9], 0, []⟩ =
      some (some (.mk .T_POW_EXPR none
        [some (.mk .T_LITERAL (some (mkToken .T_NUMERIC "2" 0)) []),
         some (.mk .T_POW_EXPR none
          [some (.mk .T_LITERAL (some (mkToken .T_NUMERIC "3" 4)) []),
           some (.mk .T_LITERAL (some (mkToken .T_NUMERIC "2" 8)) [])])]),
        ⟨[mkToken .T_NUMERIC "2" 0, mkToken .T_CIRCUMFLEX "^" 2,
          mkToken .T_NUMERIC "3" 4, mkToken .T_CIRCUMFLEX "^" 6,
          mkToken .T_NUMERIC "2" 8, mkToken .T_END "" 9], 5, []⟩) :=
  pow_right_associative (mkToken .T_NUMERIC "2" 0)
    [(mkToken .T_CIRCUMFLEX "^" 2, mkToken .T_NUMERIC "3" 4),
     (mkToken .T_CIRCUMFLEX "^" 6, mkToken .T_NUMERIC "2" 8)]
    (mkToken .T_END "" 9) [] 4 rfl (by decide) rfl (by decide)

/-- C3: every operator other than `^` is left-associative.  For single-token
atoms `a1 .. an` (`a` and the operands of `rest`) joined by operators that all
have the same left binding power `L`, `L` not 12, and followed by the end
sentinel, `expr(0)` returns the left-nested tree
`op(n-1)(... op2(op1(a1, a2), a3) ..., an)` and leaves the cursor on the
sentinel, whenever the fuel is at least `n + 2`. -/
theorem same_lbp_left_associative (L : Int) (a : Token)
    (rest : List (Token × Token)) (eof : Token) (errs : List ParserError)
    (fuel : Nat) (ha : isAtomKind a.type = true)
    (hrest : ∀ ox ∈ rest, (∃ k r, binaryOp ox.1.type = some (k, L, r)) ∧
      isAtomKind ox.2.type = true)
    (hL : L ≠ 12) (heof : eof.type = .T_END) (hfuel : rest.length + 3 ≤ fuel) :
    Parser.expr fuel 0 ⟨a :: (opChain rest ++ [eof]), 0, errs⟩ =
      some (some (leftNest (atomNode a) rest),
        ⟨a :: (opChain rest ++ [eof]), 2 * rest.length + 1, errs⟩) := by
  obtain ⟨n, rfl⟩ := Nat.exists_eq_add_of_le hfuel
  have hend : headType [eof] = .T_END := by simp [headType, heof]
  cases rest with
  | nil =>
    have h := Parser.expr_atom_stop (n + 1) 0 (p := ⟨[a, eof], 0, errs⟩) (a := a)
      (r := [eof]) rfl ha (by rw [hend]; decide) (by rw [hend]; decide)
      (by rw [hend]; intro k l r hb; cases hb)
    have hf : ([] : List (Token × Token)).length + 3 + n = n + 1 + 2 := by
      simp only [List.length_nil]; omega
    rw [hf]
    exact h
  | cons ox r =>
    obtain ⟨o, x⟩ := ox
    obtain ⟨⟨k, rb, ho⟩, _⟩ := hrest (o, x) (List.mem_cons_self _ _)
    have hpos : (0 : Int) < L := by have := (Parser.binaryOp_bounds ho).1; omega
    have hf : ((o, x) :: r).length + 3 + n = (n + r.length + 3) + 1 := by
      simp only [List.length_cons]; omega
    rw [hf, Parser.expr_succ,
      Parser.exprLHS_atom _ _ (p := ⟨a :: (opChain ((o, x) :: r) ++ [eof]), 0, errs⟩)
        (a := a) (r := opChain ((o, x) :: r) ++ [eof]) rfl ha
        (by show o.type ≠ _; exact (Parser.binaryOp_ne_dot ho).1)
        (by show o.type ≠ _; exact (Parser.binaryOp_ne_dot ho).2)]
    simp only []
    have hloop := Parser.exprLoop_left_chain L [eof] 0 hL hpos (by rw [hend]; rfl)
      (by rw [hend]; decide) (by rw [hend]; decide) ((o, x) :: r) (atomNode a)
      (Parser.advance ⟨a :: (opChain ((o, x) :: r) ++ [eof]), 0, errs⟩ 1)
      (n + r.length + 1) (n + 1) rfl hrest
    have hf2 : n + 1 + ((o, x) :: r).length + 1 = n + r.length + 3 := by
      simp only [List.length_cons]; omega
    have hf3 : Parser.expr (n + r.length + 3) = Parser.expr (n + r.length + 1 + 2) := rfl
    rw [hf2] at hloop
    rw [hf3, hloop]
    simp [Parser.advance]
    omega

/-- Witness of C3: `a - b + c` gives `ADD(SUB(a, b), c)`. -/
theorem same_lbp_left_associative_witness :
    Parser.expr 5 0
      ⟨[mkToken .T_IDENTIFIER "a" 0, mkToken .T_MINUS "-" 2,
        mkToken .T_IDENTIFIER "b" 4, mkToken .T_PLUS "+" 6,
        mkToken .T_IDENTIFIER "c" 8, mkToken .T_END "" 9], 0, []⟩ =
      some (some (.mk .T_ADD_EXPR none
        [some (.mk .T_SUB_EXPR none
          [some (.mk .T_COLUMN_NAME (some (mkToken .T_IDENTIFIER "a" 0)) []),
           some (.mk .T_COLUMN_NAME (some (mkToken .T_IDENTIFIER "b" 4)) [])]),
         some (.mk .T_COLUMN_NAME (some (mkToken .T_IDENTIFIER "c" 8)) [])]),
        ⟨[mkToken .T_IDENTIFIER "a" 0, mkToken .T_MINUS "-" 2,
          mkToken .T_IDENTIFIER "b" 4, mkToken .T_PLUS "+" 6,
          mkToken .T_IDENTIFIER "c" 8, mkToken .T_END "" 9], 5, []⟩) :=
  same_lbp_left_associative 10 (mkToken .T_IDENTIFIER "a" 0)
    [(mkToken .T_MINUS "-" 2, mkToken .T_IDENTIFIER "b" 4),
     (mkToken .T_PLUS "+" 6, mkToken .T_IDENTIFIER "c" 8)]
    (mkToken .T_END "" 9) [] 5 rfl (by simp [binaryOp, mkToken, isAtomKind])
    (by decide) rfl (by decide)

/-- C4 (as amended): the operand of a unary minus is parsed by `expr()` at
precedence 0, so it spans the whole following expression.  For single-token
atoms `a` and `b`, parsing `SELECT - a + b` yields the select-list expression
`NEGATE(ADD(a, b))`: the `T_NEGATE_EXPR` node has a single child, the
`T_ADD_EXPR` of `a` and `b`.  Any fuel of at least 5 is enough. -/
theorem unary_minus_operand_is_whole_expr (sel minus a plus b eof : Token)
    (fuel : Nat) (hsel : sel.type = .T_SELECT) (hminus : minus.type = .T_MINUS)
    (ha : isAtomKind a.type = true) (hplus : plus.type = .T_PLUS)
    (hb : isAtomKind b.type = true) (heof : eof.type = .T_END)
    (hfuel : 5 ≤ fuel) :
    (parse fuel [sel, minus, a, plus, b, eof]).map (fun r => selectExprOf r.2.1 0) =
      some (some (.mk .T_NEGATE_EXPR none
        [some (binNode .T_ADD_EXPR (atomNode a) (atomNode b))])) := by
  obtain ⟨n, rfl⟩ := Nat.exists_eq_add_of_le hfuel
  rw [Nat.add_comm 5 n]
  obtain ⟨ts, ls, ss⟩ := sel
  obtain ⟨tm, lm, sm⟩ := minus
  obtain ⟨ta, la, sa⟩ := a
  obtain ⟨tp, lp, sp⟩ := plus
  obtain ⟨tb, lb, sb⟩ := b
  obtain ⟨te, le, se⟩ := eof
  simp only at hsel hminus hplus heof ha hb
  subst hsel hminus hplus heof
  cases ta <;> simp only [isAtomKind, Bool.false_eq_true] at ha <;>
    cases tb <;> simp only [isAtomKind, Bool.false_eq_true] at hb <;> rfl

/-- Counterexample to C4 as stated: on `SELECT - a + b` the select-list
expression is not `ADD(NEGATE(a), b)`. -/
theorem unary_minus_counterexample :
    (parse 5 [mkToken .T_SELECT "SELECT" 0, mkToken .T_MINUS "-" 7,
        mkToken .T_IDENTIFIER "a" 9, mkToken .T_PLUS "+" 11,
        mkToken .T_IDENTIFIER "b" 13, mkToken .T_END "" 14]).map
      (fun r => selectExprOf r.2.1 0) ≠
      some (some (.mk .T_ADD_EXPR none
        [some (.mk .T_NEGATE_EXPR none
          [some (.mk .T_COLUMN_NAME (some (mkToken .T_IDENTIFIER "a" 9)) [])]),
         some (.mk .T_COLUMN_NAME (some (mkToken .T_IDENTIFIER "b" 13)) [])])) := by
  have h : (parse 5 [mkToken .T_SELECT "SELECT" 0, mkToken .T_MINUS "-" 7,
        mkToken .T_IDENTIFIER "a" 9, mkToken .T_PLUS "+" 11,
        mkToken .T_IDENTIFIER "b" 13, mkToken .T_END "" 14]).map
      (fun r => selectExprOf r.2.1 0) =
      some (some (.mk .T_NEGATE_EXPR none
        [some (.mk .T_ADD_EXPR none
          [some (.mk .T_COLUMN_NAME (some (mkToken .T_IDENTIFIER "a" 9)) []),
           some (.mk .T_COLUMN_NAME (some (mkToken .T_IDENTIFIER "b" 13)) [])])])) := rfl
  rw [h]
  simp

/-- Witness of C4 (as amended): `SELECT - a + b`. -/
theorem unary_minus_operand_is_whole_expr_witness :
    (parse 5 [mkToken .T_SELECT "SELECT" 0, mkToken .T_MINUS "-" 7,
        mkToken .T_IDENTIFIER "a" 9, mkToken .T_PLUS "+" 11,
        mkToken .T_IDENTIFIER "b" 13, mkToken .T_END "" 14]).map
      (fun r => selectExprOf r.2.1 0) =
      some (some (.mk .T_NEGATE_EXPR none
        [some (.mk .T_ADD_EXPR none
          [some (.mk .T_COLUMN_NAME (some (mkToken .T_IDENTIFIER "a" 9)) []),
           some (.mk .T_COLUMN_NAME (some (mkToken .T_IDENTIFIER "b" 13)) [])])])) :=
  unary_minus_operand_is_whole_expr (mkToken .T_SELECT "SELECT" 0)
    (mkToken .T_MINUS "-" 7) (mkToken .T_IDENTIFIER "a" 9) (mkToken .T_PLUS "+" 11)
    (mkToken .T_IDENTIFIER "b" 13) (mkToken .T_END "" 14) 5 rfl rfl rfl rfl rfl rfl
    (by decide)

namespace Parser

/-- The parenthesized branch of `exprLHS` when the closing parenthesis is
there. -/
theorem exprLHS_paren (e : ExprFn) (fuel : Nat) {p p2 : Parser}
    {x : Option ASTNode} (hlp : p.curType = .T_LPAREN)
    (hin : e 0 (p.advance 1) = some (x, p2)) (hrp : p2.curType = .T_RPAREN) :
    exprLHS e fuel p = some (x, p2.advance 1) := by
  unfold exprLHS
  rw [hlp]
  simp only [consumeToken_snd, hin, assertExpectation, hrp, if_true]

end Parser

/-- C5: parentheses override precedence.  For single-token atoms `a`, `b`, `c`
and binary operators `o1`, `o2` of the table, `expr(0)` on `( a o1 b ) o2 c`
followed by the end sentinel returns `o2(o1(a, b), c)`, leaves the cursor on the
sentinel (all seven tokens consumed, the `)` included) and leaves the error list
as it was.  Any fuel of at least 4 is enough. -/
theorem paren_overrides_precedence (lp a o1 b rp o2 c eof : Token)
    (errs : List ParserError) (k1 k2 : kASTNodeType) (l1 r1 l2 r2 : Int)
    (fuel : Nat) (hlp : lp.type = .T_LPAREN) (hrp : rp.type = .T_RPAREN)
    (ha : isAtomKind a.type = true) (hb : isAtomKind b.type = true)
    (hc : isAtomKind c.type = true)
    (h1 : binaryOp o1.type = some (k1, l1, r1))
    (h2 : binaryOp o2.type = some (k2, l2, r2))
    (heof : eof.type = .T_END) (hfuel : 4 ≤ fuel) :
    Parser.expr fuel 0 ⟨[lp, a, o1, b, rp, o2, c, eof], 0, errs⟩ =
      some (some (binNode k2 (binNode k1 (atomNode a) (atomNode b)) (atomNode c)),
        ⟨[lp, a, o1, b, rp, o2, c, eof], 7, errs⟩) := by
  obtain ⟨n, rfl⟩ := Nat.exists_eq_add_of_le hfuel
  have hend : headType [eof] = .T_END := by simp [headType, heof]
  have hrpar : headType (rp :: o2 :: c :: [eof]) = .T_RPAREN := hrp
  have hstopEnd : ∀ (q : Int) k l r, binaryOp (headType [eof]) = some (k, l, r) → l ≤ q := by
    intro q k l r h; rw [hend] at h; simp [binaryOp] at h
  have hstopR : ∀ (q : Int) k l r,
      binaryOp (headType (rp :: o2 :: c :: [eof])) = some (k, l, r) → l ≤ q := by
    intro q k l r h; rw [hrpar] at h; simp [binaryOp] at h
  have b1 := Parser.binaryOp_bounds h1
  have b2 := Parser.binaryOp_bounds h2
  set p : Parser := ⟨[lp, a, o1, b, rp, o2, c, eof], 0, errs⟩ with hp
  have hr1 : (p.advance 1).rest = a :: o1 :: b :: rp :: o2 :: c :: [eof] := rfl
  have hr6 : ((p.advance 5).advance 1).rest = c :: [eof] := rfl
  have hin := Parser.expr_binary n 0 hr1 ha hb h1 (by omega)
    (by rw [hrpar]; decide) (by rw [hrpar]; decide) (hstopR r1) (hstopR 0)
  have hlhs := Parser.exprLHS_paren (Parser.expr (n + 3)) (n + 3) (p := p) hlp hin hrp
  have hfuel4 : 4 + n = (n + 3) + 1 := by omega
  rw [hfuel4, Parser.expr_succ, hlhs]
  simp only []
  have hin2 := Parser.expr_atom_stop (n + 1) r2 hr6 hc
    (by rw [hend]; decide) (by rw [hend]; decide) (hstopEnd r2)
  have hstep := Parser.exprLoop_step (Parser.expr (n + 3)) (n + 2)
    (binNode k1 (atomNode a) (atomNode b)) 0 (p.advance 5)
    (by show binaryOp o2.type = _; exact h2) (by omega) hin2
  refine hstep.trans ?_
  exact Parser.exprLoop_stop _ (n + 1) _ 0 (p.advance 7)
    (by show ∀ k l r, binaryOp (headType [eof]) = some (k, l, r) → l ≤ 0; exact hstopEnd 0)

/-- Witness of C5: `(1 + 2) * 3` gives `MUL(ADD(1, 2), 3)`. -/
theorem paren_overrides_precedence_witness :
    Parser.expr 4 0
      ⟨[mkToken .T_LPAREN "(" 0, mkToken .T_NUMERIC "1" 1, mkToken .T_PLUS "+" 3,
        mkToken .T_NUMERIC "2" 5, mkToken .T_RPAREN ")" 6,
        mkToken .T_ASTERISK "*" 8, mkToken .T_NUMERIC "3" 10,
        mkToken .T_END "" 11], 0, []⟩ =
      some (some (.mk .T_MUL_EXPR none
        [some (.mk .T_ADD_EXPR none
          [some (.mk .T_LITERAL (some (mkToken .T_NUMERIC "1" 1)) []),
           some (.mk .T_LITERAL (some (mkToken .T_NUMERIC "2" 5)) [])]),
         some (.mk .T_LITERAL (some (mkToken .T_NUMERIC "3" 10)) [])]),
        ⟨[mkToken .T_LPAREN "(" 0, mkToken .T_NUMERIC "1" 1, mkToken .T_PLUS "+" 3,
          mkToken .T_NUMERIC "2" 5, mkToken .T_RPAREN ")" 6,
          mkToken .T_ASTERISK "*" 8, mkToken .T_NUMERIC "3" 10,
          mkToken .T_END "" 11], 7, []⟩) :=
  paren_overrides_precedence (mkToken .T_LPAREN "(" 0) (mkToken .T_NUMERIC "1" 1)
    (mkToken .T_PLUS "+" 3) (mkToken .T_NUMERIC "2" 5) (mkToken .T_RPAREN ")" 6)
    (mkToken .T_ASTERISK "*" 8) (mkToken .T_NUMERIC "3" 10) (mkToken .T_END "" 11)
    [] .T_ADD_EXPR .T_MUL_EXPR 10 10 11 11 4 rfl rfl rfl rfl rfl rfl rfl rfl
    (by decide)

theorem ASTNode.getType_appendChild (n : ASTNode) (c : Option ASTNode) :
    (n.appendChild c).getType = n.getType := by
  cases n; rfl

namespace Parser

theorem selectListLoop_type (fuel : Nat) :
    ∀ (select_list : ASTNode) (p : Parser) (r : ASTNode × Parser),
      selectListLoop fuel select_list p = some r → r.1.getType = select_list.getType := by
  induction fuel with
  | zero => intro sl p r h; simp [selectListLoop] at h
  | succ n ih =>
    intro sl p r h
    unfold selectListLoop at h
    cases hs : selectSublist n p with
    | none => simp [hs] at h
    | some v =>
      obtain ⟨item, p1⟩ := v
      simp only [hs] at h
      split at h
      · rw [ih _ _ _ h, ASTNode.getType_appendChild]
      · cases h
        exact ASTNode.getType_appendChild _ _

/-- The select-list block returns a `T_SELECT_LIST` node. -/
theorem selectList_type {fuel : Nat} {p p2 : Parser} {select_list : ASTNode}
    (h : selectList fuel p = some (select_list, p2)) :
    select_list.getType = .T_SELECT_LIST := by
  unfold selectList at h
  split at h
  · cases h; rfl
  · exact selectListLoop_type fuel _ _ _ h

end Parser

/-- C7: semicolon short-circuit.  Whenever the current token is `SELECT` and the
token right after the select list is `;`, `selectStatement` returns a `T_SELECT`
node whose only child is the `T_SELECT_LIST` node, in the very state the select
list left: no clause is attempted, the cursor stays on the `;` and no error is
added (in particular none for a missing `FROM`). -/
theorem semicolon_short_circuit (fuel : Nat) (p p2 : Parser)
    (select_list : ASTNode) (hsel : p.curType = .T_SELECT)
    (hlist : Parser.selectList fuel (p.advance 1) = some (select_list, p2))
    (hsemi : p2.curType = .T_SEMICOLON) :
    Parser.selectStatement fuel p =
        some (some (.mk .T_SELECT none [some select_list]), p2) ∧
      select_list.getType = .T_SELECT_LIST := by
  refine ⟨?_, Parser.selectList_type hlist⟩
  unfold Parser.selectStatement
  simp only [Parser.assertExpectation, hsel, if_true, Parser.consumeToken_snd, hlist, hsemi]
  rfl

/-- Witness of C7: `SELECT *;` yields `SELECT { SELECT_LIST { ALL } }` and the
error list stays empty. -/
theorem semicolon_short_circuit_witness :
    Parser.selectStatement 1
      ⟨[mkToken .T_SELECT "SELECT" 0, mkToken .T_ASTERISK "*" 7,
        mkToken .T_SEMICOLON ";" 8, mkToken .T_END "" 9], 0, []⟩ =
      some (some (.mk .T_SELECT none
        [some (.mk .T_SELECT_LIST none [some (.mk .T_ALL none [])])]),
        ⟨[mkToken .T_SELECT "SELECT" 0, mkToken .T_ASTERISK "*" 7,
          mkToken .T_SEMICOLON ";" 8, mkToken .T_END "" 9], 2, []⟩) :=
  (semicolon_short_circuit 1
    ⟨[mkToken .T_SELECT "SELECT" 0, mkToken .T_ASTERISK "*" 7,
      mkToken .T_SEMICOLON ";" 8, mkToken .T_END "" 9], 0, []⟩
    ⟨[mkToken .T_SELECT "SELECT" 0, mkToken .T_ASTERISK "*" 7,
      mkToken .T_SEMICOLON ";" 8, mkToken .T_END "" 9], 2, []⟩
    (.mk .T_SELECT_LIST none [some (.mk .T_ALL none [])]) rfl rfl rfl).1

/-- The example of C7 through `parse`: `SELECT *;` succeeds (return code 1) with
the tree `ROOT { SELECT { SELECT_LIST { ALL } } }` and an empty error list. -/
theorem parse_select_all_semicolon :
    parse 1 [mkToken .T_SELECT "SELECT" 0, mkToken .T_ASTERISK "*" 7,
        mkToken .T_SEMICOLON ";" 8, mkToken .T_END "" 9] =
      some (1, .mk .T_ROOT none [some (.mk .T_SELECT none
        [some (.mk .T_SELECT_LIST none [some (.mk .T_ALL none [])])])],
        ⟨[mkToken .T_SELECT "SELECT" 0, mkToken .T_ASTERISK "*" 7,
          mkToken .T_SEMICOLON ";" 8, mkToken .T_END "" 9], 2, []⟩) := by
  rfl

/-- C8, the failing input: on `SELECT 1` (no `FROM`) `selectStatement` returns a
`T_SELECT` node with two children, the `T_SELECT_LIST` and a null pointer: the
result of `fromClause()` is appended without the null test the other clauses
get. -/
theorem select_without_from_has_null_child :
    Parser.selectStatement 3
      ⟨[mkToken .T_SELECT "SELECT" 0, mkToken .T_NUMERIC "1" 7,
        mkToken .T_END "" 8], 0, []⟩ =
      some (some (.mk .T_SELECT none
        [some (.mk .T_SELECT_LIST none [some (.mk .T_DERIVED_COLUMN none
          [some (.mk .T_LITERAL (some (mkToken .T_NUMERIC "1" 7)) [])])]),
         none]),
        ⟨[mkToken .T_SELECT "SELECT" 0, mkToken .T_NUMERIC "1" 7,
          mkToken .T_END "" 8], 2, [⟨.ERR_UNEXPECTED_TOKEN⟩]⟩) := by
  rfl

/-- C10 (as amended): a `*` inside a function-call argument list is not
accepted as an expression.  Parsing `SELECT count ( * ) FROM t` fails (return
code 0) with two errors recorded, the failed expectation of `)` in `methodCall`
and the failed expectation of `FROM` after the select list, and the value of the
derived column is a `T_MUL_EXPR` whose left operand is the `T_METHOD_CALL`
carrying the `count` token.  Any fuel of at least 4 is enough. -/
theorem star_argument_not_accepted (sel f lp star rp frm t eof : Token)
    (fuel : Nat) (hsel : sel.type = .T_SELECT) (hf : f.type = .T_IDENTIFIER)
    (hlp : lp.type = .T_LPAREN) (hstar : star.type = .T_ASTERISK)
    (hrp : rp.type = .T_RPAREN) (hfrm : frm.type = .T_FROM)
    (ht : t.type = .T_IDENTIFIER) (heof : eof.type = .T_END) (hfuel : 4 ≤ fuel) :
    (parse fuel [sel, f, lp, star, rp, frm, t, eof]).map
        (fun r => (r.1, r.2.2.errors_,
          (selectExprOf r.2.1 0).map ASTNode.getType,
          ((selectExprOf r.2.1 0).bind (fun m => m.child 0)).map
            (fun c => (c.getType, c.getToken)))) =
      some (0, [⟨.ERR_UNEXPECTED_TOKEN⟩, ⟨.ERR_UNEXPECTED_TOKEN⟩],
        some .T_MUL_EXPR, some (.T_METHOD_CALL, some f)) := by
  obtain ⟨n, rfl⟩ := Nat.exists_eq_add_of_le hfuel
  rw [Nat.add_comm 4 n]
  obtain ⟨ts, ls, ss⟩ := sel
  obtain ⟨tf, lf, sf⟩ := f
  obtain ⟨tl, ll, sl⟩ := lp
  obtain ⟨tx, lx, sx⟩ := star
  obtain ⟨tr, lr, sr⟩ := rp
  obtain ⟨tm, lm, sm⟩ := frm
  obtain ⟨tt, lt, st⟩ := t
  obtain ⟨te, le, se⟩ := eof
  simp only at hsel hf hlp hstar hrp hfrm ht heof
  subst hsel hf hlp hstar hrp hfrm ht heof
  rfl

/-- Witness of C10 (as amended): `SELECT count ( * ) FROM t`. -/
theorem star_argument_not_accepted_witness :
    (parse 4 [mkToken .T_SELECT "SELECT" 0, mkToken .T_IDENTIFIER "count" 7,
        mkToken .T_LPAREN "(" 12, mkToken .T_ASTERISK "*" 13,
        mkToken .T_RPAREN ")" 14, mkToken .T_FROM "FROM" 16,
        mkToken .T_IDENTIFIER "t" 21, mkToken .T_END "" 22]).map
        (fun r => (r.1, r.2.2.errors_,
          (selectExprOf r.2.1 0).map ASTNode.getType,
          ((selectExprOf r.2.1 0).bind (fun m => m.child 0)).map
            (fun c => (c.getType, c.getToken)))) =
      some (0, [⟨.ERR_UNEXPECTED_TOKEN⟩, ⟨.ERR_UNEXPECTED_TOKEN⟩],
        some .T_MUL_EXPR,
        some (.T_METHOD_CALL, some (mkToken .T_IDENTIFIER "count" 7))) :=
  star_argument_not_accepted (mkToken .T_SELECT "SELECT" 0)
    (mkToken .T_IDENTIFIER "count" 7) (mkToken .T_LPAREN "(" 12)
    (mkToken .T_ASTERISK "*" 13) (mkToken .T_RPAREN ")" 14)
    (mkToken .T_FROM "FROM" 16) (mkToken .T_IDENTIFIER "t" 21)
    (mkToken .T_END "" 22) 4 rfl rfl rfl rfl rfl rfl rfl rfl (by decide)

/-- Counterexample to C10 as stated: parsing `SELECT count ( * ) FROM t` does
not leave the error list empty, and the value of the derived column is not a
`T_METHOD_CALL` node. -/
theorem star_argument_counterexample :
    (parse 4 [mkToken .T_SELECT "SELECT" 0, mkToken .T_IDENTIFIER "count" 7,
        mkToken .T_LPAREN "(" 12, mkToken .T_ASTERISK "*" 13,
        mkToken .T_RPAREN ")" 14, mkToken .T_FROM "FROM" 16,
        mkToken .T_IDENTIFIER "t" 21, mkToken .T_END "" 22]).map
        (fun r => r.2.2.errors_) ≠ some [] ∧
    (parse 4 [mkToken .T_SELECT "SELECT" 0, mkToken .T_IDENTIFIER "count" 7,
        mkToken .T_LPAREN "(" 12, mkToken .T_ASTERISK "*" 13,
        mkToken .T_RPAREN ")" 14, mkToken .T_FROM "FROM" 16,
        mkToken .T_IDENTIFIER "t" 21, mkToken .T_END "" 22]).map
        (fun r => (selectExprOf r.2.1 0).map ASTNode.getType) ≠
      some (some .T_METHOD_CALL) := by
  constructor
  · have h : (parse 4 [mkToken .T_SELECT "SELECT" 0, mkToken .T_IDENTIFIER "count" 7,
        mkToken .T_LPAREN "(" 12, mkToken .T_ASTERISK "*" 13,
        mkToken .T_RPAREN ")" 14, mkToken .T_FROM "FROM" 16,
        mkToken .T_IDENTIFIER "t" 21, mkToken .T_END "" 22]).map
        (fun r => r.2.2.errors_) =
        some [⟨.ERR_UNEXPECTED_TOKEN⟩, ⟨.ERR_UNEXPECTED_TOKEN⟩] := rfl
    rw [h]
    decide
  · have h : (parse 4 [mkToken .T_SELECT "SELECT" 0, mkToken .T_IDENTIFIER "count" 7,
        mkToken .T_LPAREN "(" 12, mkToken .T_ASTERISK "*" 13,
        mkToken .T_RPAREN ")" 14, mkToken .T_FROM "FROM" 16,
        mkToken .T_IDENTIFIER "t" 21, mkToken .T_END "" 22]).map
        (fun r => (selectExprOf r.2.1 0).map ASTNode.getType) =
        some (some .T_MUL_EXPR) := rfl
    rw [h]
    decide

theorem ASTNode.appendChildren_nil (n : ASTNode) : n.appendChildren [] = n := by
  cases n; simp [ASTNode.appendChildren]

theorem ASTNode.appendChild_appendChildren (n : ASTNode) (c : Option ASTNode)
    (cs : List (Option ASTNode)) :
    (n.appendChild c).appendChildren cs = n.appendChildren (c :: cs) := by
  cases n; simp [ASTNode.appendChildren, ASTNode.appendChild]

theorem isStopKind_iff {t : kTokenType} (h : isStopKind t = true) :
    binaryOp t = none ∧ t ≠ .T_DOT ∧ t ≠ .T_LPAREN := by
  simp only [isStopKind, Bool.and_eq_true, Option.isNone_iff_eq_none, bne_iff_ne] at h
  exact ⟨h.1.1, h.1.2, h.2⟩

namespace Parser

theorem cur_lt_of_rest {p : Parser} {t d : Token} {r : List Token}
    (h : p.rest = t :: d :: r) : p.cur_token_ + 1 < p.token_list_.length := by
  have := congrArg List.length h
  simp only [rest, List.length_drop, List.length_cons] at this
  omega

theorem curType_of_rest {p : Parser} {t : Token} {r : List Token}
    (h : p.rest = t :: r) : p.curType = t.type := by
  rw [curType_eq, h]; rfl

theorem curType_advance {p : Parser} (ts : List Token) {r : List Token}
    (h : p.rest = ts ++ r) : (p.advance ts.length).curType = headType r := by
  rw [curType_eq, rest_skip ts h]

/-- The unary-operator branch of `exprLHS`. -/
theorem exprLHS_negate (e : ExprFn) (fuel : Nat) {p p2 : Parser}
    {x : Option ASTNode} (ho : isNegationKind p.curType = true)
    (hin : e 0 (p.advance 1) = some (x, p2)) :
    exprLHS e fuel p = some (some (.mk .T_NEGATE_EXPR none [x]), p2) := by
  unfold exprLHS
  cases hty : p.curType <;> simp [hty, isNegationKind] at ho <;>
    simp only [consumeToken_snd, hin] <;> rfl

/-- The qualified-column branch of `exprLHS`. -/
theorem exprLHS_qualified (e : ExprFn) (fuel : Nat) {p : Parser} {t d c : Token}
    {r : List Token} (h : p.rest = t :: d :: c :: r) (ht : t.type = .T_IDENTIFIER)
    (hd : d.type = .T_DOT) (hc : c.type = .T_IDENTIFIER) :
    exprLHS e fuel p =
      some (some (.mk .T_TABLE_NAME (some t) [some (.mk .T_COLUMN_NAME (some c) [])]),
        p.advance 3) := by
  have h1 : (p.advance 1).rest = d :: c :: r := rest_next h
  have h2 : ((p.advance 1).advance 1).rest = c :: r := rest_next h1
  have hk : p.curToken = t := curToken_of_rest h
  have hpk : (p.peekToken 1).type = .T_DOT := by rw [peek_one_type h]; exact hd
  unfold exprLHS
  rw [curType_of_rest h, ht]
  have hc2 : ((p.advance 1).advance 1).curType = .T_IDENTIFIER := by
    rw [curType_of_rest h2]; exact hc
  have hk2 : ((p.advance 1).advance 1).curToken = c := curToken_of_rest h2
  simp only [cur_lt_of_rest h, hpk, and_self, if_true, consumeToken_snd, assertExpectation,
    hc2, hk, hk2]
  rfl

/-- The call branch of `exprLHS`. -/
theorem exprLHS_call (e : ExprFn) (fuel : Nat) {p : Parser} {f lp : Token}
    {r : List Token} (h : p.rest = f :: lp :: r) (hf : f.type = .T_IDENTIFIER)
    (hlp : lp.type = .T_LPAREN) :
    exprLHS e fuel p =
      match methodCallArgs e fuel (.mk .T_METHOD_CALL (some f) []) (p.advance 1) with
      | none => none
      | some (e1, p2) => some (some e1, (p2.expectAndConsume .T_RPAREN).2) := by
  have hk : p.curToken = f := curToken_of_rest h
  have hpk : (p.peekToken 1).type = .T_LPAREN := by rw [peek_one_type h]; exact hlp
  unfold exprLHS
  rw [curType_of_rest h, hf]
  simp only [hpk, lookahead, methodCall, consumeToken, hk]
  simp
  rfl

/-- At a closing parenthesis there is no atom: `expr` returns null and leaves
the state as it is. -/
theorem expr_at_rparen (fuel : Nat) (prec : Int) {p : Parser}
    (h : p.curType = .T_RPAREN) : expr (fuel + 1) prec p = some (none, p) := by
  rw [expr_succ]
  unfold exprLHS
  rw [h]

theorem expectAndConsume_ok {p : Parser} {k : kTokenType} (h : p.curType = k) :
    (p.expectAndConsume k).2 = p.advance 1 := by
  simp [expectAndConsume, assertExpectation, h, consumeToken_snd]

/-- The argument loop of `methodCall` over separators and expressions the
parser handles: one child per expression, in order. -/
theorem methodCallArgs_items (F : Nat) (items : List (Token × List Token)) :
    ∀ (acc : ASTNode) (p : Parser) (post : List Token) (fuel : Nat),
      p.rest = argChain items ++ post → items ≠ [] →
      (∀ x ∈ items, ParsesInContext x.2 ∧ x.2.length + 1 ≤ F) →
      (∀ x ∈ items.tail, x.1.type = .T_COMMA) →
      isStopKind (headType post) = true → headType post ≠ .T_COMMA →
      items.length ≤ fuel →
      methodCallArgs (expr F) fuel acc p =
        some (acc.appendChildren (items.map (fun x => parseAlone x.2)),
          p.advance (argChain items).length) := by
  induction items with
  | nil => intro acc p post fuel _ hne; exact absurd rfl hne
  | cons x rest ih =>
    obtain ⟨s, e⟩ := x
    intro acc p post fuel h _ hall hcomma hstop hnc hfuel
    obtain ⟨g, rfl⟩ : ∃ g, fuel = g + 1 := ⟨fuel - 1, by simp at hfuel; omega⟩
    have h0 : p.rest = s :: (e ++ (argChain rest ++ post)) := by
      simpa [argChain, List.append_assoc] using h
    have h1 : (p.advance 1).rest = e ++ (argChain rest ++ post) := rest_next h0
    obtain ⟨hctx, hF⟩ := hall (s, e) (List.mem_cons_self _ _)
    have hnext : isStopKind (headType (argChain rest ++ post)) = true ∧
        (headType (argChain rest ++ post) = .T_COMMA ↔ rest ≠ []) := by
      cases rest with
      | nil => exact ⟨hstop, by simpa [argChain] using hnc⟩
      | cons y r2 =>
        obtain ⟨s2, e2⟩ := y
        have hs2 : s2.type = .T_COMMA := hcomma (s2, e2) (List.mem_cons_self _ _)
        have hh : headType (argChain ((s2, e2) :: r2) ++ post) = s2.type := rfl
        rw [hh, hs2]
        exact ⟨rfl, by simp⟩
    have hin := hctx (p.advance 1) _ F h1 hnext.1 hF
    have h2 : ((p.advance 1).advance e.length).rest = argChain rest ++ post :=
      rest_skip e h1
    unfold methodCallArgs
    simp only [consumeToken_snd, hin, curType_eq, h2]
    by_cases hr : rest = []
    · subst hr
      have hnc2 : ¬ headType (argChain [] ++ post) = .T_COMMA := by
        simpa [argChain] using hnc
      rw [if_neg hnc2]
      simp [argChain, advance_advance, ASTNode.appendChild_appendChildren,
        ← ASTNode.appendChild_appendChildren acc (parseAlone e) [],
        ASTNode.appendChildren_nil, Nat.add_comm]
    · rw [if_pos (hnext.2.mpr hr)]
      rw [ih (acc.appendChild (parseAlone e)) ((p.advance 1).advance e.length) post g h2 hr
        (fun x hx => hall x (List.mem_cons_of_mem _ hx))
        (fun x hx => hcomma x (List.mem_of_mem_tail hx)) hstop hnc
        (by simp at hfuel; omega)]
      simp only [ASTNode.appendChild_appendChildren, List.map_cons, advance_advance,
        argChain, List.length_cons, List.length_append]
      congr 3
      omega

theorem canon_length_pos {b : Bool} {e : List Token} (h : Canon b e) :
    1 ≤ e.length := by
  induction h with
  | literal | column | qualified | call0 | call | paren | neg => simp
  | prim u _ ih => exact ih
  | step u o e _ _ _ _ _ => simp; omega

theorem tailStops_zero {t : List Token} (h : TailStops t 0) : t = [] := by
  rcases h with h | ⟨o, e, k, l, r, _, hb, hl, _⟩
  · exact h
  · have := (binaryOp_bounds hb).1
    omega

theorem tail_of_tailStops {t : List Token} {prec : Int} (h : TailStops t prec) :
    Tail t := by
  rcases h with h | ⟨o, e, k, l, r, ht, hb, _, hc⟩
  · exact Or.inl h
  · exact Or.inr ⟨o, e, ht, by simp [hb], hc⟩

theorem exprLoop_at_stop (e : ExprFn) (fuel : Nat) (lhs : ASTNode) (prec : Int)
    {p : Parser} (h : isStopKind p.curType = true) :
    exprLoop e (fuel + 1) lhs prec p = some (some lhs, p) := by
  apply exprLoop_stop
  intro k l r hb
  rw [(isStopKind_iff h).1] at hb
  cases hb

/-- An expression the parser consumes whole at precedence 0, with a non-null
result that does not depend on the context, is handled in every context. -/
theorem parsesInContext_of_node {e : List Token} {node : ASTNode}
    (h : ∀ (p : Parser) (post : List Token) (fuel : Nat), p.rest = e ++ post →
      isStopKind (headType post) = true → e.length + 1 ≤ fuel →
      expr fuel 0 p = some (some node, p.advance e.length)) :
    ParsesInContext e ∧ parseAlone e = some node := by
  have h0 := h ⟨e ++ [Token.sentinel], 0, []⟩ [Token.sentinel] (e.length + 1) rfl rfl
    (Nat.le_refl _)
  have hp : parseAlone e = some node := by
    simp only [parseAlone, h0]
  refine ⟨?_, hp⟩
  intro p post fuel hr hs hf
  rw [hp]
  exact h p post fuel hr hs hf

theorem result_advance_congr {node : Option ASTNode} {p : Parser} {a b : Nat}
    (h : a = b) : (some (node, p.advance a) : Result) = some (node, p.advance b) := by
  rw [h]

theorem argChain_mem_length {more : List (Token × List Token)}
    {x : Token × List Token} (h : x ∈ more) :
    x.2.length + 1 ≤ (argChain more).length := by
  induction more with
  | nil => cases h
  | cons y r ih =>
    obtain ⟨s, e⟩ := y
    rcases List.mem_cons.mp h with h1 | h1
    · subst h1; simp only [argChain, List.length_cons, List.length_append]; omega
    · have := ih h1
      simp [argChain]; omega

theorem argChain_length_ge (more : List (Token × List Token)) :
    more.length ≤ (argChain more).length := by
  induction more with
  | nil => simp
  | cons y r ih => obtain ⟨s, e⟩ := y; simp [argChain]; omega

/-- Primary operands: given that shorter expressions are handled in every
context, `exprLHS` consumes a primary operand exactly and returns a non-null
node that does not depend on the context. -/
theorem prim_ok (n : Nat)
    (hctx : ∀ e : List Token, e.length ≤ n → Canon false e →
      ParsesInContext e ∧ (parseAlone e).isSome = true) :
    ∀ u : List Token, u.length ≤ n + 1 → Canon true u →
      ∃ node : ASTNode, ∀ (p : Parser) (post : List Token) (fuel : Nat),
        p.rest = u ++ post → headType post ≠ .T_DOT → headType post ≠ .T_LPAREN →
        u.length ≤ fuel →
        exprLHS (expr fuel) fuel p = some (some node, p.advance u.length) := by
  intro u hu hc
  cases hc with
  | literal t ht =>
    refine ⟨atomNode t, ?_⟩
    intro p post fuel hr hd hp _
    exact exprLHS_atom _ _ hr (by cases h : t.type <;> simp_all [isLiteralKind, isAtomKind]) hd hp
  | column t ht =>
    refine ⟨atomNode t, ?_⟩
    intro p post fuel hr hd hp _
    exact exprLHS_atom _ _ hr (by rw [ht]; rfl) hd hp
  | qualified t d c ht hd hc =>
    refine ⟨.mk .T_TABLE_NAME (some t) [some (.mk .T_COLUMN_NAME (some c) [])], ?_⟩
    intro p post fuel hr _ _ _
    exact exprLHS_qualified _ _ hr ht hd hc
  | call0 f lp rp hf hlp hrp =>
    refine ⟨.mk .T_METHOD_CALL (some f) [none], ?_⟩
    intro p post fuel hr _ _ hfuel
    obtain ⟨g, rfl⟩ : ∃ g, fuel = g + 1 := ⟨fuel - 1, by simp at hfuel; omega⟩
    have h0 : p.rest = f :: lp :: rp :: post := hr
    have h1 : (p.advance 1).rest = lp :: rp :: post := rest_next h0
    have h2 : ((p.advance 1).advance 1).rest = rp :: post := rest_next h1
    have hc2 : ((p.advance 1).advance 1).curType = .T_RPAREN := by
      rw [curType_of_rest h2]; exact hrp
    rw [exprLHS_call _ _ h0 hf hlp]
    unfold methodCallArgs
    simp only [consumeToken_snd, expr_at_rparen g 0 hc2, hc2, reduceCtorEq, if_false,
      expectAndConsume_ok hc2]
    rfl
  | call f lp rp e more hf hlp hrp he hcomma hmore =>
    refine ⟨(ASTNode.mk .T_METHOD_CALL (some f) []).appendChildren
      (((lp, e) :: more).map (fun x => parseAlone x.2)), ?_⟩
    intro p post fuel hr _ _ hfuel
    have hlen : (f :: lp :: (e ++ argChain more ++ [rp])).length =
        (argChain ((lp, e) :: more)).length + 2 := by
      simp [argChain]; omega
    rw [hlen] at hu hfuel ⊢
    have h0 : p.rest = f :: lp :: (e ++ argChain more ++ rp :: post) := by
      simpa [List.append_assoc] using hr
    have h1 : (p.advance 1).rest = argChain ((lp, e) :: more) ++ (rp :: post) := by
      rw [rest_next h0]; simp [argChain, List.append_assoc]
    have hall : ∀ x ∈ (lp, e) :: more, ParsesInContext x.2 ∧ x.2.length + 1 ≤ fuel := by
      intro x hx
      have hxl := argChain_mem_length hx
      have hcx : Canon false x.2 := by
        rcases List.mem_cons.mp hx with h | h
        · rw [h]; exact he
        · exact hmore x h
      exact ⟨(hctx x.2 (by omega) hcx).1, by omega⟩
    have hstop : isStopKind (headType (rp :: post)) = true := by
      show isStopKind rp.type = true; rw [hrp]; rfl
    have hnc : headType (rp :: post) ≠ .T_COMMA := by
      show rp.type ≠ _; rw [hrp]; decide
    have hargs := methodCallArgs_items fuel ((lp, e) :: more)
      (.mk .T_METHOD_CALL (some f) []) (p.advance 1) (rp :: post) fuel h1
      (List.cons_ne_nil _ _) hall hcomma hstop hnc
      (by have := argChain_length_ge ((lp, e) :: more); omega)
    have h2 : ((p.advance 1).advance (argChain ((lp, e) :: more)).length).curType =
        .T_RPAREN := by
      rw [curType_advance _ h1]; exact hrp
    rw [exprLHS_call _ _ h0 hf hlp, hargs]
    simp only []
    rw [expectAndConsume_ok h2, advance_advance, advance_advance]
    exact result_advance_congr (by omega)
  | paren lp rp e hlp hrp he =>
    have hlen : e.length ≤ n := by simp at hu; omega
    obtain ⟨hc, hs⟩ := hctx e hlen he
    obtain ⟨node, hn⟩ := Option.isSome_iff_exists.mp hs
    refine ⟨node, ?_⟩
    intro p post fuel hr _ _ hfuel
    have h0 : p.rest = lp :: (e ++ (rp :: post)) := by simpa using hr
    have h1 : (p.advance 1).rest = e ++ (rp :: post) := rest_next h0
    have hstop : isStopKind (headType (rp :: post)) = true := by
      show isStopKind rp.type = true; rw [hrp]; rfl
    have hin := hc (p.advance 1) (rp :: post) fuel h1 hstop (by simp at hfuel; omega)
    rw [hn] at hin
    have h2 : ((p.advance 1).advance e.length).curType = .T_RPAREN := by
      rw [curType_advance e h1]; exact hrp
    rw [exprLHS_paren _ _ (curType_of_rest h0 ▸ hlp) hin h2, advance_advance,
      advance_advance]
    have hl : (lp :: (e ++ [rp])).length = e.length + 2 := by simp
    rw [hl]
    exact result_advance_congr (by omega)

/-- The core of the expression parser on well-formed input, by induction on
the length: `expr(prec)` on an expression consumes it up to the first operator
whose left binding power is at most `prec` (or whole), and so does the loop of
`expr` on what follows an operand.  The nodes returned are non-null and do not
depend on the context, the error list is untouched. -/
theorem canon_parse (n : Nat) :
    (∀ e : List Token, e.length ≤ n → Canon false e → ∀ prec : Int,
      ∃ (node : ASTNode) (e1 t : List Token), e = e1 ++ t ∧ TailStops t prec ∧
        ∀ (p : Parser) (post : List Token) (fuel : Nat), p.rest = e ++ post →
          isStopKind (headType post) = true → e.length + 1 ≤ fuel →
          expr fuel prec p = some (some node, p.advance e1.length)) ∧
    (∀ t : List Token, t.length ≤ n → Tail t → ∀ (prec : Int) (lhs : ASTNode),
      ∃ (node : ASTNode) (t1 t2 : List Token), t = t1 ++ t2 ∧ TailStops t2 prec ∧
        ∀ (p : Parser) (post : List Token) (fuel F : Nat), p.rest = t ++ post →
          isStopKind (headType post) = true → t.length + 1 ≤ fuel → t.length ≤ F →
          exprLoop (expr F) fuel lhs prec p = some (some node, p.advance t1.length)) := by
  -- the loop on an empty tail, for every bound
  have hnil : ∀ (prec : Int) (lhs : ASTNode),
      ∃ (node : ASTNode) (t1 t2 : List Token), ([] : List Token) = t1 ++ t2 ∧
        TailStops t2 prec ∧
        ∀ (p : Parser) (post : List Token) (fuel F : Nat), p.rest = [] ++ post →
          isStopKind (headType post) = true → ([] : List Token).length + 1 ≤ fuel →
          ([] : List Token).length ≤ F →
          exprLoop (expr F) fuel lhs prec p =
            some (some node, p.advance t1.length) := by
    intro prec lhs
    refine ⟨lhs, [], [], rfl, Or.inl rfl, ?_⟩
    intro p post fuel F hr hs hf _
    obtain ⟨g, rfl⟩ : ∃ g, fuel = g + 1 := ⟨fuel - 1, by simp at hf; omega⟩
    have hc : isStopKind p.curType = true := by
      rw [curType_eq, hr]; exact hs
    exact exprLoop_at_stop _ _ _ _ hc
  induction n with
  | zero =>
    constructor
    · intro e he hc
      have := canon_length_pos hc
      omega
    · intro t ht _
      have : t = [] := List.length_eq_zero.mp (by omega)
      subst this
      exact hnil
  | succ n ih =>
    obtain ⟨ihB, ihC⟩ := ih
    -- shorter expressions are handled in every context
    have hctx : ∀ e : List Token, e.length ≤ n → Canon false e →
        ParsesInContext e ∧ (parseAlone e).isSome = true := by
      intro e hlen hc
      obtain ⟨node, e1, t, hsplit, hstops, hrun⟩ := ihB e hlen hc 0
      have ht : t = [] := tailStops_zero hstops
      subst ht
      have he1 : e1 = e := by simpa using hsplit.symm
      subst he1
      have := parsesInContext_of_node hrun
      exact ⟨this.1, by rw [this.2]; rfl⟩
    have hprim := prim_ok n hctx
    have hB : ∀ e : List Token, e.length ≤ n + 1 → Canon false e → ∀ prec : Int,
        ∃ (node : ASTNode) (e1 t : List Token), e = e1 ++ t ∧ TailStops t prec ∧
          ∀ (p : Parser) (post : List Token) (fuel : Nat), p.rest = e ++ post →
            isStopKind (headType post) = true → e.length + 1 ≤ fuel →
            expr fuel prec p = some (some node, p.advance e1.length) := by
      intro e hlen hc prec
      cases hc with
      | prim u hu =>
        obtain ⟨node, hrun⟩ := hprim e hlen hu
        refine ⟨node, e, [], by simp, Or.inl rfl, ?_⟩
        intro p post fuel hr hs hf
        have hpos := canon_length_pos hu
        obtain ⟨g, rfl⟩ : ∃ g, fuel = g + 2 := ⟨fuel - 2, by omega⟩
        have hst := isStopKind_iff hs
        rw [expr_succ, hrun p post (g + 1) hr hst.2.1 hst.2.2 (by omega)]
        simp only []
        exact exprLoop_at_stop _ _ _ _ (by rw [curType_advance e hr]; exact hs)
      | neg o e2 ho he2 =>
        have hl2 : e2.length ≤ n := by simp at hlen; omega
        obtain ⟨hc2, hs2⟩ := hctx e2 hl2 he2
        obtain ⟨node, hn⟩ := Option.isSome_iff_exists.mp hs2
        refine ⟨.mk .T_NEGATE_EXPR none [some node], o :: e2, [], by simp, Or.inl rfl, ?_⟩
        intro p post fuel hr hs hf
        obtain ⟨g, rfl⟩ : ∃ g, fuel = g + 2 := ⟨fuel - 2, by simp at hf; omega⟩
        have h0 : p.rest = o :: (e2 ++ post) := hr
        have h1 : (p.advance 1).rest = e2 ++ post := rest_next h0
        have hin := hc2 (p.advance 1) post (g + 1) h1 hs (by simp at hf; omega)
        rw [hn] at hin
        rw [expr_succ, exprLHS_negate _ _ (by rw [curType_of_rest h0]; exact ho) hin]
        simp only []
        rw [exprLoop_at_stop _ _ _ _ (by rw [curType_advance e2 h1]; exact hs),
          advance_advance]
        exact result_advance_congr (by simp; omega)
      | step u o e2 hu ho he2 =>
        have hupos := canon_length_pos hu
        have he2pos := canon_length_pos he2
        have hlu : u.length ≤ n + 1 := by simp at hlen; omega
        have hlt : (o :: e2).length ≤ n := by simp at hlen ⊢; omega
        obtain ⟨unode, hurun⟩ := hprim u hlu hu
        obtain ⟨node, t1, t2, hsplit, hstops, hrun⟩ :=
          ihC (o :: e2) hlt (Or.inr ⟨o, e2, rfl, ho, he2⟩) prec unode
        refine ⟨node, u ++ t1, t2, by rw [List.append_assoc, ← hsplit], hstops, ?_⟩
        intro p post fuel hr hs hf
        obtain ⟨g, rfl⟩ : ∃ g, fuel = g + 1 := ⟨fuel - 1, by omega⟩
        have h0 : p.rest = u ++ (o :: e2 ++ post) := by simpa using hr
        have hob := Option.isSome_iff_exists.mp ho
        obtain ⟨v, hv⟩ := hob
        have hnd := binaryOp_ne_dot hv
        rw [expr_succ, hurun p (o :: e2 ++ post) g h0 hnd.1 hnd.2
          (by simp at hf; omega)]
        simp only []
        rw [hrun (p.advance u.length) post g g (rest_skip u h0) hs
          (by simp at hf ⊢; omega) (by simp at hf ⊢; omega), advance_advance]
        exact result_advance_congr (by simp)
    refine ⟨hB, ?_⟩
    intro t hlen ht prec lhs
    rcases ht with ht | ⟨o, e, ht, ho, he⟩
    · subst ht; exact hnil prec lhs
    · subst ht
      obtain ⟨⟨k, l, r⟩, hv⟩ := Option.isSome_iff_exists.mp ho
      have hle : e.length ≤ n := by simp at hlen; omega
      by_cases hl : prec < l
      · obtain ⟨rnode, e1, t, hsplit, hstops, hrun⟩ := ihB e hle he r
        have htl : t.length ≤ n := by
          have := congrArg List.length hsplit
          simp at this; omega
        obtain ⟨node, t1, t2, hsplit2, hstops2, hrun2⟩ :=
          ihC t htl (tail_of_tailStops hstops) prec (.mk k none [some lhs, some rnode])
        refine ⟨node, o :: (e1 ++ t1), t2, ?_, hstops2, ?_⟩
        · rw [hsplit, hsplit2]; simp
        · intro p post fuel F hr hs hf hF
          obtain ⟨g, rfl⟩ : ∃ g, fuel = g + 1 := ⟨fuel - 1, by omega⟩
          have h0 : p.rest = o :: (e ++ post) := hr
          have h1 : (p.advance 1).rest = e ++ post := rest_next h0
          have hin := hrun (p.advance 1) post F h1 hs (by simp at hF; omega)
          have h2 : ((p.advance 1).advance e1.length).rest = t ++ post := by
            apply rest_skip e1
            rw [h1, hsplit, List.append_assoc]
          have hlen2 := congrArg List.length hsplit
          simp at hlen2 hf hF
          rw [exprLoop_step (expr F) g lhs prec p
            (by rw [curType_of_rest h0]; exact hv) hl hin,
            hrun2 _ post g F h2 hs (by omega) (by omega), advance_advance,
            advance_advance]
          exact result_advance_congr (by simp; omega)
      · refine ⟨lhs, [], o :: e, rfl, Or.inr ⟨o, e, k, l, r, rfl, hv, by omega, he⟩, ?_⟩
        intro p post fuel F hr hs hf _
        obtain ⟨g, rfl⟩ : ∃ g, fuel = g + 1 := ⟨fuel - 1, by omega⟩
        have h0 : p.rest = o :: (e ++ post) := hr
        apply exprLoop_stop
        rw [curType_of_rest h0, hv]
        intro k2 l2 r2 h
        simp only [Option.some.injEq, Prod.mk.injEq] at h
        omega

theorem canon_append {b : Bool} {e1 : List Token} (h : Canon b e1) :
    b = false → ∀ (o : Token) (e2 : List Token), (binaryOp o.type).isSome = true →
      Canon false e2 → Canon false (e1 ++ o :: e2) := by
  induction h with
  | literal | column | qualified | call0 | call | paren => intro hb; cases hb
  | prim u hu _ => intro _ o e2 ho he2; exact Canon.step u o e2 hu ho he2
  | neg o1 e ho1 _ ih =>
    intro _ o e2 ho he2
    exact Canon.neg o1 (e ++ o :: e2) ho1 (ih rfl o e2 ho he2)
  | step u o1 e hu ho1 _ _ ih =>
    intro _ o e2 ho he2
    rw [List.append_assoc]
    exact Canon.step u o1 (e ++ o :: e2) hu ho1 (ih rfl o e2 ho he2)

/-- Every well-formed expression has the right-linear form. -/
theorem canon_of_wellFormed {e : List Token} (h : WellFormedExpr e) :
    Canon false e := by
  induction h with
  | literal t ht => exact Canon.prim _ (Canon.literal t ht)
  | column t ht => exact Canon.prim _ (Canon.column t ht)
  | qualified t d c ht hd hc => exact Canon.prim _ (Canon.qualified t d c ht hd hc)
  | call0 f lp rp hf hlp hrp => exact Canon.prim _ (Canon.call0 f lp rp hf hlp hrp)
  | call f lp rp e more hf hlp hrp _ hcomma _ ihe ihmore =>
    exact Canon.prim _ (Canon.call f lp rp e more hf hlp hrp ihe hcomma ihmore)
  | paren lp rp e hlp hrp _ ih => exact Canon.prim _ (Canon.paren lp rp e hlp hrp ih)
  | negate o e ho _ ih => exact Canon.neg o e ho ih
  | binary e1 o e2 _ ho _ ih1 ih2 => exact canon_append ih1 rfl o e2 ho ih2

/-- Expressions in right-linear form are handled in every context, with a non-null
result. -/
theorem canon_parsesInContext {e : List Token} (h : Canon false e) :
    ParsesInContext e ∧ (parseAlone e).isSome = true := by
  obtain ⟨node, e1, t, hsplit, hstops, hrun⟩ :=
    (canon_parse e.length).1 e (Nat.le_refl _) h 0
  have ht : t = [] := tailStops_zero hstops
  subst ht
  have he1 : e1 = e := by simpa using hsplit.symm
  subst he1
  have := parsesInContext_of_node hrun
  exact ⟨this.1, by rw [this.2]; rfl⟩

/-- Well-formed expressions are handled by `expr(0)` in every context: the whole
expression is consumed, the result is the non-null node of the expression on its
own, no error is recorded. -/
theorem wellFormed_parsesInContext {e : List Token} (h : WellFormedExpr e) :
    ParsesInContext e ∧ (parseAlone e).isSome = true :=
  canon_parsesInContext (canon_of_wellFormed h)

/-- An expression never starts with `*`, and followed by anything but `.` it does
not start with the wildcard form `t . *`. -/
theorem canon_head {b : Bool} {e : List Token} (h : Canon b e) :
    ∀ post : List Token, headType post ≠ .T_DOT →
      headType (e ++ post) ≠ .T_ASTERISK ∧
      ¬ (headType (e ++ post) = .T_IDENTIFIER ∧
        headType ((e ++ post).drop 1) = .T_DOT ∧
        headType ((e ++ post).drop 2) = .T_ASTERISK) := by
  induction h with
  | literal t ht =>
    intro post _
    have h1 : headType ([t] ++ post) = t.type := rfl
    rw [h1]
    constructor
    · intro h; rw [h] at ht; cases ht
    · rintro ⟨h, _⟩; rw [h] at ht; cases ht
  | column t ht =>
    intro post hp
    have h1 : headType ([t] ++ post) = t.type := rfl
    rw [h1]
    constructor
    · rw [ht]; decide
    · rintro ⟨_, h, _⟩; exact hp h
  | qualified t d c ht hd hc =>
    intro post _
    have h1 : headType ([t, d, c] ++ post) = t.type := rfl
    have h3 : headType (([t, d, c] ++ post).drop 2) = c.type := rfl
    rw [h1, h3]
    constructor
    · rw [ht]; decide
    · rintro ⟨_, _, h⟩; rw [hc] at h; cases h
  | call0 f lp rp hf hlp _ =>
    intro post _
    have h1 : headType ([f, lp, rp] ++ post) = f.type := rfl
    have h2 : headType (([f, lp, rp] ++ post).drop 1) = lp.type := rfl
    rw [h1, h2]
    constructor
    · rw [hf]; decide
    · rintro ⟨_, h, _⟩; rw [hlp] at h; cases h
  | call f lp rp e more hf hlp _ _ _ _ _ _ =>
    intro post _
    have h1 : headType (f :: lp :: (e ++ argChain more ++ [rp]) ++ post) = f.type := rfl
    have h2 : headType ((f :: lp :: (e ++ argChain more ++ [rp]) ++ post).drop 1) =
        lp.type := rfl
    rw [h1, h2]
    constructor
    · rw [hf]; decide
    · rintro ⟨_, h, _⟩; rw [hlp] at h; cases h
  | paren lp rp e hlp _ _ _ =>
    intro post _
    have h1 : headType (lp :: (e ++ [rp]) ++ post) = lp.type := rfl
    rw [h1, hlp]
    constructor
    · decide
    · rintro ⟨h, _⟩; cases h
  | prim u _ ih => exact ih
  | neg o e ho _ _ =>
    intro post _
    have h1 : headType (o :: e ++ post) = o.type := rfl
    rw [h1]
    constructor
    · intro h; rw [h] at ho; cases ho
    · rintro ⟨h, _⟩; rw [h] at ho; cases ho
  | step u o e _ ho _ ihu _ =>
    intro post _
    obtain ⟨v, hv⟩ := Option.isSome_iff_exists.mp ho
    have := ihu (o :: e ++ post) (by show o.type ≠ _; exact (binaryOp_ne_dot hv).1)
    simpa [List.append_assoc] using this

theorem lookahead_eq (p : Parser) (n : Nat) (k : kTokenType) :
    p.lookahead n k = decide (headType (p.rest.drop n) = k) := by
  simp only [lookahead, peekToken_eq, headType]
  rfl

/-- A select sublist that is an expression the parser handles, not followed by
`AS`: the derived column of the expression. -/
theorem selectSublist_expr {e : List Token} (hc : Canon false e) {p : Parser}
    {post : List Token} (fuel : Nat) (hr : p.rest = e ++ post)
    (hs : isStopKind (headType post) = true) (has : headType post ≠ .T_AS)
    (hf : e.length + 1 ≤ fuel) :
    selectSublist fuel p = some (derivedColumn e, p.advance e.length) ∧
      (derivedColumn e).isSome = true := by
  obtain ⟨hctx, hsome⟩ := canon_parsesInContext hc
  obtain ⟨v, hv⟩ := Option.isSome_iff_exists.mp hsome
  have hhead := (canon_head hc post (isStopKind_iff hs).2.1).2
  have hin := hctx p post fuel hr hs hf
  rw [hv] at hin
  have hcur : (p.advance e.length).curType = headType post := curType_advance e hr
  refine ⟨?_, by simp [derivedColumn, hv]⟩
  unfold selectSublist
  simp only [lookahead_eq, hr, List.drop_zero]
  have hcond : (decide (headType (e ++ post) = .T_IDENTIFIER) &&
      decide (headType ((e ++ post).drop 1) = .T_DOT) &&
      decide (headType ((e ++ post).drop 2) = .T_ASTERISK)) = false := by
    rw [Bool.eq_false_iff]
    intro h
    simp only [Bool.and_eq_true, decide_eq_true_eq] at h
    exact hhead ⟨h.1.1, h.1.2, h.2⟩
  rw [hcond]
  simp only [Bool.false_eq_true, if_false, hin, hcur, has, derivedColumn, hv, Option.map_some']
  rfl

/-- The select-list loop over expressions the parser handles, separated by
commas: one derived column per expression, in order. -/
theorem selectListLoop_items (more : List (Token × List Token)) :
    ∀ (e : List Token) (acc : ASTNode) (p : Parser) (post : List Token) (fuel : Nat),
      p.rest = e ++ (argChain more ++ post) → Canon false e →
      (∀ x ∈ more, x.1.type = .T_COMMA) → (∀ x ∈ more, Canon false x.2) →
      isStopKind (headType post) = true → headType post ≠ .T_COMMA →
      headType post ≠ .T_AS → (e ++ argChain more).length + 2 ≤ fuel →
      selectListLoop fuel acc p =
        some (acc.appendChildren ((e :: more.map (fun x => x.2)).map derivedColumn),
          p.advance (e ++ argChain more).length) := by
  induction more with
  | nil =>
    intro e acc p post fuel hr hc _ _ hs hnc has hf
    obtain ⟨g, rfl⟩ : ∃ g, fuel = g + 1 := ⟨fuel - 1, by omega⟩
    have hr0 : p.rest = e ++ post := by simpa [argChain] using hr
    have hsub := (selectSublist_expr hc g hr0 hs has
      (by simp [argChain] at hf; omega)).1
    have hcur : (p.advance e.length).curType = headType post := curType_advance e hr0
    unfold selectListLoop
    simp only [hsub, hcur, hnc, if_false]
    simp [argChain, ← ASTNode.appendChild_appendChildren acc (derivedColumn e) [],
      ASTNode.appendChildren_nil]
  | cons x r ih =>
    obtain ⟨s, e2⟩ := x
    intro e acc p post fuel hr hc hcomma hmore hs hnc has hf
    obtain ⟨g, rfl⟩ : ∃ g, fuel = g + 1 := ⟨fuel - 1, by omega⟩
    have hscomma : s.type = .T_COMMA := hcomma (s, e2) (List.mem_cons_self _ _)
    have hr0 : p.rest = e ++ (s :: (e2 ++ (argChain r ++ post))) := by
      simpa [argChain, List.append_assoc] using hr
    have hepos := canon_length_pos hc
    have hlen : (e ++ argChain ((s, e2) :: r)).length =
        e.length + 1 + (e2 ++ argChain r).length := by
      simp [argChain]; omega
    rw [hlen] at hf ⊢
    have hsub := (selectSublist_expr hc g hr0
      (by show isStopKind s.type = true; rw [hscomma]; rfl)
      (by show s.type ≠ _; rw [hscomma]; decide) (by omega)).1
    have h1 : (p.advance e.length).rest = s :: (e2 ++ (argChain r ++ post)) :=
      rest_skip e hr0
    have hcur : (p.advance e.length).curType = .T_COMMA := by
      rw [curType_of_rest h1]; exact hscomma
    have h2 : ((p.advance e.length).advance 1).rest = e2 ++ (argChain r ++ post) :=
      rest_next h1
    unfold selectListLoop
    simp only [hsub, hcur, if_true, consumeToken_snd]
    rw [ih e2 _ _ post g h2 (hmore (s, e2) (List.mem_cons_self _ _))
      (fun x hx => hcomma x (List.mem_cons_of_mem _ hx))
      (fun x hx => hmore x (List.mem_cons_of_mem _ hx)) hs hnc has (by omega)]
    simp only [ASTNode.appendChild_appendChildren, List.map_cons, advance_advance]

/-- The select-list block on expressions separated by commas. -/
theorem selectList_items (e : List Token) (more : List (Token × List Token))
    (p : Parser) (post : List Token) (fuel : Nat)
    (hr : p.rest = e ++ (argChain more ++ post)) (hc : Canon false e)
    (hcomma : ∀ x ∈ more, x.1.type = .T_COMMA) (hmore : ∀ x ∈ more, Canon false x.2)
    (hs : isStopKind (headType post) = true) (hnc : headType post ≠ .T_COMMA)
    (has : headType post ≠ .T_AS) (hf : (e ++ argChain more).length + 2 ≤ fuel) :
    selectList fuel p =
      some (.mk .T_SELECT_LIST none ((e :: more.map (fun x => x.2)).map derivedColumn),
        p.advance (e ++ argChain more).length) := by
  have hnext : headType (argChain more ++ post) ≠ .T_DOT := by
    cases more with
    | nil => exact (isStopKind_iff hs).2.1
    | cons x r =>
      obtain ⟨s, e2⟩ := x
      show s.type ≠ _
      rw [hcomma (s, e2) (List.mem_cons_self _ _)]; decide
  have hhead := (canon_head hc (argChain more ++ post) hnext).1
  unfold selectList
  rw [curType_eq, hr, if_neg hhead,
    selectListLoop_items more e _ p post fuel hr hc hcomma hmore hs hnc has hf]
  rfl

/-- The statement `SELECT e1 , ... , en ;`: the statement ends at the `;` with the select list
as only child and no error added. -/
theorem selectStatement_list_semicolon (sel : Token) (e : List Token)
    (more : List (Token × List Token)) (p : Parser) (post : List Token) (fuel : Nat)
    (hr : p.rest = sel :: (e ++ (argChain more ++ post))) (hsel : sel.type = .T_SELECT)
    (hc : Canon false e) (hcomma : ∀ x ∈ more, x.1.type = .T_COMMA)
    (hmore : ∀ x ∈ more, Canon false x.2) (hpost : headType post = .T_SEMICOLON)
    (hf : (e ++ argChain more).length + 2 ≤ fuel) :
    selectStatement fuel p =
      some (some (.mk .T_SELECT none [some (.mk .T_SELECT_LIST none
          ((e :: more.map (fun x => x.2)).map derivedColumn))]),
        p.advance (1 + (e ++ argChain more).length)) := by
  have h1 : (p.advance 1).rest = e ++ (argChain more ++ post) := rest_next hr
  have hlist := selectList_items e more (p.advance 1) post fuel h1 hc hcomma hmore
    (by rw [hpost]; rfl) (by rw [hpost]; decide) (by rw [hpost]; decide) hf
  have hcur : ((p.advance 1).advance (e ++ argChain more).length).curType =
      .T_SEMICOLON := by
    rw [curType_eq, rest_advance, h1, ← List.append_assoc, List.drop_left]; exact hpost
  rw [advance_advance] at hcur hlist
  unfold selectStatement
  simp only [assertExpectation, curType_of_rest hr, hsel, if_true, consumeToken_snd, hlist,
    hcur]
  rfl

/-- The statement `SELECT e1 , ... , en` followed by the end of the input: the missing `FROM`
is recorded as one error and no further clause is found. -/
theorem selectStatement_list_end (sel : Token) (e : List Token)
    (more : List (Token × List Token)) (p : Parser) (post : List Token) (fuel : Nat)
    (hr : p.rest = sel :: (e ++ (argChain more ++ post))) (hsel : sel.type = .T_SELECT)
    (hc : Canon false e) (hcomma : ∀ x ∈ more, x.1.type = .T_COMMA)
    (hmore : ∀ x ∈ more, Canon false x.2) (hpost : headType post = .T_END)
    (hf : (e ++ argChain more).length + 2 ≤ fuel) :
    selectStatement fuel p =
      some (some (.mk .T_SELECT none [some (.mk .T_SELECT_LIST none
          ((e :: more.map (fun x => x.2)).map derivedColumn)), none]),
        (p.advance (1 + (e ++ argChain more).length)).addError .ERR_UNEXPECTED_TOKEN) := by
  have h1 : (p.advance 1).rest = e ++ (argChain more ++ post) := rest_next hr
  have hlist := selectList_items e more (p.advance 1) post fuel h1 hc hcomma hmore
    (by rw [hpost]; rfl) (by rw [hpost]; decide) (by rw [hpost]; decide) hf
  have hcur : ((p.advance 1).advance (e ++ argChain more).length).curType = .T_END := by
    rw [curType_eq, rest_advance, h1, ← List.append_assoc, List.drop_left]; exact hpost
  rw [advance_advance] at hcur hlist
  have hcur2 : ((p.advance (1 + (e ++ argChain more).length)).addError
      .ERR_UNEXPECTED_TOKEN).curType = .T_END := hcur
  unfold selectStatement
  simp only [assertExpectation, curType_of_rest hr, hsel, if_true, consumeToken_snd, hlist,
    hcur, reduceCtorEq, if_false, fromClause, whereClause, groupByClause, havingClause,
    orderByClause, limitClause, consumeIf, hcur2, appendIfNotNull]
  rfl

end Parser

/-- C6 (as amended): a SELECT statement without a FROM clause is accepted only
when a `;` follows the select list.  For every token list `SELECT e1 , ... , en`
with well-formed expressions `ei`: when nothing follows the select list, parse
fails (return code 0) with exactly one error, the failed expectation of `FROM`;
when `;` follows the select list, parse succeeds (return code 1) with an empty
error list.  Any fuel above the number of tokens of the select list plus one is
enough. -/
theorem select_without_from (sel eof : Token) (e : List Token)
    (more : List (Token × List Token)) (fuel : Nat)
    (hsel : sel.type = .T_SELECT) (heof : eof.type = .T_END)
    (he : WellFormedExpr e) (hcomma : ∀ x ∈ more, x.1.type = .T_COMMA)
    (hmore : ∀ x ∈ more, WellFormedExpr x.2)
    (hfuel : (e ++ argChain more).length + 2 ≤ fuel) :
    (parse fuel (sel :: (e ++ (argChain more ++ [eof])))).map
        (fun r => (r.1, r.2.2.errors_)) = some (0, [⟨.ERR_UNEXPECTED_TOKEN⟩]) ∧
    ∀ semi : Token, semi.type = .T_SEMICOLON →
      (parse fuel (sel :: (e ++ (argChain more ++ [semi, eof])))).map
        (fun r => (r.1, r.2.2.errors_)) = some (1, []) := by
  have hc := Parser.canon_of_wellFormed he
  have hm : ∀ x ∈ more, Canon false x.2 := fun x hx => Parser.canon_of_wellFormed (hmore x hx)
  constructor
  · have h := Parser.selectStatement_list_end sel e more
      ⟨sel :: (e ++ (argChain more ++ [eof])), 0, []⟩ [eof] fuel rfl hsel hc hcomma hm
      heof hfuel
    unfold parse
    simp only [List.length_cons, Nat.add_one_ne_zero, if_false, h]
    rfl
  · intro semi hsemi
    have h := Parser.selectStatement_list_semicolon sel e more
      ⟨sel :: (e ++ (argChain more ++ [semi, eof])), 0, []⟩ [semi, eof] fuel rfl hsel hc
      hcomma hm hsemi hfuel
    unfold parse
    simp only [List.length_cons, Nat.add_one_ne_zero, if_false, h]
    rfl

/-- Witness of C6 (as amended): `SELECT 1` records one error, `SELECT 1 ;`
none. -/
theorem select_without_from_witness :
    (parse 3 [mkToken .T_SELECT "SELECT" 0, mkToken .T_NUMERIC "1" 7,
        mkToken .T_END "" 8]).map (fun r => (r.1, r.2.2.errors_)) =
      some (0, [⟨.ERR_UNEXPECTED_TOKEN⟩]) ∧
    ∀ semi : Token, semi.type = .T_SEMICOLON →
      (parse 3 [mkToken .T_SELECT "SELECT" 0, mkToken .T_NUMERIC "1" 7, semi,
        mkToken .T_END "" 8]).map (fun r => (r.1, r.2.2.errors_)) = some (1, []) :=
  select_without_from (mkToken .T_SELECT "SELECT" 0) (mkToken .T_END "" 8)
    [mkToken .T_NUMERIC "1" 7] [] 3 rfl rfl
    (WellFormedExpr.literal _ rfl) (by simp) (by simp) (by decide)

/-- Counterexample to C6 as stated: parsing `SELECT 1` with nothing after the
select list does not leave the error list empty. -/
theorem select_without_from_counterexample :
    (parse 3 [mkToken .T_SELECT "SELECT" 0, mkToken .T_NUMERIC "1" 7,
        mkToken .T_END "" 8]).map (fun r => r.2.2.errors_) ≠ some [] := by
  have h : (parse 3 [mkToken .T_SELECT "SELECT" 0, mkToken .T_NUMERIC "1" 7,
        mkToken .T_END "" 8]).map (fun r => r.2.2.errors_) =
      some [⟨.ERR_UNEXPECTED_TOKEN⟩] := rfl
  rw [h]
  decide

/-- Method calls with at least one argument (the part of C9 the code meets): on
`f ( e1 , ... , en )`, `n >= 1`, with well-formed arguments, `exprLHS` returns a
`T_METHOD_CALL` node whose token is `f` and whose children are exactly the nodes
of the `n` arguments in call order, none of them null, with the cursor right
after the `)` and the error list untouched. -/
theorem methodCall_arguments (f lp rp : Token) (e : List Token)
    (more : List (Token × List Token)) (p : Parser) (post : List Token) (fuel : Nat)
    (hf : f.type = .T_IDENTIFIER) (hlp : lp.type = .T_LPAREN)
    (hrp : rp.type = .T_RPAREN) (he : WellFormedExpr e)
    (hcomma : ∀ x ∈ more, x.1.type = .T_COMMA)
    (hmore : ∀ x ∈ more, WellFormedExpr x.2)
    (hr : p.rest = f :: lp :: (e ++ argChain more ++ [rp]) ++ post)
    (hfuel : (f :: lp :: (e ++ argChain more ++ [rp])).length ≤ fuel) :
    Parser.exprLHS (Parser.expr fuel) fuel p =
        some (some (.mk .T_METHOD_CALL (some f)
            ((e :: more.map (fun x => x.2)).map parseAlone)),
          p.advance (f :: lp :: (e ++ argChain more ++ [rp])).length) ∧
      ∀ x ∈ e :: more.map (fun x => x.2), (parseAlone x).isSome = true := by
  have hlen : (f :: lp :: (e ++ argChain more ++ [rp])).length =
      (argChain ((lp, e) :: more)).length + 2 := by
    simp [argChain]; omega
  rw [hlen] at hfuel ⊢
  have h0 : p.rest = f :: lp :: (e ++ argChain more ++ rp :: post) := by
    simpa [List.append_assoc] using hr
  have h1 : (p.advance 1).rest = argChain ((lp, e) :: more) ++ (rp :: post) := by
    rw [Parser.rest_next h0]; simp [argChain, List.append_assoc]
  have hwf : ∀ x ∈ (lp, e) :: more, WellFormedExpr x.2 := by
    intro x hx
    rcases List.mem_cons.mp hx with h | h
    · rw [h]; exact he
    · exact hmore x h
  have hall : ∀ x ∈ (lp, e) :: more, ParsesInContext x.2 ∧ x.2.length + 1 ≤ fuel := by
    intro x hx
    have hxl := Parser.argChain_mem_length hx
    exact ⟨(Parser.wellFormed_parsesInContext (hwf x hx)).1, by omega⟩
  have hstop : isStopKind (headType (rp :: post)) = true := by
    show isStopKind rp.type = true; rw [hrp]; rfl
  have hnc : headType (rp :: post) ≠ .T_COMMA := by
    show rp.type ≠ _; rw [hrp]; decide
  have hargs := Parser.methodCallArgs_items fuel ((lp, e) :: more)
    (.mk .T_METHOD_CALL (some f) []) (p.advance 1) (rp :: post) fuel h1
    (List.cons_ne_nil _ _) hall hcomma hstop hnc
    (by have := Parser.argChain_length_ge ((lp, e) :: more); omega)
  have h2 : ((p.advance 1).advance (argChain ((lp, e) :: more)).length).curType =
      .T_RPAREN := by
    rw [Parser.curType_advance _ h1]; exact hrp
  constructor
  · rw [Parser.exprLHS_call _ _ h0 hf hlp, hargs]
    simp only []
    rw [Parser.expectAndConsume_ok h2, Parser.advance_advance, Parser.advance_advance]
    simp only [ASTNode.appendChildren, List.nil_append, List.map_cons, List.map_map]
    exact Parser.result_advance_congr (by omega)
  · intro x hx
    rcases List.mem_cons.mp hx with h | h
    · rw [h]; exact (Parser.wellFormed_parsesInContext he).2
    · obtain ⟨y, hy, rfl⟩ := List.mem_map.mp h
      exact (Parser.wellFormed_parsesInContext (hmore y hy)).2

/-- Example of `methodCall_arguments`: `f ( a , b )` yields
`METHOD_CALL("f") { a, b }`. -/
theorem methodCall_two_arguments :
    Parser.exprLHS (Parser.expr 6) 6
      ⟨[mkToken .T_IDENTIFIER "f" 0, mkToken .T_LPAREN "(" 1,
        mkToken .T_IDENTIFIER "a" 2, mkToken .T_COMMA "," 3,
        mkToken .T_IDENTIFIER "b" 5, mkToken .T_RPAREN ")" 6,
        mkToken .T_END "" 7], 0, []⟩ =
      some (some (.mk .T_METHOD_CALL (some (mkToken .T_IDENTIFIER "f" 0))
        [some (.mk .T_COLUMN_NAME (some (mkToken .T_IDENTIFIER "a" 2)) []),
         some (.mk .T_COLUMN_NAME (some (mkToken .T_IDENTIFIER "b" 5)) [])]),
        ⟨[mkToken .T_IDENTIFIER "f" 0, mkToken .T_LPAREN "(" 1,
          mkToken .T_IDENTIFIER "a" 2, mkToken .T_COMMA "," 3,
          mkToken .T_IDENTIFIER "b" 5, mkToken .T_RPAREN ")" 6,
          mkToken .T_END "" 7], 6, []⟩) :=
  (methodCall_arguments (mkToken .T_IDENTIFIER "f" 0) (mkToken .T_LPAREN "(" 1)
    (mkToken .T_RPAREN ")" 6) [mkToken .T_IDENTIFIER "a" 2]
    [(mkToken .T_COMMA "," 3, [mkToken .T_IDENTIFIER "b" 5])]
    ⟨[mkToken .T_IDENTIFIER "f" 0, mkToken .T_LPAREN "(" 1,
      mkToken .T_IDENTIFIER "a" 2, mkToken .T_COMMA "," 3,
      mkToken .T_IDENTIFIER "b" 5, mkToken .T_RPAREN ")" 6,
      mkToken .T_END "" 7], 0, []⟩ [mkToken .T_END "" 7] 6 rfl rfl rfl
    (WellFormedExpr.column _ rfl) (by simp [mkToken])
    (by simp; exact WellFormedExpr.column _ rfl) rfl (by decide)).1

/-- C9, the failing input: on the zero-argument call `f ( )` the loop of
`methodCall` calls `expr()` before it looks for the `)` and appends the null
result, so the `T_METHOD_CALL` node has one child, a null pointer, not zero
children; the `)` is consumed and no error is recorded. -/
theorem methodCall_zero_arguments_null_child :
    Parser.exprLHS (Parser.expr 1) 1
      ⟨[mkToken .T_IDENTIFIER "f" 0, mkToken .T_LPAREN "(" 1,
        mkToken .T_RPAREN ")" 2, mkToken .T_END "" 3], 0, []⟩ =
      some (some (.mk .T_METHOD_CALL (some (mkToken .T_IDENTIFIER "f" 0)) [none]),
        ⟨[mkToken .T_IDENTIFIER "f" 0, mkToken .T_LPAREN "(" 1,
          mkToken .T_RPAREN ")" 2, mkToken .T_END "" 3], 3, []⟩) := by
  rfl

theorem ASTNode.getChildren_appendChild (n : ASTNode) (c : Option ASTNode) :
    (n.appendChild c).getChildren = n.getChildren ++ [c] := by
  cases n; rfl

namespace Parser

theorem fromClauseLoop_type (fuel : Nat) :
    ∀ (clause : ASTNode) (p : Parser) (r : ASTNode × Parser),
      fromClauseLoop fuel clause p = some r → r.1.getType = clause.getType := by
  induction fuel with
  | zero => intro c p r h; simp [fromClauseLoop] at h
  | succ n ih =>
    intro c p r h
    unfold fromClauseLoop at h
    simp only at h
    split at h
    · rw [ih _ _ _ h, ASTNode.getType_appendChild]
    · cases h
      exact ASTNode.getType_appendChild _ _

theorem groupByLoop_type (fuel : Nat) :
    ∀ (clause : ASTNode) (p : Parser) (r : ASTNode × Parser),
      groupByLoop fuel clause p = some r → r.1.getType = clause.getType := by
  induction fuel with
  | zero => intro c p r h; simp [groupByLoop] at h
  | succ n ih =>
    intro c p r h
    unfold groupByLoop at h
    cases he : expr n 0 p with
    | none => simp [he] at h
    | some v =>
      obtain ⟨e, p1⟩ := v
      simp only [he] at h
      split at h
      · rw [ih _ _ _ h, ASTNode.getType_appendChild]
      · cases h
        exact ASTNode.getType_appendChild _ _

theorem orderByLoop_type (fuel : Nat) :
    ∀ (clause : ASTNode) (p : Parser) (r : ASTNode × Parser),
      orderByLoop fuel clause p = some r → r.1.getType = clause.getType := by
  induction fuel with
  | zero => intro c p r h; simp [orderByLoop] at h
  | succ n ih =>
    intro c p r h
    unfold orderByLoop at h
    cases he : expr n 0 p with
    | none => simp [he] at h
    | some v =>
      obtain ⟨e, p1⟩ := v
      simp only [he] at h
      split at h
      · rw [ih _ _ _ h, ASTNode.getType_appendChild]
      · cases h
        exact ASTNode.getType_appendChild _ _

theorem fromClause_type {fuel : Nat} {p p2 : Parser} {n : ASTNode}
    (h : fromClause fuel p = some (some n, p2)) : n.getType = .T_FROM := by
  unfold fromClause at h
  split at h
  · cases h
  · try dsimp only at h
    split at h
    · cases h
    · next clause p3 hl =>
      simp only [Option.some.injEq, Prod.mk.injEq] at h
      rw [← h.1]
      exact fromClauseLoop_type _ _ _ _ hl

theorem whereClause_type {fuel : Nat} {p p2 : Parser} {n : ASTNode}
    (h : whereClause fuel p = some (some n, p2)) : n.getType = .T_WHERE := by
  unfold whereClause at h
  split at h
  · cases h
  · split at h
    · cases h
    · simp only [Option.some.injEq, Prod.mk.injEq] at h
      rw [← h.1]
      exact ASTNode.getType_appendChild _ _

theorem groupByClause_type {fuel : Nat} {p p2 : Parser} {n : ASTNode}
    (h : groupByClause fuel p = some (some n, p2)) : n.getType = .T_GROUP_BY := by
  unfold groupByClause at h
  split at h
  · cases h
  · try dsimp only at h
    split at h
    · cases h
    · next clause p3 hl =>
      simp only [Option.some.injEq, Prod.mk.injEq] at h
      rw [← h.1]
      exact groupByLoop_type _ _ _ _ hl

theorem havingClause_type {fuel : Nat} {p p2 : Parser} {n : ASTNode}
    (h : havingClause fuel p = some (some n, p2)) : n.getType = .T_HAVING := by
  unfold havingClause at h
  split at h
  · cases h
  · split at h
    · cases h
    · simp only [Option.some.injEq, Prod.mk.injEq] at h
      rw [← h.1]
      exact ASTNode.getType_appendChild _ _

theorem orderByClause_type {fuel : Nat} {p p2 : Parser} {n : ASTNode}
    (h : orderByClause fuel p = some (some n, p2)) : n.getType = .T_ORDER_BY := by
  unfold orderByClause at h
  split at h
  · cases h
  · try dsimp only at h
    split at h
    · cases h
    · next clause p3 hl =>
      simp only [Option.some.injEq, Prod.mk.injEq] at h
      rw [← h.1]
      exact orderByLoop_type _ _ _ _ hl

theorem limitClause_type {p : Parser} {n : ASTNode}
    (h : (limitClause p).1 = some n) : n.getType = .T_LIMIT := by
  unfold limitClause at h
  split at h
  · cases h
  · split at h
    · cases h
    · dsimp only at h
      split at h
      · simp only [Option.some.injEq] at h
        rw [← h]; rfl
      · split at h
        · simp only [Option.some.injEq] at h
          rw [← h]; rfl
        · simp only [Option.some.injEq] at h
          rw [← h]; rfl

theorem appendIfNotNull_type (n : ASTNode) (c : Option ASTNode) :
    (appendIfNotNull n c).getType = n.getType := by
  cases c with
  | none => rfl
  | some x => exact ASTNode.getType_appendChild _ _

theorem appendIfNotNull_children (n : ASTNode) (c : Option ASTNode) :
    (appendIfNotNull n c).getChildren = n.getChildren ++ c.toList.map some := by
  cases c with
  | none => simp [appendIfNotNull]
  | some x => simp [appendIfNotNull, ASTNode.getChildren_appendChild]

theorem option_type_sublist (c : Option ASTNode) (k : kASTNodeType)
    (h : ∀ x, c = some x → x.getType = k) :
    List.Sublist (c.toList.map ASTNode.getType) [k] := by
  cases c with
  | none => simp
  | some x => simp [h x rfl]

/-- The children of the `T_SELECT` node, for every input: the `T_SELECT_LIST`
first and then either nothing (the `;` case) or the result of `fromClause()`,
which is a `T_FROM` node or a null pointer, followed by the clauses found, none
of them null, their kinds a subsequence of WHERE, GROUP BY, HAVING, ORDER BY,
LIMIT in this order. -/
theorem selectStatement_children {fuel : Nat} {p p2 : Parser} {n : ASTNode}
    (h : selectStatement fuel p = some (some n, p2)) :
    n.getType = .T_SELECT ∧
    ∃ (select_list : ASTNode) (rest : List (Option ASTNode)),
      n.getChildren = some select_list :: rest ∧
      select_list.getType = .T_SELECT_LIST ∧
      (rest = [] ∨ ∃ (from_clause : Option ASTNode) (clauses : List ASTNode),
        rest = from_clause :: clauses.map some ∧
        (∀ f, from_clause = some f → f.getType = .T_FROM) ∧
        List.Sublist (clauses.map ASTNode.getType)
          [.T_WHERE, .T_GROUP_BY, .T_HAVING, .T_ORDER_BY, .T_LIMIT]) := by
  unfold selectStatement at h
  split at h
  · cases h
  · dsimp only at h
    split at h
    · cases h
    · next select_list p3 hlist =>
      have hsl := selectList_type hlist
      split at h
      · simp only [Option.some.injEq, Prod.mk.injEq] at h
        rw [← h.1]
        exact ⟨rfl, select_list, [], rfl, hsl, Or.inl rfl⟩
      · split at h
        · cases h
        · next from_clause p4 hfrom =>
          split at h
          · cases h
          · next wh p5 hwh =>
            split at h
            · cases h
            · next gr p6 hgr =>
              split at h
              · cases h
              · next hv p7 hhv =>
                split at h
                · cases h
                · next od p8 hod =>
                  simp only [Option.some.injEq, Prod.mk.injEq] at h
                  rw [← h.1]
                  refine ⟨?_, select_list, from_clause :: (wh.toList ++ gr.toList ++
                    hv.toList ++ od.toList ++ (limitClause p8).1.toList).map some, ?_,
                    hsl, Or.inr ⟨from_clause, _, rfl, ?_, ?_⟩⟩
                  · simp only [appendIfNotNull_type, ASTNode.getType_appendChild]
                    rfl
                  · simp only [appendIfNotNull_children, ASTNode.getChildren_appendChild]
                    simp [ASTNode.new, ASTNode.getChildren]
                  · intro f hf
                    subst hf
                    exact fromClause_type hfrom
                  · simp only [List.map_append]
                    have h1 := option_type_sublist wh .T_WHERE
                      (fun x hx => whereClause_type (hx ▸ hwh))
                    have h2 := option_type_sublist gr .T_GROUP_BY
                      (fun x hx => groupByClause_type (hx ▸ hgr))
                    have h3 := option_type_sublist hv .T_HAVING
                      (fun x hx => havingClause_type (hx ▸ hhv))
                    have h4 := option_type_sublist od .T_ORDER_BY
                      (fun x hx => orderByClause_type (hx ▸ hod))
                    have h5 := option_type_sublist (limitClause p8).1 .T_LIMIT
                      (fun x hx => limitClause_type hx)
                    exact (((h1.append h2).append h3).append h4).append h5

end Parser

/-- The full-statement example of the specification, by evaluation:
`SELECT a, b FROM t GROUP BY a HAVING b = 1 ORDER BY a DESC LIMIT 10 OFFSET 5`
succeeds with the children `T_SELECT_LIST`, `T_FROM`, `T_GROUP_BY`, `T_HAVING`,
`T_ORDER_BY`, `T_LIMIT` in this order (no `T_WHERE` child, no null pointer). -/
theorem parse_full_select_example :
    (parse 4 [mkToken .T_SELECT "SELECT" 0, mkToken .T_IDENTIFIER "a" 7,
        mkToken .T_COMMA "," 8, mkToken .T_IDENTIFIER "b" 10,
        mkToken .T_FROM "FROM" 12, mkToken .T_IDENTIFIER "t" 17,
        mkToken .T_GROUP "GROUP" 19, mkToken .T_BY "BY" 25,
        mkToken .T_IDENTIFIER "a" 28, mkToken .T_HAVING "HAVING" 30,
        mkToken .T_IDENTIFIER "b" 37, mkToken .T_EQUAL "=" 39,
        mkToken .T_NUMERIC "1" 41, mkToken .T_ORDER "ORDER" 43,
        mkToken .T_BY "BY" 49, mkToken .T_IDENTIFIER "a" 52,
        mkToken .T_DESC "DESC" 54, mkToken .T_LIMIT "LIMIT" 59,
        mkToken .T_NUMERIC "10" 65, mkToken .T_OFFSET "OFFSET" 68,
        mkToken .T_NUMERIC "5" 75, mkToken .T_END "" 76]).map
      (fun r => (r.1, r.2.2.errors_, r.2.1)) =
      some (1, [], .mk .T_ROOT none [some (.mk .T_SELECT none
        [some (.mk .T_SELECT_LIST none
          [some (.mk .T_DERIVED_COLUMN none
            [some (.mk .T_COLUMN_NAME (some (mkToken .T_IDENTIFIER "a" 7)) [])]),
           some (.mk .T_DERIVED_COLUMN none
            [some (.mk .T_COLUMN_NAME (some (mkToken .T_IDENTIFIER "b" 10)) [])])]),
         some (.mk .T_FROM none
          [some (.mk .T_TABLE_NAME (some (mkToken .T_IDENTIFIER "t" 17)) [])]),
         some (.mk .T_GROUP_BY none
          [some (.mk .T_COLUMN_NAME (some (mkToken .T_IDENTIFIER "a" 28)) [])]),
         some (.mk .T_HAVING none
          [some (.mk .T_EQ_EXPR none
            [some (.mk .T_COLUMN_NAME (some (mkToken .T_IDENTIFIER "b" 37)) []),
             some (.mk .T_LITERAL (some (mkToken .T_NUMERIC "1" 41)) [])])]),
         some (.mk .T_ORDER_BY none
          [some (.mk .T_SORT_SPEC (some (mkToken .T_DESC "DESC" 54))
            [some (.mk .T_COLUMN_NAME (some (mkToken .T_IDENTIFIER "a" 52)) [])])]),
         some (.mk .T_LIMIT (some (mkToken .T_NUMERIC "10" 65))
          [some (.mk .T_OFFSET (some (mkToken .T_NUMERIC "5" 75)) [])])])]) := by
  rfl

/-- C11: identifier disambiguation in a select list.  With the cursor on the
three tokens `t . x` (`t` an identifier, `.` the dot): when `x` is an identifier
and the item ends there (the next token ends expressions and is not `AS`),
`selectSublist` returns a `T_DERIVED_COLUMN` whose value child is the
`T_TABLE_NAME` node carrying `t` with exactly one child, the `T_COLUMN_NAME`
carrying `x`; when `x` is `*`, it returns a `T_ALL` node carrying `t`.  In both
cases exactly the three tokens are consumed and the error list is untouched.
Any fuel of at least 2 is enough. -/
theorem select_item_disambiguation (t d x : Token) (p : Parser)
    (post : List Token) (fuel : Nat) (ht : t.type = .T_IDENTIFIER)
    (hd : d.type = .T_DOT) (hr : p.rest = t :: d :: x :: post) (hfuel : 2 ≤ fuel) :
    (x.type = .T_IDENTIFIER → isStopKind (headType post) = true →
      headType post ≠ .T_AS →
      Parser.selectSublist fuel p =
        some (some (.mk .T_DERIVED_COLUMN none
          [some (.mk .T_TABLE_NAME (some t) [some (.mk .T_COLUMN_NAME (some x) [])])]),
          p.advance 3)) ∧
    (x.type = .T_ASTERISK →
      Parser.selectSublist fuel p = some (some (.mk .T_ALL (some t) []), p.advance 3)) := by
  have h0 : headType (t :: d :: x :: post) = .T_IDENTIFIER := ht
  have h1 : headType ((t :: d :: x :: post).drop 1) = .T_DOT := hd
  have h2 : headType ((t :: d :: x :: post).drop 2) = x.type := rfl
  constructor
  · intro hx hs has
    obtain ⟨g, rfl⟩ : ∃ g, fuel = g + 2 := ⟨fuel - 2, by omega⟩
    have h3 : (p.advance 3).rest = post := Parser.rest_skip [t, d, x] hr
    have hcur : (p.advance 3).curType = headType post := by
      rw [Parser.curType_eq, h3]
    have hexpr : Parser.expr (g + 2) 0 p =
        some (some (.mk .T_TABLE_NAME (some t) [some (.mk .T_COLUMN_NAME (some x) [])]),
          p.advance 3) := by
      rw [Parser.expr_succ, Parser.exprLHS_qualified _ _ hr ht hd hx]
      exact Parser.exprLoop_at_stop _ _ _ _ (by rw [hcur]; exact hs)
    unfold Parser.selectSublist
    simp only [Parser.lookahead_eq, hr, List.drop_zero, h0, h1, h2, hx, hexpr, hcur, has,
      reduceCtorEq, decide_False, decide_True, Bool.and_false, Bool.false_eq_true, if_false]
    rfl
  · intro hx
    have hk : p.curToken = t := Parser.curToken_of_rest hr
    unfold Parser.selectSublist
    simp only [Parser.lookahead_eq, hr, List.drop_zero, h0, h1, h2, hx, decide_True,
      Bool.and_self, if_true, hk]
    rfl

/-- Witness of C11: the two items `t . c` and `t . *`, each followed by `FROM`. -/
theorem select_item_disambiguation_witness :
    Parser.selectSublist 2
      ⟨[mkToken .T_SELECT "SELECT" 0, mkToken .T_IDENTIFIER "t" 7,
        mkToken .T_DOT "." 8, mkToken .T_IDENTIFIER "c" 9,
        mkToken .T_FROM "FROM" 11, mkToken .T_IDENTIFIER "t" 16,
        mkToken .T_END "" 17], 1, []⟩ =
      some (some (.mk .T_DERIVED_COLUMN none
        [some (.mk .T_TABLE_NAME (some (mkToken .T_IDENTIFIER "t" 7))
          [some (.mk .T_COLUMN_NAME (some (mkToken .T_IDENTIFIER "c" 9)) [])])]),
        ⟨[mkToken .T_SELECT "SELECT" 0, mkToken .T_IDENTIFIER "t" 7,
          mkToken .T_DOT "." 8, mkToken .T_IDENTIFIER "c" 9,
          mkToken .T_FROM "FROM" 11, mkToken .T_IDENTIFIER "t" 16,
          mkToken .T_END "" 17], 4, []⟩) ∧
    Parser.selectSublist 2
      ⟨[mkToken .T_SELECT "SELECT" 0, mkToken .T_IDENTIFIER "t" 7,
        mkToken .T_DOT "." 8, mkToken .T_ASTERISK "*" 9,
        mkToken .T_FROM "FROM" 11, mkToken .T_IDENTIFIER "t" 16,
        mkToken .T_END "" 17], 1, []⟩ =
      some (some (.mk .T_ALL (some (mkToken .T_IDENTIFIER "t" 7)) []),
        ⟨[mkToken .T_SELECT "SELECT" 0, mkToken .T_IDENTIFIER "t" 7,
          mkToken .T_DOT "." 8, mkToken .T_ASTERISK "*" 9,
          mkToken .T_FROM "FROM" 11, mkToken .T_IDENTIFIER "t" 16,
          mkToken .T_END "" 17], 4, []⟩) :=
  ⟨(select_item_disambiguation (mkToken .T_IDENTIFIER "t" 7) (mkToken .T_DOT "." 8)
      (mkToken .T_IDENTIFIER "c" 9)
      ⟨[mkToken .T_SELECT "SELECT" 0, mkToken .T_IDENTIFIER "t" 7,
        mkToken .T_DOT "." 8, mkToken .T_IDENTIFIER "c" 9,
        mkToken .T_FROM "FROM" 11, mkToken .T_IDENTIFIER "t" 16,
        mkToken .T_END "" 17], 1, []⟩
      [mkToken .T_FROM "FROM" 11, mkToken .T_IDENTIFIER "t" 16, mkToken .T_END "" 17]
      2 rfl rfl rfl (by decide)).1 rfl rfl (by decide),
   (select_item_disambiguation (mkToken .T_IDENTIFIER "t" 7) (mkToken .T_DOT "." 8)
      (mkToken .T_ASTERISK "*" 9)
      ⟨[mkToken .T_SELECT "SELECT" 0, mkToken .T_IDENTIFIER "t" 7,
        mkToken .T_DOT "." 8, mkToken .T_ASTERISK "*" 9,
        mkToken .T_FROM "FROM" 11, mkToken .T_IDENTIFIER "t" 16,
        mkToken .T_END "" 17], 1, []⟩
      [mkToken .T_FROM "FROM" 11, mkToken .T_IDENTIFIER "t" 16, mkToken .T_END "" 17]
      2 rfl rfl rfl (by decide)).2 rfl⟩

/-- The two statements of C11 through `parse`, by evaluation: `SELECT t.c FROM t`
and `SELECT t.* FROM t` succeed with an empty error list and the select lists
`DERIVED_COLUMN(TABLE_NAME("t") {COLUMN_NAME("c")})` and `ALL("t")`. -/
theorem parse_qualified_examples :
    (parse 3 [mkToken .T_SELECT "SELECT" 0, mkToken .T_IDENTIFIER "t" 7,
        mkToken .T_DOT "." 8, mkToken .T_IDENTIFIER "c" 9,
        mkToken .T_FROM "FROM" 11, mkToken .T_IDENTIFIER "t" 16,
        mkToken .T_END "" 17]).map
      (fun r => (r.1, r.2.2.errors_, ((r.2.1.child 0).bind (fun s => s.child 0)).map
        ASTNode.getChildren)) =
      some (1, [], some [some (.mk .T_DERIVED_COLUMN none
        [some (.mk .T_TABLE_NAME (some (mkToken .T_IDENTIFIER "t" 7))
          [some (.mk .T_COLUMN_NAME (some (mkToken .T_IDENTIFIER "c" 9)) [])])])]) ∧
    (parse 3 [mkToken .T_SELECT "SELECT" 0, mkToken .T_IDENTIFIER "t" 7,
        mkToken .T_DOT "." 8, mkToken .T_ASTERISK "*" 9,
        mkToken .T_FROM "FROM" 11, mkToken .T_IDENTIFIER "t" 16,
        mkToken .T_END "" 17]).map
      (fun r => (r.1, r.2.2.errors_, ((r.2.1.child 0).bind (fun s => s.child 0)).map
        ASTNode.getChildren)) =
      some (1, [], some [some (.mk .T_ALL (some (mkToken .T_IDENTIFIER "t" 7)) [])]) :=
  ⟨rfl, rfl⟩

theorem Parser.consumeToken_fst (p : Parser) : p.consumeToken.1 = p.curToken := rfl

/-- C12: `limitClause`.  With the cursor on `l` followed by `rest`:
(a) on `LIMIT n` with `n` a NUMERIC token and no `OFFSET` after it, it returns a
`T_LIMIT` node whose token is `n` and which has no children, two tokens consumed;
(b) on `LIMIT n OFFSET m` with `m` NUMERIC, the `T_LIMIT` node has exactly one
child, a `T_OFFSET` node whose token is `m`, four tokens consumed;
(c) when the current token is not `LIMIT`, it returns null and leaves the state
(cursor and error list) as it is;
(d) when `LIMIT` is followed by a token that is not NUMERIC, it returns null,
having consumed the `LIMIT` and recorded exactly one error. -/
theorem limitClause_cases (p : Parser) (l n o m : Token) (post : List Token) :
    (p.rest = l :: n :: post → l.type = .T_LIMIT → n.type = .T_NUMERIC →
      headType post ≠ .T_OFFSET →
      Parser.limitClause p = (some (.mk .T_LIMIT (some n) []), p.advance 2)) ∧
    (p.rest = l :: n :: o :: m :: post → l.type = .T_LIMIT → n.type = .T_NUMERIC →
      o.type = .T_OFFSET → m.type = .T_NUMERIC →
      Parser.limitClause p =
        (some (.mk .T_LIMIT (some n) [some (.mk .T_OFFSET (some m) [])]),
          p.advance 4)) ∧
    (p.curType ≠ .T_LIMIT → Parser.limitClause p = (none, p)) ∧
    (p.rest = l :: post → l.type = .T_LIMIT → headType post ≠ .T_NUMERIC →
      Parser.limitClause p =
        (none, { p with cur_token_ := p.cur_token_ + 1,
                        errors_ := p.errors_ ++ [⟨.ERR_UNEXPECTED_TOKEN⟩] })) := by
  refine ⟨?_, ?_, ?_, ?_⟩
  · intro hr hl hn hpost
    have h1 : (p.advance 1).rest = n :: post := Parser.rest_next hr
    have h2 : ((p.advance 1).advance 1).rest = post := Parser.rest_next h1
    have c0 : p.curType = .T_LIMIT := by rw [Parser.curType_of_rest hr]; exact hl
    have c1 : (p.advance 1).curType = .T_NUMERIC := by
      rw [Parser.curType_of_rest h1]; exact hn
    have c2 : ((p.advance 1).advance 1).curType ≠ .T_OFFSET := by
      rw [Parser.curType_eq, h2]; exact hpost
    have k1 : (p.advance 1).curToken = n := Parser.curToken_of_rest h1
    unfold Parser.limitClause
    simp only [Parser.consumeIf, Parser.assertExpectation, c0, if_true,
      Parser.consumeToken_snd, Parser.consumeToken_fst, c1, c2, if_false, k1]
    rfl
  · intro hr hl hn ho hm
    have h1 : (p.advance 1).rest = n :: o :: m :: post := Parser.rest_next hr
    have h2 : ((p.advance 1).advance 1).rest = o :: m :: post := Parser.rest_next h1
    have h3 : (((p.advance 1).advance 1).advance 1).rest = m :: post := Parser.rest_next h2
    have c0 : p.curType = .T_LIMIT := by rw [Parser.curType_of_rest hr]; exact hl
    have c1 : (p.advance 1).curType = .T_NUMERIC := by
      rw [Parser.curType_of_rest h1]; exact hn
    have c2 : ((p.advance 1).advance 1).curType = .T_OFFSET := by
      rw [Parser.curType_of_rest h2]; exact ho
    have c3 : (((p.advance 1).advance 1).advance 1).curType = .T_NUMERIC := by
      rw [Parser.curType_of_rest h3]; exact hm
    have k1 : (p.advance 1).curToken = n := Parser.curToken_of_rest h1
    have k3 : (((p.advance 1).advance 1).advance 1).curToken = m :=
      Parser.curToken_of_rest h3
    unfold Parser.limitClause
    simp only [Parser.consumeIf, Parser.assertExpectation, c0, if_true,
      Parser.consumeToken_snd, Parser.consumeToken_fst, c1, c2, c3, k1, k3]
    rfl
  · intro hc
    unfold Parser.limitClause
    simp only [Parser.consumeIf, hc, if_false]
  · intro hr hl hpost
    have h1 : (p.advance 1).rest = post := Parser.rest_next hr
    have c0 : p.curType = .T_LIMIT := by rw [Parser.curType_of_rest hr]; exact hl
    have c1 : (p.advance 1).curType ≠ .T_NUMERIC := by
      rw [Parser.curType_eq, h1]; exact hpost
    unfold Parser.limitClause
    simp only [Parser.consumeIf, Parser.assertExpectation, c0, if_true,
      Parser.consumeToken_snd, c1, if_false]
    rfl

/-- Witness of C12: the four cases on `LIMIT 10`, `LIMIT 10 OFFSET 5`, a cursor on
the end sentinel and `LIMIT` followed by the end sentinel. -/
theorem limitClause_cases_witness :
    Parser.limitClause ⟨[mkToken .T_LIMIT "LIMIT" 0, mkToken .T_NUMERIC "10" 6,
        mkToken .T_END "" 8], 0, []⟩ =
      (some (.mk .T_LIMIT (some (mkToken .T_NUMERIC "10" 6)) []),
        ⟨[mkToken .T_LIMIT "LIMIT" 0, mkToken .T_NUMERIC "10" 6,
          mkToken .T_END "" 8], 2, []⟩) ∧
    Parser.limitClause ⟨[mkToken .T_LIMIT "LIMIT" 0, mkToken .T_NUMERIC "10" 6,
        mkToken .T_OFFSET "OFFSET" 9, mkToken .T_NUMERIC "5" 16,
        mkToken .T_END "" 17], 0, []⟩ =
      (some (.mk .T_LIMIT (some (mkToken .T_NUMERIC "10" 6))
          [some (.mk .T_OFFSET (some (mkToken .T_NUMERIC "5" 16)) [])]),
        ⟨[mkToken .T_LIMIT "LIMIT" 0, mkToken .T_NUMERIC "10" 6,
          mkToken .T_OFFSET "OFFSET" 9, mkToken .T_NUMERIC "5" 16,
          mkToken .T_END "" 17], 4, []⟩) ∧
    Parser.limitClause ⟨[mkToken .T_END "" 0], 0, []⟩ =
      (none, ⟨[mkToken .T_END "" 0], 0, []⟩) ∧
    Parser.limitClause ⟨[mkToken .T_LIMIT "LIMIT" 0, mkToken .T_END "" 5], 0, []⟩ =
      (none, ⟨[mkToken .T_LIMIT "LIMIT" 0, mkToken .T_END "" 5], 1,
        [⟨.ERR_UNEXPECTED_TOKEN⟩]⟩) :=
  ⟨(limitClause_cases ⟨[mkToken .T_LIMIT "LIMIT" 0, mkToken .T_NUMERIC "10" 6,
        mkToken .T_END "" 8], 0, []⟩ (mkToken .T_LIMIT "LIMIT" 0)
      (mkToken .T_NUMERIC "10" 6) (mkToken .T_END "" 8) (mkToken .T_END "" 8)
      [mkToken .T_END "" 8]).1 rfl rfl rfl (by decide),
   (limitClause_cases ⟨[mkToken .T_LIMIT "LIMIT" 0, mkToken .T_NUMERIC "10" 6,
        mkToken .T_OFFSET "OFFSET" 9, mkToken .T_NUMERIC "5" 16,
        mkToken .T_END "" 17], 0, []⟩ (mkToken .T_LIMIT "LIMIT" 0)
      (mkToken .T_NUMERIC "10" 6) (mkToken .T_OFFSET "OFFSET" 9)
      (mkToken .T_NUMERIC "5" 16) [mkToken .T_END "" 17]).2.1 rfl rfl rfl rfl rfl,
   (limitClause_cases ⟨[mkToken .T_END "" 0], 0, []⟩ (mkToken .T_END "" 0)
      (mkToken .T_END "" 0) (mkToken .T_END "" 0) (mkToken .T_END "" 0) []).2.2.1
      (by decide),
   (limitClause_cases ⟨[mkToken .T_LIMIT "LIMIT" 0, mkToken .T_END "" 5], 0, []⟩
      (mkToken .T_LIMIT "LIMIT" 0) (mkToken .T_END "" 5) (mkToken .T_END "" 5)
      (mkToken .T_END "" 5) [mkToken .T_END "" 5]).2.2.2 rfl rfl (by decide)⟩

/-- C15, the failing input: on an empty token list `parse` returns 0 and leaves
the error list empty, while on `SELECT *;` it returns 1 with the error list
empty as well: two inputs without any recorded error get different return
codes, so no fixed success value matches "the error list is empty". -/
theorem parse_empty_returns_zero (fuel : Nat) :
    (parse fuel []).map (fun r => (r.1, r.2.2.errors_)) = some (0, []) ∧
    (parse (fuel + 1) [mkToken .T_SELECT "SELECT" 0, mkToken .T_ASTERISK "*" 7,
        mkToken .T_SEMICOLON ";" 8, mkToken .T_END "" 9]).map
      (fun r => (r.1, r.2.2.errors_)) = some (1, []) :=
  ⟨rfl, rfl⟩

/-- On a non-empty token list the return code of `parse` does reflect the error
list: it is 1 when the error list is empty and 0 otherwise. -/
theorem parse_return_code_nonempty (fuel : Nat) (token_list : List Token)
    (rc : Nat) (root : ASTNode) (p : Parser) (hne : token_list ≠ [])
    (h : parse fuel token_list = some (rc, root, p)) :
    (rc = 1 ↔ p.errors_ = []) ∧ (rc = 0 ↔ p.errors_ ≠ []) := by
  unfold parse at h
  have hlen : token_list.length ≠ 0 := by
    intro h0; exact hne (List.length_eq_zero.mp h0)
  simp only [hlen, if_false] at h
  split at h
  · cases h
  · simp only [Option.some.injEq, Prod.mk.injEq] at h
    obtain ⟨h1, _, h3⟩ := h
    rw [h3] at h1
    by_cases he : p.errors_ = []
    · simp [he] at h1; simp [he, ← h1]
    · have : p.errors_.length ≠ 0 := fun h0 => he (List.length_eq_zero.mp h0)
      simp [this] at h1; simp [he, ← h1]

namespace Parser

theorem exprLoop_ne_none (e : ExprFn) (fuel : Nat) :
    ∀ (lhs : ASTNode) (prec : Int) (p p2 : Parser),
      exprLoop e fuel lhs prec p ≠ some (none, p2) := by
  induction fuel with
  | zero => intro lhs prec p p2 h; simp [exprLoop] at h
  | succ n ih =>
    intro lhs prec p p2 h
    unfold exprLoop at h
    split at h
    · cases h
    · cases h
    · exact ih _ _ _ _ h

/-- When `exprLHS` returns null, either the state is untouched or the current
token was an opening parenthesis. -/
theorem exprLHS_null (e : ExprFn) (fuel : Nat) (p p2 : Parser)
    (h : exprLHS e fuel p = some (none, p2)) : p2 = p ∨ p.curType = .T_LPAREN := by
  unfold exprLHS at h
  split at h
  · right; assumption
  · dsimp only at h; split at h <;> cases h
  · dsimp only at h; split at h <;> cases h
  · dsimp only at h; split at h <;> cases h
  · cases h
  · cases h
  · cases h
  · cases h
  · split at h
    · dsimp only at h; split at h <;> cases h
    · split at h
      · unfold methodCall at h
        dsimp only at h
        split at h <;> cases h
      · cases h
  · simp only [Option.some.injEq, Prod.mk.injEq, true_and] at h
    left; exact h.symm

end Parser

/-- C17 (as amended): null propagation leaves the state untouched except behind
an opening parenthesis.  Whenever `expr(prec)` returns null and the token under
the cursor is not `(`, the parser state after the call is the state before it:
no token has been consumed (and no error recorded).  On `(` the parenthesis has
been consumed before the inner `expr()` is found to be null. -/
theorem expr_null_leaves_cursor (fuel : Nat) (prec : Int) (p p2 : Parser)
    (h : Parser.expr fuel prec p = some (none, p2)) (hlp : p.curType ≠ .T_LPAREN) :
    p2 = p := by
  cases fuel with
  | zero => simp [Parser.expr] at h
  | succ n =>
    rw [Parser.expr_succ] at h
    split at h
    · cases h
    · next p1 hlhs =>
      simp only [Option.some.injEq, Prod.mk.injEq, true_and] at h
      rcases Parser.exprLHS_null _ _ _ _ hlhs with h1 | h1
      · rw [← h, h1]
      · exact absurd h1 hlp
    · exact absurd h (Parser.exprLoop_ne_none _ _ _ _ _ _)

/-- Witness of C17 (as amended): `expr(0)` on `FROM` returns null, the current
token is not `(`, and the state is the one it was called in. -/
theorem expr_null_leaves_cursor_witness :
    Parser.expr 1 0 ⟨[mkToken .T_FROM "FROM" 0, mkToken .T_END "" 4], 0, []⟩ =
      some (none, ⟨[mkToken .T_FROM "FROM" 0, mkToken .T_END "" 4], 0, []⟩) ∧
    Parser.curType ⟨[mkToken .T_FROM "FROM" 0, mkToken .T_END "" 4], 0, []⟩ ≠
      .T_LPAREN ∧
    (⟨[mkToken .T_FROM "FROM" 0, mkToken .T_END "" 4], 0, []⟩ : Parser) =
      ⟨[mkToken .T_FROM "FROM" 0, mkToken .T_END "" 4], 0, []⟩ :=
  ⟨rfl, by decide,
    expr_null_leaves_cursor 1 0 ⟨[mkToken .T_FROM "FROM" 0, mkToken .T_END "" 4], 0, []⟩
      ⟨[mkToken .T_FROM "FROM" 0, mkToken .T_END "" 4], 0, []⟩ rfl (by decide)⟩

/-- Counterexample to C17 as stated: on `( )` `expr(0)` returns null with the
cursor two tokens further. -/
theorem expr_null_counterexample :
    ∃ p2 : Parser,
      Parser.expr 2 0 ⟨[mkToken .T_LPAREN "(" 0, mkToken .T_RPAREN ")" 1,
        mkToken .T_END "" 2], 0, []⟩ = some (none, p2) ∧
      p2.cur_token_ ≠ 0 :=
  ⟨⟨[mkToken .T_LPAREN "(" 0, mkToken .T_RPAREN ")" 1, mkToken .T_END "" 2], 2, []⟩,
    rfl, by decide⟩

/-- C13, the failing input: on `SELECT 1 + FROM t` the parser records no error and
returns 1, and the value of the derived column is a `T_ADD_EXPR` node whose
second child is a null pointer: `addExpr` appends the result of `expr(10)`
without a null test, and `expr` returns null at `FROM` without recording an
error.  Any fuel of at least 4 gives this result. -/
theorem dangling_operator_accepted_silently (fuel : Nat) :
    parse (fuel + 4) [mkToken .T_SELECT "SELECT" 0, mkToken .T_NUMERIC "1" 7,
        mkToken .T_PLUS "+" 9, mkToken .T_FROM "FROM" 11,
        mkToken .T_IDENTIFIER "t" 16, mkToken .T_END "" 17] =
      some (1,
        .mk .T_ROOT none [some (.mk .T_SELECT none
          [some (.mk .T_SELECT_LIST none [some (.mk .T_DERIVED_COLUMN none
            [some (.mk .T_ADD_EXPR none
              [some (.mk .T_LITERAL (some (mkToken .T_NUMERIC "1" 7)) []), none])])]),
           some (.mk .T_FROM none
            [some (.mk .T_TABLE_NAME (some (mkToken .T_IDENTIFIER "t" 16)) [])])])],
        ⟨[mkToken .T_SELECT "SELECT" 0, mkToken .T_NUMERIC "1" 7,
          mkToken .T_PLUS "+" 9, mkToken .T_FROM "FROM" 11,
          mkToken .T_IDENTIFIER "t" 16, mkToken .T_END "" 17], 5, []⟩) := by
  rfl

theorem mem_nodesOfChildren (n : ASTNode) (cs : List (Option ASTNode)) :
    n ∈ nodesOfChildren cs ↔ ∃ c, some c ∈ cs ∧ n ∈ c.nodes := by
  induction cs with
  | nil => simp [nodesOfChildren]
  | cons x xs ih =>
    cases x with
    | none => simp [nodesOfChildren, ih]
    | some c =>
      simp only [nodesOfChildren, List.mem_append, ih, List.mem_cons, Option.some.injEq]
      constructor
      · rintro (h | ⟨d, hd, hn⟩)
        · exact ⟨c, Or.inl rfl, h⟩
        · exact ⟨d, Or.inr hd, hn⟩
      · rintro ⟨d, hd | hd, hn⟩
        · subst hd; exact Or.inl hn
        · exact Or.inr ⟨d, hd, hn⟩

theorem mem_nodes (n : ASTNode) (k : kASTNodeType) (tok : Option Token)
    (cs : List (Option ASTNode)) :
    n ∈ (ASTNode.mk k tok cs).nodes ↔
      n = .mk k tok cs ∨ ∃ c, some c ∈ cs ∧ n ∈ c.nodes := by
  simp only [ASTNode.nodes, List.mem_cons, mem_nodesOfChildren]

theorem shaped_mk (toks : List Token) (k : kASTNodeType) (tok : Option Token)
    (cs : List (Option ASTNode)) :
    Shaped toks (.mk k tok cs) ↔
      NodeShape toks (.mk k tok cs) ∧ ∀ c, some c ∈ cs → Shaped toks c := by
  constructor
  · intro h
    refine ⟨h _ ((mem_nodes _ _ _ _).mpr (Or.inl rfl)), ?_⟩
    intro c hc n hn
    exact h n ((mem_nodes _ _ _ _).mpr (Or.inr ⟨c, hc, hn⟩))
  · rintro ⟨h1, h2⟩ n hn
    rcases (mem_nodes _ _ _ _).mp hn with h | ⟨c, hc, hn2⟩
    · rw [h]; exact h1
    · exact h2 c hc n hn2

theorem container_new (toks : List Token) (k : kASTNodeType)
    (h1 : k ≠ .T_LITERAL) (h2 : isBinaryKind k = false) :
    Container toks (ASTNode.new k) := by
  refine ⟨?_, h1, h2⟩
  unfold ASTNode.new
  rw [shaped_mk]
  refine ⟨⟨fun h => absurd h h1, fun h => ?_⟩, ?_⟩
  · simp only [ASTNode.getType] at h; rw [h2] at h; cases h
  · intro c hc; cases hc

theorem container_setToken (toks : List Token) (e : ASTNode) (t : Token)
    (h : Container toks e) : Container toks (e.setToken t) := by
  obtain ⟨k, tok, cs⟩ := e
  obtain ⟨hs, h1, h2⟩ := h
  refine ⟨?_, h1, h2⟩
  simp only [ASTNode.setToken]
  rw [shaped_mk] at hs ⊢
  refine ⟨⟨fun h => absurd h h1, fun h => ?_⟩, hs.2⟩
  simp only [ASTNode.getType] at h h2; rw [h2] at h; cases h

theorem container_appendChild (toks : List Token) (e : ASTNode)
    (c : Option ASTNode) (h : Container toks e) (hc : ShapedOpt toks c) :
    Container toks (e.appendChild c) := by
  obtain ⟨k, tok, cs⟩ := e
  obtain ⟨hs, h1, h2⟩ := h
  refine ⟨?_, h1, h2⟩
  simp only [ASTNode.appendChild]
  rw [shaped_mk] at hs ⊢
  refine ⟨⟨fun h => absurd h h1, fun h => ?_⟩, ?_⟩
  · simp only [ASTNode.getType] at h h2; rw [h2] at h; cases h
  · intro d hd
    rcases List.mem_append.mp hd with hd | hd
    · exact hs.2 d hd
    · simp only [List.mem_singleton] at hd
      exact hc d hd.symm

theorem shaped_literal (toks : List Token) (t : Token) (h1 : t ∈ toks)
    (h2 : isLiteralKind t.type = true) :
    Shaped toks ((ASTNode.new .T_LITERAL).setToken t) := by
  simp only [ASTNode.new, ASTNode.setToken]
  rw [shaped_mk]
  refine ⟨⟨fun _ => ⟨rfl, t, rfl, h1, h2⟩, fun h => ?_⟩, ?_⟩
  · cases h
  · intro c hc; cases hc

theorem shaped_binary (toks : List Token) (k : kASTNodeType) (lhs : ASTNode)
    (rhs : Option ASTNode) (hk : isBinaryKind k = true) (hl : Shaped toks lhs)
    (hr : ShapedOpt toks rhs) : Shaped toks (.mk k none [some lhs, rhs]) := by
  rw [shaped_mk]
  refine ⟨⟨fun h => ?_, fun _ => ⟨lhs, rhs, rfl⟩⟩, ?_⟩
  · simp only [ASTNode.getType] at h; rw [h] at hk; cases hk
  · intro c hc
    simp only [List.mem_cons, Option.some.injEq, List.mem_singleton] at hc
    rcases hc with hc | hc | hc
    · rw [hc]; exact hl
    · exact hr c hc.symm
    · cases hc

theorem shapedOpt_none (toks : List Token) : ShapedOpt toks none := by
  intro e h; cases h

theorem shapedOpt_some (toks : List Token) (e : ASTNode) (h : Shaped toks e) :
    ShapedOpt toks (some e) := by
  intro e2 h2; cases h2; exact h

namespace Step

theorem refl (p : Parser) : Step p p :=
  ⟨rfl, Nat.le_refl _, fun i h1 h2 => absurd h2 (by omega)⟩

theorem trans {p q r : Parser} (h1 : Step p q) (h2 : Step q r) : Step p r := by
  obtain ⟨a1, a2, a3⟩ := h1
  obtain ⟨b1, b2, b3⟩ := h2
  refine ⟨b1.trans a1, Nat.le_trans a2 b2, ?_⟩
  intro i hi1 hi2
  by_cases hq : i < q.cur_token_
  · exact a3 i hi1 hq
  · rw [← a1]; exact b3 i (by omega) hi2

end Step

namespace Parser

/-- A read `k` tokens ahead whose kind is not `T_END` is a read inside the token
list. -/
theorem peek_in_range (p : Parser) (k : Nat) (h : (p.peekToken k).type ≠ .T_END) :
    ∃ t : Token, p.token_list_.get? (p.cur_token_ + k) = some t ∧ t.type ≠ .T_END ∧
      p.peekToken k = t := by
  unfold peekToken at h ⊢
  cases hg : p.token_list_.get? (p.cur_token_ + k) with
  | none => rw [hg] at h; exact absurd rfl h
  | some t => rw [hg] at h; exact ⟨t, rfl, h, rfl⟩

theorem cur_in_range (p : Parser) (h : p.curType ≠ .T_END) :
    ∃ t : Token, p.token_list_.get? p.cur_token_ = some t ∧ t.type ≠ .T_END ∧
      p.curToken = t :=
  peek_in_range p 0 h

theorem curToken_mem (p : Parser) (h : p.curType ≠ .T_END) :
    p.curToken ∈ p.token_list_ := by
  obtain ⟨t, h1, _, h3⟩ := cur_in_range p h
  rw [h3]
  exact List.mem_iff_get?.mpr ⟨_, h1⟩

theorem step_advance (p : Parser) (n : Nat)
    (h : ∀ k, k < n → (p.peekToken k).type ≠ .T_END) : Step p (p.advance n) := by
  refine ⟨rfl, Nat.le_add_right _ _, ?_⟩
  intro i h1 h2
  simp only [advance] at h2
  obtain ⟨t, ht, hne, _⟩ := peek_in_range p (i - p.cur_token_) (h _ (by omega))
  refine ⟨t, ?_, hne⟩
  rw [← ht]
  congr 1
  omega

theorem step_consume (p : Parser) (h : p.curType ≠ .T_END) :
    Step p p.consumeToken.2 := by
  rw [consumeToken_snd]
  apply step_advance
  intro k hk
  have : k = 0 := by omega
  subst this
  exact h

theorem step_addError (p : Parser) (t : kParserErrorType) : Step p (p.addError t) :=
  ⟨rfl, Nat.le_refl _, fun i h1 h2 => absurd h2 (by simp only [addError]; omega)⟩

theorem step_assertExpectation (p : Parser) (k : kTokenType) :
    Step p (p.assertExpectation k).2 := by
  unfold assertExpectation
  split
  · exact Step.refl p
  · exact step_addError p _

theorem assertExpectation_true (p q : Parser) (k : kTokenType)
    (h : p.assertExpectation k = (true, q)) : q = p ∧ p.curType = k := by
  unfold assertExpectation at h
  split at h
  · next hk => simp only [Prod.mk.injEq, true_and] at h; exact ⟨h.symm, hk⟩
  · simp at h

theorem step_consumeIf (p : Parser) (k : kTokenType) (hk : k ≠ .T_END) :
    Step p (p.consumeIf k).2 := by
  unfold consumeIf
  split
  · next h => exact step_consume p (by rw [h]; exact hk)
  · exact Step.refl p

theorem consumeIf_true (p q : Parser) (k : kTokenType)
    (h : p.consumeIf k = (true, q)) : q = p.advance 1 ∧ p.curType = k := by
  unfold consumeIf at h
  split at h
  · next hk => simp only [Prod.mk.injEq, true_and] at h; exact ⟨h.symm, hk⟩
  · simp at h

theorem step_expectAndConsume (p : Parser) (k : kTokenType) (hk : k ≠ .T_END) :
    Step p (p.expectAndConsume k).2 := by
  unfold expectAndConsume
  split
  · next p1 h =>
    obtain ⟨h1, h2⟩ := assertExpectation_true _ _ _ h
    subst h1
    exact step_consume _ (by rw [h2]; exact hk)
  · next p1 h =>
    have := step_assertExpectation p k
    rw [h] at this
    exact this

end Parser

namespace Post

theorem of_step {p p1 p2 : Parser} {r : Option ASTNode} (h1 : Step p p1)
    (h2 : Post p1 r p2) : Post p r p2 :=
  ⟨h1.trans h2.1, by rw [← h1.1]; exact h2.2⟩

theorem step_right {p p1 p2 : Parser} {r : Option ASTNode} (h1 : Post p r p1)
    (h2 : Step p1 p2) : Post p r p2 :=
  ⟨h1.1.trans h2, h1.2⟩

end Post

namespace LoopPost

theorem after_step {p p1 p2 : Parser} {e : ASTNode} (h1 : Step p p1)
    (h2 : LoopPost p1 e p2) : LoopPost p e p2 :=
  ⟨h1.trans h2.1, by rw [← h1.1]; exact h2.2⟩

end LoopPost

namespace Parser

theorem binaryOp_kind {t : kTokenType} {k : kASTNodeType} {l r : Int}
    (h : binaryOp t = some (k, l, r)) : isBinaryKind k = true ∧ t ≠ .T_END := by
  cases t <;> simp [binaryOp] at h <;> obtain ⟨rfl, _, _⟩ := h <;> exact ⟨rfl, by decide⟩

theorem binaryExpr_post (expr : ExprFn) (hE : ExprPost expr) (lhs : ASTNode)
    (prec : Int) (p : Parser) (r : Option ASTNode) (q : Parser)
    (hl : Shaped p.token_list_ lhs)
    (h : binaryExpr expr lhs prec p = some (r, q)) : Post p r q := by
  rw [binaryExpr_eq] at h
  split at h
  · cases h; exact ⟨Step.refl _, shapedOpt_none _⟩
  · next k l rr hb =>
    split at h
    · split at h
      · cases h
      · next rhs p2 he =>
        cases h
        have hp := hE _ _ _ _ he
        have hs : Step p (p.advance 1) := step_consume p (binaryOp_kind hb).2
        exact ⟨hs.trans hp.1,
          shapedOpt_some _ _ (shaped_binary _ _ _ _ (binaryOp_kind hb).1 hl hp.2)⟩
    · cases h; exact ⟨Step.refl _, shapedOpt_none _⟩

theorem methodCallArgs_post (expr : ExprFn) (hE : ExprPost expr) (n : Nat) :
    ∀ (e : ASTNode) (p : Parser) (e2 : ASTNode) (q : Parser),
      Container p.token_list_ e → p.curType ≠ .T_END →
      methodCallArgs expr n e p = some (e2, q) → LoopPost p e2 q := by
  induction n with
  | zero => intro e p e2 q _ _ h; simp [methodCallArgs] at h
  | succ n ih =>
    intro e p e2 q he hc h
    unfold methodCallArgs at h
    dsimp only at h
    split at h
    · cases h
    · next arg p2 hx =>
      have hp := hE _ _ _ _ hx
      have hs : Step p p.consumeToken.2 := step_consume p hc
      have hp2 : Post p arg p2 := Post.of_step hs hp
      have hcont : Container p.token_list_ (e.appendChild arg) :=
        container_appendChild _ _ _ he hp2.2
      split at h
      · next hcomma =>
        have := ih _ _ _ _ (by rw [hp2.1.1]; exact hcont) (by rw [hcomma]; decide) h
        exact LoopPost.after_step hp2.1 this
      · cases h
        exact ⟨hp2.1, hcont⟩

theorem methodCall_post (expr : ExprFn) (hE : ExprPost expr) (fuel : Nat)
    (p : Parser) (r : Option ASTNode) (q : Parser) (h0 : p.curType ≠ .T_END)
    (h1 : (p.peekToken 1).type ≠ .T_END)
    (h : methodCall expr fuel p = some (r, q)) : Post p r q := by
  unfold methodCall at h
  dsimp only at h
  split at h
  · cases h
  · next e1 p2 hx =>
    cases h
    have hs : Step p p.consumeToken.2 := step_consume p h0
    have hl := methodCallArgs_post expr hE fuel _ _ _ _
      (container_setToken p.consumeToken.2.token_list_ _ p.consumeToken.1
        (container_new _ .T_METHOD_CALL (by decide) rfl))
      (by exact h1) hx
    have hl2 := LoopPost.after_step hs hl
    exact ⟨hl2.1.trans (step_expectAndConsume _ _ (by decide)),
      shapedOpt_some _ _ hl2.2.1⟩

theorem step_assert_consume (p p3 : Parser) (k : kTokenType) (hk : k ≠ .T_END)
    (h : p.assertExpectation k = (true, p3)) :
    Step p p3.consumeToken.2 ∧ p3 = p ∧ p.curType = k := by
  obtain ⟨h1, h2⟩ := assertExpectation_true _ _ _ h
  subst h1
  exact ⟨step_consume _ (by rw [h2]; exact hk), rfl, h2⟩

theorem step_assert_false (p p3 : Parser) (k : kTokenType) (b : Bool)
    (h : p.assertExpectation k = (b, p3)) : Step p p3 := by
  have := step_assertExpectation p k
  rw [h] at this
  exact this

theorem exprLHS_post (expr : ExprFn) (hE : ExprPost expr) (fuel : Nat)
    (p : Parser) (r : Option ASTNode) (q : Parser)
    (h : exprLHS expr fuel p = some (r, q)) : Post p r q := by
  have hneg : ∀ (r : Option ASTNode) (q : Parser), p.curType ≠ .T_END →
      (match expr 0 p.consumeToken.2 with
        | none => none
        | some (operand, p2) =>
          some (some ((ASTNode.new .T_NEGATE_EXPR).appendChild operand), p2)) =
        some (r, q) → Post p r q := by
    intro r q hc h
    split at h
    · cases h
    · next operand p2 hx =>
      cases h
      have hp := Post.of_step (step_consume p hc) (hE _ _ _ _ hx)
      exact ⟨hp.1, shapedOpt_some _ _
        (container_appendChild _ _ _ (container_new _ .T_NEGATE_EXPR (by decide) rfl) hp.2).1⟩
  have hlit : ∀ (r : Option ASTNode) (q : Parser), isLiteralKind p.curType = true →
      some (some ((ASTNode.new .T_LITERAL).setToken p.curToken), p.consumeToken.2) =
        some (r, q) → Post p r q := by
    intro r q hc h
    cases h
    have hne : p.curType ≠ .T_END := by intro h0; rw [h0] at hc; cases hc
    exact ⟨step_consume p hne,
      shapedOpt_some _ _ (shaped_literal _ _ (curToken_mem p hne) hc)⟩
  unfold exprLHS at h
  split at h
  · next hc =>
    dsimp only at h
    split at h
    · cases h
    · next e p2 hx =>
      have hp := Post.of_step (step_consume p (by rw [hc]; decide)) (hE _ _ _ _ hx)
      split at h
      · next p3 ha =>
        cases h
        exact Post.step_right hp (step_assert_consume _ _ _ (by decide) ha).1
      · next p3 ha =>
        cases h
        exact Post.step_right hp (step_assert_false _ _ _ _ ha)
  · next hc => exact hneg r q (by rw [hc]; decide) h
  · next hc => exact hneg r q (by rw [hc]; decide) h
  · next hc => exact hneg r q (by rw [hc]; decide) h
  · next hc => exact hlit r q (by rw [hc]; rfl) h
  · next hc => exact hlit r q (by rw [hc]; rfl) h
  · next hc => exact hlit r q (by rw [hc]; rfl) h
  · next hc => exact hlit r q (by rw [hc]; rfl) h
  · next hc =>
    have hne : p.curType ≠ .T_END := by rw [hc]; decide
    split at h
    · next hdot =>
      dsimp only at h
      have h1 : p.consumeToken.2.curType ≠ .T_END := by
        have : p.consumeToken.2.curType = (p.peekToken 1).type := rfl
        rw [this, hdot.2]; decide
      have hs2 : Step p p.consumeToken.2.consumeToken.2 :=
        (step_consume p hne).trans (step_consume _ h1)
      have hcont : Container p.token_list_
          ((ASTNode.new .T_TABLE_NAME).setToken p.curToken) :=
        container_setToken _ _ _ (container_new _ .T_TABLE_NAME (by decide) rfl)
      split at h
      · next p3 ha =>
        cases h
        obtain ⟨hs3, _, _⟩ := step_assert_consume _ _ _ (by decide) ha
        refine ⟨hs2.trans hs3, shapedOpt_some _ _ ?_⟩
        exact (container_appendChild _ _ _ hcont (shapedOpt_some _ _
          (container_setToken _ _ _ (container_new _ .T_COLUMN_NAME (by decide) rfl)).1)).1
      · next p3 ha =>
        cases h
        exact ⟨hs2.trans (step_assert_false _ _ _ _ ha), shapedOpt_some _ _ hcont.1⟩
    · split at h
      · next hnd hpar =>
        refine methodCall_post expr hE fuel p r q hne ?_ h
        simp only [lookahead, beq_iff_eq] at hpar
        rw [hpar]; decide
      · cases h
        exact ⟨step_consume p hne, shapedOpt_some _ _
          (container_setToken _ _ _ (container_new _ .T_COLUMN_NAME (by decide) rfl)).1⟩
  · cases h
    exact ⟨Step.refl _, shapedOpt_none _⟩

theorem exprLoop_post (expr : ExprFn) (hE : ExprPost expr) (n : Nat) :
    ∀ (lhs : ASTNode) (prec : Int) (p : Parser) (r : Option ASTNode) (q : Parser),
      Shaped p.token_list_ lhs → exprLoop expr n lhs prec p = some (r, q) →
      Post p r q := by
  induction n with
  | zero => intro lhs prec p r q _ h; simp [exprLoop] at h
  | succ n ih =>
    intro lhs prec p r q hl h
    unfold exprLoop at h
    split at h
    · cases h
    · next p1 hb =>
      cases h
      have := binaryExpr_post expr hE _ _ _ _ _ hl hb
      exact ⟨this.1, shapedOpt_some _ _ hl⟩
    · next e p1 hb =>
      have hp := binaryExpr_post expr hE _ _ _ _ _ hl hb
      exact Post.of_step hp.1 (ih _ _ _ _ _ (by rw [hp.1.1]; exact hp.2 e rfl) h)

theorem expr_post (fuel : Nat) : ExprPost (expr fuel) := by
  induction fuel with
  | zero => intro prec p r q h; simp [expr] at h
  | succ n ih =>
    intro prec p r q h
    rw [expr_succ] at h
    split at h
    · cases h
    · next p1 hl =>
      cases h
      exact exprLHS_post _ ih _ _ _ _ hl
    · next lhs p1 hl =>
      have hp := exprLHS_post _ ih _ _ _ _ hl
      exact Post.of_step hp.1
        (exprLoop_post _ ih _ _ _ _ _ _ (by rw [hp.1.1]; exact hp.2 lhs rfl) h)

end Parser

namespace Parser

theorem tableName_post (p : Parser) : Post p (tableName p).1 (tableName p).2 := by
  unfold tableName
  split
  · next p1 ha =>
    exact ⟨step_assert_false _ _ _ _ ha, shapedOpt_none _⟩
  · next p1 ha =>
    obtain ⟨hs, _, _⟩ := step_assert_consume _ _ _ (by decide) ha
    exact ⟨hs, shapedOpt_some _ _
      (container_setToken _ _ _ (container_new _ .T_TABLE_NAME (by decide) rfl)).1⟩

theorem selectSublist_post (fuel : Nat) (p : Parser) (r : Option ASTNode)
    (q : Parser) (h : selectSublist fuel p = some (r, q)) : Post p r q := by
  unfold selectSublist at h
  split at h
  · next hl =>
    cases h
    simp only [lookahead, Bool.and_eq_true, beq_iff_eq] at hl
    refine ⟨?_, shapedOpt_some _ _
      (container_setToken _ _ _ (container_new _ .T_ALL (by decide) rfl)).1⟩
    apply step_advance p 3
    intro k hk
    have : k = 0 ∨ k = 1 ∨ k = 2 := by omega
    rcases this with rfl | rfl | rfl
    · rw [hl.1.1]; decide
    · rw [hl.1.2]; decide
    · rw [hl.2]; decide
  · dsimp only at h
    split at h
    · cases h
    · next p1 hx =>
      cases h
      have hp := expr_post fuel _ _ _ _ hx
      exact ⟨hp.1.trans (step_addError _ _), shapedOpt_none _⟩
    · next value_expr p1 hx =>
      have hp := expr_post fuel _ _ _ _ hx
      have hcont : Container p.token_list_
          ((ASTNode.new .T_DERIVED_COLUMN).appendChild (some value_expr)) :=
        container_appendChild _ _ _ (container_new _ .T_DERIVED_COLUMN (by decide) rfl) hp.2
      split at h
      · next has =>
        try dsimp only at h
        have hs1 : Step p1 p1.consumeToken.2 := step_consume _ (by rw [has]; decide)
        split at h
        · next p3 ha =>
          cases h
          obtain ⟨hs3, _, _⟩ := step_assert_consume _ _ _ (by decide) ha
          refine ⟨(hp.1.trans hs1).trans hs3, shapedOpt_some _ _ ?_⟩
          exact (container_appendChild _ _ _ hcont (shapedOpt_some _ _
            (container_setToken _ _ _
              (container_new _ .T_COLUMN_NAME (by decide) rfl)).1)).1
        · next p3 ha =>
          cases h
          exact ⟨(hp.1.trans hs1).trans (step_assert_false _ _ _ _ ha),
            shapedOpt_some _ _ hcont.1⟩
      · cases h
        exact ⟨hp.1, shapedOpt_some _ _ hcont.1⟩

theorem selectListLoop_post (n : Nat) :
    ∀ (e : ASTNode) (p : Parser) (e2 : ASTNode) (q : Parser),
      Container p.token_list_ e → selectListLoop n e p = some (e2, q) →
      LoopPost p e2 q := by
  induction n with
  | zero => intro e p e2 q _ h; simp [selectListLoop] at h
  | succ n ih =>
    intro e p e2 q he h
    unfold selectListLoop at h
    split at h
    · cases h
    · next item p1 hx =>
      have hp := selectSublist_post _ _ _ _ hx
      have hcont := container_appendChild _ _ _ he hp.2
      split at h
      · next hcomma =>
        have hs := hp.1.trans (step_consume p1 (by rw [hcomma]; decide))
        exact LoopPost.after_step hs (ih _ _ _ _ (by rw [hs.1]; exact hcont) h)
      · cases h
        exact ⟨hp.1, hcont⟩

theorem selectList_post (fuel : Nat) (p : Parser) (e2 : ASTNode) (q : Parser)
    (h : selectList fuel p = some (e2, q)) : LoopPost p e2 q := by
  unfold selectList at h
  try dsimp only at h
  split at h
  · next hc =>
    cases h
    exact ⟨step_consume p (by rw [hc]; decide),
      container_appendChild _ _ _ (container_new _ .T_SELECT_LIST (by decide) rfl)
        (shapedOpt_some _ _ (container_new _ .T_ALL (by decide) rfl).1)⟩
  · exact selectListLoop_post _ _ _ _ _
      (container_new _ .T_SELECT_LIST (by decide) rfl) h

theorem fromClauseLoop_post (n : Nat) :
    ∀ (e : ASTNode) (p : Parser) (e2 : ASTNode) (q : Parser),
      Container p.token_list_ e → p.curType ≠ .T_END →
      fromClauseLoop n e p = some (e2, q) → LoopPost p e2 q := by
  induction n with
  | zero => intro e p e2 q _ _ h; simp [fromClauseLoop] at h
  | succ n ih =>
    intro e p e2 q he hc h
    unfold fromClauseLoop at h
    try dsimp only at h
    have hp := Post.of_step (step_consume p hc) (tableName_post p.consumeToken.2)
    have hcont := container_appendChild _ _ _ he hp.2
    split at h
    · next hcomma =>
      exact LoopPost.after_step hp.1
        (ih _ _ _ _ (by rw [hp.1.1]; exact hcont) (by rw [hcomma]; decide) h)
    · cases h
      exact ⟨hp.1, hcont⟩

theorem fromClause_post (fuel : Nat) (p : Parser) (r : Option ASTNode)
    (q : Parser) (h : fromClause fuel p = some (r, q)) : Post p r q := by
  unfold fromClause at h
  split at h
  · next p1 ha =>
    cases h
    exact ⟨step_assert_false _ _ _ _ ha, shapedOpt_none _⟩
  · next p1 ha =>
    obtain ⟨h1, h2⟩ := assertExpectation_true _ _ _ ha
    subst h1
    split at h
    · cases h
    · next clause p2 hx =>
      cases h
      have := fromClauseLoop_post _ _ _ _ _
        (container_new _ .T_FROM (by decide) rfl) (by rw [h2]; decide) hx
      exact ⟨this.1, shapedOpt_some _ _ this.2.1⟩

theorem step_consumeIf_eq (p p1 : Parser) (k : kTokenType) (b : Bool)
    (hk : k ≠ .T_END) (h : p.consumeIf k = (b, p1)) : Step p p1 := by
  have := step_consumeIf p k hk
  rw [h] at this
  exact this

/-- The shared shape of `whereClause` and `havingClause`. -/
theorem exprClause_post (fuel : Nat) (kind : kASTNodeType) (p p1 : Parser)
    (r : Option ASTNode) (q : Parser) (hs : Step p p1)
    (h1 : kind ≠ .T_LITERAL) (h2 : isBinaryKind kind = false)
    (h : (match expr fuel 0 p1 with
      | none => none
      | some (e, p2) => some (some ((ASTNode.new kind).appendChild e), p2)) =
        some (r, q)) : Post p r q := by
  split at h
  · cases h
  · next e p2 hx =>
    cases h
    have hp := Post.of_step hs (expr_post fuel _ _ _ _ hx)
    exact ⟨hp.1, shapedOpt_some _ _
      (container_appendChild _ _ _ (container_new _ kind h1 h2) hp.2).1⟩

theorem whereClause_post (fuel : Nat) (p : Parser) (r : Option ASTNode)
    (q : Parser) (h : whereClause fuel p = some (r, q)) : Post p r q := by
  unfold whereClause at h
  split at h
  · next p1 hc =>
    cases h
    exact ⟨step_consumeIf_eq _ _ _ _ (by decide) hc, shapedOpt_none _⟩
  · next p1 hc =>
    exact exprClause_post fuel .T_WHERE p p1 r q
      (step_consumeIf_eq _ _ _ _ (by decide) hc) (by decide) rfl h

theorem havingClause_post (fuel : Nat) (p : Parser) (r : Option ASTNode)
    (q : Parser) (h : havingClause fuel p = some (r, q)) : Post p r q := by
  unfold havingClause at h
  split at h
  · next p1 hc =>
    cases h
    exact ⟨step_consumeIf_eq _ _ _ _ (by decide) hc, shapedOpt_none _⟩
  · next p1 hc =>
    exact exprClause_post fuel .T_HAVING p p1 r q
      (step_consumeIf_eq _ _ _ _ (by decide) hc) (by decide) rfl h

theorem groupByLoop_post (n : Nat) :
    ∀ (e : ASTNode) (p : Parser) (e2 : ASTNode) (q : Parser),
      Container p.token_list_ e → groupByLoop n e p = some (e2, q) →
      LoopPost p e2 q := by
  induction n with
  | zero => intro e p e2 q _ h; simp [groupByLoop] at h
  | succ n ih =>
    intro e p e2 q he h
    unfold groupByLoop at h
    split at h
    · cases h
    · next x p1 hx =>
      have hp := expr_post _ _ _ _ _ hx
      have hcont := container_appendChild _ _ _ he hp.2
      try dsimp only at h
      split at h
      · next p2 hc =>
        have hs := hp.1.trans (step_consumeIf_eq _ _ _ _ (by decide) hc)
        exact LoopPost.after_step hs (ih _ _ _ _ (by rw [hs.1]; exact hcont) h)
      · next p2 hc =>
        cases h
        exact ⟨hp.1.trans (step_consumeIf_eq _ _ _ _ (by decide) hc), hcont⟩

theorem groupByClause_post (fuel : Nat) (p : Parser) (r : Option ASTNode)
    (q : Parser) (h : groupByClause fuel p = some (r, q)) : Post p r q := by
  unfold groupByClause at h
  split at h
  · next p1 hc =>
    cases h
    exact ⟨step_consumeIf_eq _ _ _ _ (by decide) hc, shapedOpt_none _⟩
  · next p1 hc =>
    try dsimp only at h
    have hs := (step_consumeIf_eq _ _ _ _ (by decide) hc).trans
      (step_expectAndConsume p1 .T_BY (by decide))
    split at h
    · cases h
    · next clause p3 hx =>
      cases h
      have := LoopPost.after_step hs (groupByLoop_post _ _ _ _ _
        (container_new _ .T_GROUP_BY (by decide) rfl) hx)
      exact ⟨this.1, shapedOpt_some _ _ this.2.1⟩

theorem orderByLoop_post (n : Nat) :
    ∀ (e : ASTNode) (p : Parser) (e2 : ASTNode) (q : Parser),
      Container p.token_list_ e → orderByLoop n e p = some (e2, q) →
      LoopPost p e2 q := by
  induction n with
  | zero => intro e p e2 q _ h; simp [orderByLoop] at h
  | succ n ih =>
    intro e p e2 q he h
    unfold orderByLoop at h
    split at h
    · cases h
    · next x p1 hx =>
      have hp := expr_post _ _ _ _ _ hx
      have hspec : Container p.token_list_ ((ASTNode.new .T_SORT_SPEC).appendChild x) :=
        container_appendChild _ _ _ (container_new _ .T_SORT_SPEC (by decide) rfl) hp.2
      have fin : ∀ (spec1 : ASTNode) (p2 : Parser), Step p1 p2 →
          Container p.token_list_ spec1 →
          (match p2.consumeIf .T_COMMA with
            | (true, p3) => orderByLoop n (e.appendChild (some spec1)) p3
            | (false, p3) => some (e.appendChild (some spec1), p3)) = some (e2, q) →
          LoopPost p e2 q := by
        intro spec1 p2 hs2 hc2 h
        have hcont := container_appendChild _ _ _ he (shapedOpt_some _ _ hc2.1)
        split at h
        · next p3 hc =>
          have hs := (hp.1.trans hs2).trans (step_consumeIf_eq _ _ _ _ (by decide) hc)
          exact LoopPost.after_step hs (ih _ _ _ _ (by rw [hs.1]; exact hcont) h)
        · next p3 hc =>
          cases h
          exact ⟨(hp.1.trans hs2).trans (step_consumeIf_eq _ _ _ _ (by decide) hc), hcont⟩
      generalize hcase : p1.curType = t at h
      cases t
      case T_ASC =>
        exact fin (((ASTNode.new .T_SORT_SPEC).appendChild x).setToken p1.consumeToken.1)
          p1.consumeToken.2 (step_consume p1 (by rw [hcase]; decide))
          (container_setToken _ _ _ hspec) h
      case T_DESC =>
        exact fin (((ASTNode.new .T_SORT_SPEC).appendChild x).setToken p1.consumeToken.1)
          p1.consumeToken.2 (step_consume p1 (by rw [hcase]; decide))
          (container_setToken _ _ _ hspec) h
      all_goals exact fin ((ASTNode.new .T_SORT_SPEC).appendChild x) p1 (Step.refl _) hspec h

theorem orderByClause_post (fuel : Nat) (p : Parser) (r : Option ASTNode)
    (q : Parser) (h : orderByClause fuel p = some (r, q)) : Post p r q := by
  unfold orderByClause at h
  split at h
  · next p1 hc =>
    cases h
    exact ⟨step_consumeIf_eq _ _ _ _ (by decide) hc, shapedOpt_none _⟩
  · next p1 hc =>
    try dsimp only at h
    have hs := (step_consumeIf_eq _ _ _ _ (by decide) hc).trans
      (step_expectAndConsume p1 .T_BY (by decide))
    split at h
    · cases h
    · next clause p3 hx =>
      cases h
      have := LoopPost.after_step hs (orderByLoop_post _ _ _ _ _
        (container_new _ .T_ORDER_BY (by decide) rfl) hx)
      exact ⟨this.1, shapedOpt_some _ _ this.2.1⟩

theorem limitClause_post (p : Parser) : Post p (limitClause p).1 (limitClause p).2 := by
  unfold limitClause
  split
  · next p1 hc =>
    exact ⟨step_consumeIf_eq _ _ _ _ (by decide) hc, shapedOpt_none _⟩
  · next p1 hc =>
    have hs1 := step_consumeIf_eq _ _ _ _ (by decide) hc
    split
    · next p2 ha =>
      exact ⟨hs1.trans (step_assert_false _ _ _ _ ha), shapedOpt_none _⟩
    · next p2 ha =>
      dsimp only
      have hs2 := hs1.trans (step_assert_consume _ _ _ (by decide) ha).1
      have hcl : Container p.token_list_
          ((ASTNode.new .T_LIMIT).setToken p2.consumeToken.1) :=
        container_setToken _ _ _ (container_new _ .T_LIMIT (by decide) rfl)
      split
      · next p4 hc4 =>
        exact ⟨hs2.trans (step_consumeIf_eq _ _ _ _ (by decide) hc4),
          shapedOpt_some _ _ hcl.1⟩
      · next p4 hc4 =>
        have hs4 := hs2.trans (step_consumeIf_eq _ _ _ _ (by decide) hc4)
        split
        · next p5 ha5 =>
          dsimp only
          refine ⟨hs4.trans (step_assert_consume _ _ _ (by decide) ha5).1,
            shapedOpt_some _ _ ?_⟩
          exact (container_appendChild _ _ _ hcl (shapedOpt_some _ _
            (container_setToken _ _ _
              (container_new _ .T_OFFSET (by decide) rfl)).1)).1
        · next p5 ha5 =>
          exact ⟨hs4.trans (step_assert_false _ _ _ _ ha5), shapedOpt_some _ _ hcl.1⟩

theorem container_appendIfNotNull (toks : List Token) (e : ASTNode)
    (c : Option ASTNode) (h : Container toks e) (hc : ShapedOpt toks c) :
    Container toks (appendIfNotNull e c) := by
  cases c with
  | none => exact h
  | some x => exact container_appendChild _ _ _ h hc

theorem selectStatement_post (fuel : Nat) (p : Parser) (r : Option ASTNode)
    (q : Parser) (h : selectStatement fuel p = some (r, q)) : Post p r q := by
  unfold selectStatement at h
  split at h
  · next p0 ha =>
    cases h
    exact ⟨step_assert_false _ _ _ _ ha, shapedOpt_none _⟩
  · next p0 ha =>
    try dsimp only at h
    have hs0 := (step_assert_consume _ _ _ (by decide) ha).1
    split at h
    · cases h
    · next select_list p2 hx =>
      have hl := LoopPost.after_step hs0 (selectList_post _ _ _ _ hx)
      have hsel : Container p.token_list_
          ((ASTNode.new .T_SELECT).appendChild (some select_list)) :=
        container_appendChild _ _ _ (container_new _ .T_SELECT (by decide) rfl)
          (shapedOpt_some _ _ hl.2.1)
      split at h
      · cases h
        exact ⟨hl.1, shapedOpt_some _ _ hsel.1⟩
      · split at h
        · cases h
        · next from_clause p3 h3 =>
          have a3 := Post.of_step hl.1 (fromClause_post _ _ _ _ h3)
          have c3 := container_appendChild _ _ _ hsel a3.2
          try dsimp only at h
          split at h
          · cases h
          · next where_clause p4 h4 =>
            have a4 := Post.of_step a3.1 (whereClause_post _ _ _ _ h4)
            have c4 := container_appendIfNotNull _ _ _ c3 a4.2
            try dsimp only at h
            split at h
            · cases h
            · next group p5 h5 =>
              have a5 := Post.of_step a4.1 (groupByClause_post _ _ _ _ h5)
              have c5 := container_appendIfNotNull _ _ _ c4 a5.2
              try dsimp only at h
              split at h
              · cases h
              · next having p6 h6 =>
                have a6 := Post.of_step a5.1 (havingClause_post _ _ _ _ h6)
                have c6 := container_appendIfNotNull _ _ _ c5 a6.2
                try dsimp only at h
                split at h
                · cases h
                · next order p7 h7 =>
                  have a7 := Post.of_step a6.1 (orderByClause_post _ _ _ _ h7)
                  have c7 := container_appendIfNotNull _ _ _ c6 a7.2
                  try dsimp only at h
                  have a8 := Post.of_step a7.1 (limitClause_post p7)
                  have c8 := container_appendIfNotNull _ _ _ c7 a8.2
                  cases h
                  exact ⟨a8.1, shapedOpt_some _ _ c8.1⟩

end Parser

/-- The two invariants for `parse`: the final cursor was reached from index 0
over matched tokens only, and the root is a shaped tree. -/
theorem parse_post (fuel : Nat) (token_list : List Token) (rc : Nat)
    (root : ASTNode) (q : Parser)
    (h : parse fuel token_list = some (rc, root, q)) :
    Step ⟨token_list, 0, []⟩ q ∧ Shaped token_list root := by
  unfold parse at h
  try dsimp only at h
  split at h
  · cases h
    exact ⟨Step.refl _, (container_new _ .T_ROOT (by decide) rfl).1⟩
  · split at h
    · cases h
    · next stmt p1 hx =>
      cases h
      have := Parser.selectStatement_post _ _ _ _ hx
      exact ⟨this.1, (container_appendChild _ _ _
        (container_new _ .T_ROOT (by decide) rfl) this.2).1⟩

namespace Parser

theorem remaining_le_of_step {p q : Parser} (h : Step p q) :
    q.remaining ≤ p.remaining := by
  obtain ⟨h1, h2, _⟩ := h
  unfold remaining
  rw [h1]
  omega

theorem cur_lt_length (p : Parser) (h : p.curType ≠ .T_END) :
    p.cur_token_ < p.token_list_.length := by
  obtain ⟨t, ht, _, _⟩ := cur_in_range p h
  exact (List.get?_eq_some.mp ht).1

theorem remaining_consume (p : Parser) (h : p.curType ≠ .T_END) :
    p.consumeToken.2.remaining + 1 = p.remaining := by
  have := cur_lt_length p h
  simp only [remaining, consumeToken]
  omega

theorem remaining_consume_le (p : Parser) :
    p.consumeToken.2.remaining ≤ p.remaining := by
  simp only [remaining, consumeToken]
  omega

theorem binaryExpr_total (expr : ExprFn) (b : Nat) (hT : ExprTotal expr b)
    (lhs : ASTNode) (prec : Int) (p : Parser) (h : p.remaining + 1 ≤ b) :
    ∃ r, binaryExpr expr lhs prec p = some r := by
  rw [binaryExpr_eq]
  split
  · exact ⟨_, rfl⟩
  · next k l rr hb =>
    split
    · have hr := remaining_consume p (binaryOp_kind hb).2
      obtain ⟨⟨rhs, p2⟩, hx⟩ := hT rr (p.advance 1) (by rw [← consumeToken_snd]; omega)
      rw [hx]
      exact ⟨_, rfl⟩
    · exact ⟨_, rfl⟩

/-- A non-null result of `binaryExpr` has consumed at least one token. -/
theorem binaryExpr_consumes (expr : ExprFn) (hE : ExprPost expr) (lhs : ASTNode)
    (prec : Int) (p : Parser) (e : ASTNode) (q : Parser)
    (h : binaryExpr expr lhs prec p = some (some e, q)) :
    q.remaining + 1 ≤ p.remaining := by
  rw [binaryExpr_eq] at h
  split at h
  · cases h
  · next k l rr hb =>
    split at h
    · split at h
      · cases h
      · next rhs p2 hx =>
        cases h
        have h1 := remaining_le_of_step (hE _ _ _ _ hx).1
        have h2 := remaining_consume p (binaryOp_kind hb).2
        rw [consumeToken_snd] at h2
        omega
    · cases h

theorem methodCallArgs_total (expr : ExprFn) (b : Nat) (hT : ExprTotal expr b)
    (hE : ExprPost expr) (n : Nat) :
    ∀ (e : ASTNode) (p : Parser), p.curType ≠ .T_END → p.remaining ≤ n →
      p.remaining + 1 ≤ b → ∃ r, methodCallArgs expr n e p = some r := by
  induction n with
  | zero =>
    intro e p hc hn _
    have := remaining_consume p hc
    omega
  | succ n ih =>
    intro e p hc hn hb
    have hr := remaining_consume p hc
    unfold methodCallArgs
    dsimp only
    obtain ⟨⟨arg, p2⟩, hx⟩ := hT 0 p.consumeToken.2 (by omega)
    rw [hx]
    dsimp only
    have h2 := remaining_le_of_step (hE _ _ _ _ hx).1
    split
    · next hcomma =>
      exact ih _ _ (by rw [hcomma]; decide) (by omega) (by omega)
    · exact ⟨_, rfl⟩

theorem methodCall_total (expr : ExprFn) (b : Nat) (hT : ExprTotal expr b)
    (hE : ExprPost expr) (fuel : Nat) (p : Parser) (h0 : p.curType ≠ .T_END)
    (h1 : (p.peekToken 1).type ≠ .T_END) (hf : p.remaining ≤ fuel + 1)
    (hb : p.remaining + 1 ≤ b) : ∃ r, methodCall expr fuel p = some r := by
  unfold methodCall
  dsimp only
  have hr := remaining_consume p h0
  obtain ⟨⟨e1, p2⟩, hx⟩ := methodCallArgs_total expr b hT hE fuel
    ((ASTNode.new .T_METHOD_CALL).setToken p.consumeToken.1) p.consumeToken.2
    h1 (by omega) (by omega)
  rw [hx]
  exact ⟨_, rfl⟩

theorem exprLHS_total (expr : ExprFn) (b : Nat) (hT : ExprTotal expr b)
    (hE : ExprPost expr) (fuel : Nat) (p : Parser) (hf : p.remaining ≤ fuel + 1)
    (hb : p.remaining + 1 ≤ b) : ∃ r, exprLHS expr fuel p = some r := by
  have hneg : p.curType ≠ .T_END →
      ∃ r, (match expr 0 p.consumeToken.2 with
        | none => none
        | some (operand, p2) =>
          some (some ((ASTNode.new .T_NEGATE_EXPR).appendChild operand), p2)) =
        some r := by
    intro hc
    have hr := remaining_consume p hc
    obtain ⟨⟨x, p2⟩, hx⟩ := hT 0 p.consumeToken.2 (by omega)
    rw [hx]
    exact ⟨_, rfl⟩
  unfold exprLHS
  split
  · next hc =>
    dsimp only
    have hr := remaining_consume p (by rw [hc]; decide)
    obtain ⟨⟨x, p2⟩, hx⟩ := hT 0 p.consumeToken.2 (by omega)
    rw [hx]
    dsimp only
    split <;> exact ⟨_, rfl⟩
  · next hc => exact hneg (by rw [hc]; decide)
  · next hc => exact hneg (by rw [hc]; decide)
  · next hc => exact hneg (by rw [hc]; decide)
  · exact ⟨_, rfl⟩
  · exact ⟨_, rfl⟩
  · exact ⟨_, rfl⟩
  · exact ⟨_, rfl⟩
  · next hc =>
    split
    · dsimp only
      split <;> exact ⟨_, rfl⟩
    · split
      · next hnd hpar =>
        refine methodCall_total expr b hT hE fuel p (by rw [hc]; decide) ?_ hf hb
        simp only [lookahead, beq_iff_eq] at hpar
        rw [hpar]; decide
      · exact ⟨_, rfl⟩
  · exact ⟨_, rfl⟩

theorem exprLoop_total (expr : ExprFn) (b : Nat) (hT : ExprTotal expr b)
    (hE : ExprPost expr) (n : Nat) :
    ∀ (lhs : ASTNode) (prec : Int) (p : Parser), p.remaining + 1 ≤ n →
      p.remaining + 1 ≤ b → ∃ r, exprLoop expr n lhs prec p = some r := by
  induction n with
  | zero => intro lhs prec p hn _; omega
  | succ n ih =>
    intro lhs prec p hn hb
    unfold exprLoop
    obtain ⟨⟨r, p1⟩, hx⟩ := binaryExpr_total expr b hT lhs prec p hb
    rw [hx]
    cases r with
    | none => exact ⟨_, rfl⟩
    | some e =>
      have := binaryExpr_consumes expr hE _ _ _ _ _ hx
      exact ih _ _ _ (by omega) (by omega)

theorem expr_total (fuel : Nat) : ExprTotal (expr fuel) fuel := by
  induction fuel with
  | zero => intro prec p h; omega
  | succ n ih =>
    intro prec p h
    rw [expr_succ]
    obtain ⟨⟨r, p1⟩, hx⟩ := exprLHS_total _ n ih (expr_post n) n p (by omega) (by omega)
    rw [hx]
    cases r with
    | none => exact ⟨_, rfl⟩
    | some lhs =>
      have := remaining_le_of_step (exprLHS_post _ (expr_post n) _ _ _ _ hx).1
      exact exprLoop_total _ n ih (expr_post n) n lhs prec p1 (by omega) (by omega)

end Parser

namespace Parser

theorem selectSublist_total (fuel : Nat) (p : Parser) (h : p.remaining + 2 ≤ fuel) :
    ∃ r, selectSublist fuel p = some r := by
  unfold selectSublist
  split
  · exact ⟨_, rfl⟩
  · dsimp only
    obtain ⟨⟨r, p1⟩, hx⟩ := expr_total fuel 0 p h
    rw [hx]
    cases r with
    | none => exact ⟨_, rfl⟩
    | some e =>
      dsimp only
      split
      · split <;> exact ⟨_, rfl⟩
      · exact ⟨_, rfl⟩

theorem selectListLoop_total (n : Nat) :
    ∀ (e : ASTNode) (p : Parser), p.remaining + 3 ≤ n →
      ∃ r, selectListLoop n e p = some r := by
  induction n with
  | zero => intro e p h; omega
  | succ n ih =>
    intro e p h
    unfold selectListLoop
    obtain ⟨⟨item, p1⟩, hx⟩ := selectSublist_total n p (by omega)
    rw [hx]
    dsimp only
    have h1 := remaining_le_of_step (selectSublist_post _ _ _ _ hx).1
    split
    · next hcomma =>
      have h2 := remaining_consume p1 (by rw [hcomma]; decide)
      exact ih _ _ (by omega)
    · exact ⟨_, rfl⟩

theorem selectList_total (fuel : Nat) (p : Parser) (h : p.remaining + 3 ≤ fuel) :
    ∃ r, selectList fuel p = some r := by
  unfold selectList
  dsimp only
  split
  · exact ⟨_, rfl⟩
  · exact selectListLoop_total _ _ _ h

theorem fromClauseLoop_total (n : Nat) :
    ∀ (e : ASTNode) (p : Parser), p.curType ≠ .T_END → p.remaining ≤ n →
      ∃ r, fromClauseLoop n e p = some r := by
  induction n with
  | zero =>
    intro e p hc hn
    have := remaining_consume p hc
    omega
  | succ n ih =>
    intro e p hc hn
    have hr := remaining_consume p hc
    have h2 := remaining_le_of_step (tableName_post p.consumeToken.2).1
    unfold fromClauseLoop
    dsimp only
    split
    · next hcomma => exact ih _ _ (by rw [hcomma]; decide) (by omega)
    · exact ⟨_, rfl⟩

theorem fromClause_total (fuel : Nat) (p : Parser) (h : p.remaining ≤ fuel) :
    ∃ r, fromClause fuel p = some r := by
  unfold fromClause
  split
  · exact ⟨_, rfl⟩
  · next p1 ha =>
    obtain ⟨h1, h2⟩ := assertExpectation_true _ _ _ ha
    subst h1
    obtain ⟨⟨clause, p2⟩, hx⟩ := fromClauseLoop_total fuel (ASTNode.new .T_FROM) p1
      (by rw [h2]; decide) h
    rw [hx]
    exact ⟨_, rfl⟩

theorem whereClause_total (fuel : Nat) (p : Parser) (h : p.remaining + 2 ≤ fuel) :
    ∃ r, whereClause fuel p = some r := by
  unfold whereClause
  split
  · exact ⟨_, rfl⟩
  · next p1 hc =>
    have h1 := remaining_le_of_step (step_consumeIf_eq _ _ _ _ (by decide) hc)
    obtain ⟨⟨e, p2⟩, hx⟩ := expr_total fuel 0 p1 (by omega)
    rw [hx]
    exact ⟨_, rfl⟩

theorem havingClause_total (fuel : Nat) (p : Parser) (h : p.remaining + 2 ≤ fuel) :
    ∃ r, havingClause fuel p = some r := by
  unfold havingClause
  split
  · exact ⟨_, rfl⟩
  · next p1 hc =>
    have h1 := remaining_le_of_step (step_consumeIf_eq _ _ _ _ (by decide) hc)
    obtain ⟨⟨e, p2⟩, hx⟩ := expr_total fuel 0 p1 (by omega)
    rw [hx]
    exact ⟨_, rfl⟩

theorem groupByLoop_total (n : Nat) :
    ∀ (e : ASTNode) (p : Parser), p.remaining + 3 ≤ n →
      ∃ r, groupByLoop n e p = some r := by
  induction n with
  | zero => intro e p h; omega
  | succ n ih =>
    intro e p h
    unfold groupByLoop
    obtain ⟨⟨x, p1⟩, hx⟩ := expr_total n 0 p (by omega)
    rw [hx]
    dsimp only
    have h1 := remaining_le_of_step (expr_post _ _ _ _ _ hx).1
    split
    · next p2 hc =>
      obtain ⟨hq, hk⟩ := consumeIf_true _ _ _ hc
      have h2 := remaining_consume p1 (by rw [hk]; decide)
      rw [consumeToken_snd, ← hq] at h2
      exact ih _ _ (by omega)
    · exact ⟨_, rfl⟩

theorem groupByClause_total (fuel : Nat) (p : Parser) (h : p.remaining + 3 ≤ fuel) :
    ∃ r, groupByClause fuel p = some r := by
  unfold groupByClause
  split
  · exact ⟨_, rfl⟩
  · next p1 hc =>
    dsimp only
    have h1 := remaining_le_of_step ((step_consumeIf_eq _ _ _ _ (by decide) hc).trans
      (step_expectAndConsume p1 .T_BY (by decide)))
    obtain ⟨⟨clause, p3⟩, hx⟩ := groupByLoop_total fuel (ASTNode.new .T_GROUP_BY)
      (p1.expectAndConsume .T_BY).2 (by omega)
    rw [hx]
    exact ⟨_, rfl⟩

theorem orderByLoop_total (n : Nat) :
    ∀ (e : ASTNode) (p : Parser), p.remaining + 3 ≤ n →
      ∃ r, orderByLoop n e p = some r := by
  induction n with
  | zero => intro e p h; omega
  | succ n ih =>
    intro e p h
    unfold orderByLoop
    obtain ⟨⟨x, p1⟩, hx⟩ := expr_total n 0 p (by omega)
    rw [hx]
    have h1 := remaining_le_of_step (expr_post _ _ _ _ _ hx).1
    have fin : ∀ (spec1 : ASTNode) (p2 : Parser), p2.remaining ≤ p1.remaining →
        ∃ r, (match p2.consumeIf .T_COMMA with
          | (true, p3) => orderByLoop n (e.appendChild (some spec1)) p3
          | (false, p3) => some (e.appendChild (some spec1), p3)) = some r := by
      intro spec1 p2 hle
      split
      · next p3 hc =>
        obtain ⟨hq, hk⟩ := consumeIf_true _ _ _ hc
        have h2 := remaining_consume p2 (by rw [hk]; decide)
        rw [consumeToken_snd, ← hq] at h2
        exact ih _ _ (by omega)
      · exact ⟨_, rfl⟩
    dsimp only
    generalize p1.curType = t
    cases t
    case T_ASC =>
      exact fin (((ASTNode.new .T_SORT_SPEC).appendChild x).setToken p1.consumeToken.1)
        p1.consumeToken.2 (remaining_consume_le p1)
    case T_DESC =>
      exact fin (((ASTNode.new .T_SORT_SPEC).appendChild x).setToken p1.consumeToken.1)
        p1.consumeToken.2 (remaining_consume_le p1)
    all_goals exact fin ((ASTNode.new .T_SORT_SPEC).appendChild x) p1 (Nat.le_refl _)

theorem orderByClause_total (fuel : Nat) (p : Parser) (h : p.remaining + 3 ≤ fuel) :
    ∃ r, orderByClause fuel p = some r := by
  unfold orderByClause
  split
  · exact ⟨_, rfl⟩
  · next p1 hc =>
    dsimp only
    have h1 := remaining_le_of_step ((step_consumeIf_eq _ _ _ _ (by decide) hc).trans
      (step_expectAndConsume p1 .T_BY (by decide)))
    obtain ⟨⟨clause, p3⟩, hx⟩ := orderByLoop_total fuel (ASTNode.new .T_ORDER_BY)
      (p1.expectAndConsume .T_BY).2 (by omega)
    rw [hx]
    exact ⟨_, rfl⟩

theorem selectStatement_total (fuel : Nat) (p : Parser) (h : p.remaining + 3 ≤ fuel) :
    ∃ r, selectStatement fuel p = some r := by
  unfold selectStatement
  split
  · exact ⟨_, rfl⟩
  · next p0 ha =>
    dsimp only
    have r0 := remaining_le_of_step (step_assert_consume _ _ _ (by decide) ha).1
    obtain ⟨⟨select_list, p2⟩, h2⟩ := selectList_total fuel p0.consumeToken.2 (by omega)
    rw [h2]
    dsimp only
    have r2 := remaining_le_of_step (selectList_post _ _ _ _ h2).1
    split
    · exact ⟨_, rfl⟩
    · obtain ⟨⟨from_clause, p3⟩, h3⟩ := fromClause_total fuel p2 (by omega)
      rw [h3]
      dsimp only
      have r3 := remaining_le_of_step (fromClause_post _ _ _ _ h3).1
      obtain ⟨⟨where_clause, p4⟩, h4⟩ := whereClause_total fuel p3 (by omega)
      rw [h4]
      dsimp only
      have r4 := remaining_le_of_step (whereClause_post _ _ _ _ h4).1
      obtain ⟨⟨group, p5⟩, h5⟩ := groupByClause_total fuel p4 (by omega)
      rw [h5]
      dsimp only
      have r5 := remaining_le_of_step (groupByClause_post _ _ _ _ h5).1
      obtain ⟨⟨having, p6⟩, h6⟩ := havingClause_total fuel p5 (by omega)
      rw [h6]
      dsimp only
      have r6 := remaining_le_of_step (havingClause_post _ _ _ _ h6).1
      obtain ⟨⟨order, p7⟩, h7⟩ := orderByClause_total fuel p6 (by omega)
      rw [h7]
      exact ⟨_, rfl⟩

end Parser

/-- With fuel of three more than the number of tokens `parse` returns. -/
theorem parse_total (fuel : Nat) (token_list : List Token)
    (h : token_list.length + 3 ≤ fuel) : ∃ r, parse fuel token_list = some r := by
  unfold parse
  dsimp only
  split
  · exact ⟨_, rfl⟩
  · obtain ⟨⟨stmt, p1⟩, hx⟩ := Parser.selectStatement_total fuel ⟨token_list, 0, []⟩
      (by simp only [Parser.remaining]; omega)
    rw [hx]
    exact ⟨_, rfl⟩

namespace Parser

/-- When the last token of the list is the end sentinel, a cursor that moves
over matched tokens only stays before the end of the list. -/
theorem step_in_bounds (p q : Parser) (front : List Token) (eof : Token)
    (hl : p.token_list_ = front ++ [eof]) (he : eof.type = .T_END) (hs : Step p q)
    (hp : p.cur_token_ < p.token_list_.length) :
    q.cur_token_ < p.token_list_.length := by
  by_contra hq
  have hlen : p.token_list_.length = front.length + 1 := by rw [hl]; simp
  obtain ⟨t, ht, hne⟩ := hs.2.2 front.length (by omega) (by omega)
  rw [hl] at ht
  simp at ht
  rw [← ht] at hne
  exact hne he

end Parser

/-- Every binary operator node of the tree `parse` builds has exactly two
children, and the first of them is not null. -/
theorem binary_nodes_shape (fuel : Nat) (token_list : List Token) (rc : Nat)
    (root : ASTNode) (q : Parser)
    (h : parse fuel token_list = some (rc, root, q)) :
    ∀ n ∈ root.nodes, isBinaryKind n.getType = true →
      ∃ (a : ASTNode) (b : Option ASTNode), n.getChildren = [some a, b] :=
  fun n hn hk => ((parse_post fuel token_list rc root q h).2 n hn).2 hk

/-- C14: for every token list, every `T_LITERAL` node of the tree built by
`parse` has zero children and carries a token of the input whose kind is one of
`TRUE`, `FALSE`, `NUMERIC`, `STRING`.  `parse` returns a tree for every token
list once the fuel is at least the number of tokens plus three. -/
theorem literal_nodes_shape (fuel : Nat) (token_list : List Token)
    (hfuel : token_list.length + 3 ≤ fuel) :
    ∃ (rc : Nat) (root : ASTNode) (q : Parser),
      parse fuel token_list = some (rc, root, q) ∧
      ∀ n ∈ root.nodes, n.getType = .T_LITERAL →
        n.getChildren = [] ∧
          ∃ t : Token, n.getToken = some t ∧ t ∈ token_list ∧
            isLiteralKind t.type = true := by
  obtain ⟨⟨rc, root, q⟩, h⟩ := parse_total fuel token_list hfuel
  exact ⟨rc, root, q, h, fun n hn hk => ((parse_post fuel token_list rc root q h).2 n hn).1 hk⟩

theorem literal_nodes_shape_witness :
    ∃ (rc : Nat) (root : ASTNode) (q : Parser),
      parse 10 [mkToken .T_SELECT "SELECT" 0, mkToken .T_NUMERIC "1" 7,
        mkToken .T_PLUS "+" 9, mkToken .T_STRING "x" 11, mkToken .T_FROM "FROM" 15,
        mkToken .T_IDENTIFIER "t" 20, mkToken .T_END "" 21] = some (rc, root, q) ∧
      ∀ n ∈ root.nodes, n.getType = .T_LITERAL →
        n.getChildren = [] ∧
          ∃ t : Token, n.getToken = some t ∧
            t ∈ [mkToken .T_SELECT "SELECT" 0, mkToken .T_NUMERIC "1" 7,
              mkToken .T_PLUS "+" 9, mkToken .T_STRING "x" 11,
              mkToken .T_FROM "FROM" 15, mkToken .T_IDENTIFIER "t" 20,
              mkToken .T_END "" 21] ∧
            isLiteralKind t.type = true :=
  literal_nodes_shape 10 _ (by decide)

/-- C16: the parser terminates on every finite token list, well-formed or not,
with the number of remaining tokens as the measure.  With fuel of at least the
number of tokens plus three (the fuel bounds the number of loop iterations and
the depth of nested `expr` calls) `parse` returns a result; and from every
cursor position in the token list `expr` returns without moving the cursor
back. -/
theorem parse_terminates (fuel : Nat) (token_list : List Token)
    (hfuel : token_list.length + 3 ≤ fuel) :
    (∃ (rc : Nat) (root : ASTNode) (q : Parser),
      parse fuel token_list = some (rc, root, q)) ∧
    (∀ (prec : Int) (p : Parser), p.token_list_ = token_list →
      ∃ (r : Option ASTNode) (q : Parser), Parser.expr fuel prec p = some (r, q) ∧
        q.token_list_ = token_list ∧ p.cur_token_ ≤ q.cur_token_) := by
  constructor
  · obtain ⟨⟨rc, root, q⟩, h⟩ := parse_total fuel token_list hfuel
    exact ⟨rc, root, q, h⟩
  · intro prec p hp
    obtain ⟨⟨r, q⟩, h⟩ := Parser.expr_total fuel prec p (by
      simp only [Parser.remaining, hp]; omega)
    have hs := (Parser.expr_post fuel prec p r q h).1
    exact ⟨r, q, h, by rw [hs.1, hp], hs.2.1⟩

theorem parse_terminates_witness :
    (∃ (rc : Nat) (root : ASTNode) (q : Parser),
      parse 7 [mkToken .T_PLUS "+" 0, mkToken .T_LPAREN "(" 2,
        mkToken .T_COMMA "," 4, mkToken .T_END "" 5] = some (rc, root, q)) ∧
    (∀ (prec : Int) (p : Parser),
      p.token_list_ = [mkToken .T_PLUS "+" 0, mkToken .T_LPAREN "(" 2,
        mkToken .T_COMMA "," 4, mkToken .T_END "" 5] →
      ∃ (r : Option ASTNode) (q : Parser), Parser.expr 7 prec p = some (r, q) ∧
        q.token_list_ = [mkToken .T_PLUS "+" 0, mkToken .T_LPAREN "(" 2,
          mkToken .T_COMMA "," 4, mkToken .T_END "" 5] ∧
        p.cur_token_ ≤ q.cur_token_) :=
  parse_terminates 7 _ (by decide)

/-- C18: the cursor stays in bounds.  For every token list whose last token is
the end sentinel, `parse` leaves the token list as it is and ends with the
cursor at an index inside the list, and every token the cursor has passed is a
token of the list whose kind is not `T_END`: a token is consumed only after its
kind has been matched against a kind other than `T_END`.  The same holds for
`expr` from every state with the cursor inside the list; the cursor never moves
back, so every read of the current token on the way is inside the list too. -/
theorem cursor_stays_in_bounds (fuel : Nat) (front : List Token) (eof : Token)
    (heof : eof.type = .T_END) (hfuel : (front ++ [eof]).length + 3 ≤ fuel) :
    (∃ (rc : Nat) (root : ASTNode) (q : Parser),
      parse fuel (front ++ [eof]) = some (rc, root, q) ∧
      q.token_list_ = front ++ [eof] ∧ q.cur_token_ < (front ++ [eof]).length ∧
      ∀ i, i < q.cur_token_ →
        ∃ t : Token, (front ++ [eof]).get? i = some t ∧ t.type ≠ .T_END) ∧
    (∀ (prec : Int) (p : Parser), p.token_list_ = front ++ [eof] →
      p.cur_token_ < (front ++ [eof]).length →
      ∃ (r : Option ASTNode) (q : Parser), Parser.expr fuel prec p = some (r, q) ∧
        q.token_list_ = front ++ [eof] ∧ p.cur_token_ ≤ q.cur_token_ ∧
        q.cur_token_ < (front ++ [eof]).length) := by
  constructor
  · obtain ⟨⟨rc, root, q⟩, h⟩ := parse_total fuel (front ++ [eof]) hfuel
    have hs := (parse_post fuel _ rc root q h).1
    have hb := Parser.step_in_bounds ⟨front ++ [eof], 0, []⟩ q front eof rfl heof hs
      (by simp)
    exact ⟨rc, root, q, h, hs.1, hb, fun i hi => hs.2.2 i (Nat.zero_le _) hi⟩
  · intro prec p hp hc
    obtain ⟨⟨r, q⟩, h⟩ := Parser.expr_total fuel prec p (by
      simp only [Parser.remaining, hp]; omega)
    have hs := (Parser.expr_post fuel prec p r q h).1
    have hb := Parser.step_in_bounds p q front eof hp heof hs (by rw [hp]; exact hc)
    rw [hp] at hb
    exact ⟨r, q, h, by rw [hs.1, hp], hs.2.1, hb⟩

theorem cursor_stays_in_bounds_witness :
    (∃ (rc : Nat) (root : ASTNode) (q : Parser),
      parse 6 ([mkToken .T_SELECT "SELECT" 0, mkToken .T_IDENTIFIER "a" 7] ++
        [mkToken .T_END "" 8]) = some (rc, root, q) ∧
      q.token_list_ = [mkToken .T_SELECT "SELECT" 0, mkToken .T_IDENTIFIER "a" 7] ++
        [mkToken .T_END "" 8] ∧
      q.cur_token_ < ([mkToken .T_SELECT "SELECT" 0, mkToken .T_IDENTIFIER "a" 7] ++
        [mkToken .T_END "" 8]).length ∧
      ∀ i, i < q.cur_token_ →
        ∃ t : Token, ([mkToken .T_SELECT "SELECT" 0, mkToken .T_IDENTIFIER "a" 7] ++
          [mkToken .T_END "" 8]).get? i = some t ∧ t.type ≠ .T_END) ∧
    (∀ (prec : Int) (p : Parser),
      p.token_list_ = [mkToken .T_SELECT "SELECT" 0, mkToken .T_IDENTIFIER "a" 7] ++
        [mkToken .T_END "" 8] →
      p.cur_token_ < ([mkToken .T_SELECT "SELECT" 0, mkToken .T_IDENTIFIER "a" 7] ++
        [mkToken .T_END "" 8]).length →
      ∃ (r : Option ASTNode) (q : Parser), Parser.expr 6 prec p = some (r, q) ∧
        q.token_list_ = [mkToken .T_SELECT "SELECT" 0, mkToken .T_IDENTIFIER "a" 7] ++
          [mkToken .T_END "" 8] ∧
        p.cur_token_ ≤ q.cur_token_ ∧
        q.cur_token_ < ([mkToken .T_SELECT "SELECT" 0, mkToken .T_IDENTIFIER "a" 7] ++
          [mkToken .T_END "" 8]).length) :=
  cursor_stays_in_bounds 6 _ (mkToken .T_END "" 8) rfl (by decide)

/-- Without the end sentinel as last token the cursor does leave the list: on the
single token `SELECT` the statement parser ends with the cursor at index 1, the
length of the list. -/
theorem cursor_without_sentinel :
    (parse 4 [mkToken .T_SELECT "SELECT" 0]).map (fun r => r.2.2.cur_token_) =
      some 1 := by
  rfl

end fnordmetric.query

namespace fnordmetric.util

/-- A suffix at which a scanning loop with test `p` stops at once: it is empty or
its first character fails the test. -/
theorem stops_dropWhile (p : Char → Bool) (l : List Char) :
    ∀ c r, l.dropWhile p = c :: r → p c = false := by
  induction l with
  | nil => intro c r h; simp at h
  | cons x xs ih =>
    intro c r h
    by_cases hx : p x = true
    · rw [List.dropWhile_cons_of_pos hx] at h; exact ih c r h
    · rw [List.dropWhile_cons_of_neg hx] at h
      cases h
      simpa using hx

theorem all_takeWhile (p : Char → Bool) (l : List Char) :
    ∀ c ∈ l.takeWhile p, p c = true := by
  intro c hc
  exact List.mem_takeWhile_imp hc

theorem takeWhile_append_stop (p : Char → Bool) (a b : List Char)
    (ha : ∀ c ∈ a, p c = true) (hb : ∀ c r, b = c :: r → p c = false) :
    (a ++ b).takeWhile p = a ∧ (a ++ b).dropWhile p = b := by
  induction a with
  | nil =>
    cases b with
    | nil => simp
    | cons c r =>
      have := hb c r rfl
      simp [this]
  | cons x xs ih =>
    have hx : p x = true := ha x (List.mem_cons_self _ _)
    have := ih (fun c hc => ha c (List.mem_cons_of_mem _ hc))
    simp [hx, this.1, this.2]

theorem takeWhile_append_dropWhile (p : Char → Bool) (l : List Char) :
    l.takeWhile p ++ l.dropWhile p = l := List.takeWhile_append_dropWhile p l

namespace URI

theorem parseAuthority_error (u : URI) (a : List Char) (e : URIError)
    (h : parseAuthority u a = .error e) : e = .portOutOfRange := by
  unfold parseAuthority at h
  dsimp only at h
  split at h
  · split at h
    · split at h
      · cases h
      · next e2 hs =>
        cases h
        unfold stoi at hs
        split at hs
        · cases hs
        · cases hs; rfl
    · cases h
  · cases h

theorem parseAuthority_scheme (u u1 : URI) (a : List Char)
    (h : parseAuthority u a = .ok u1) :
    u1.scheme_ = u.scheme_ ∧ u1.path_ = u.path_ ∧ u1.query_ = u.query_ ∧
      u1.fragment_ = u.fragment_ := by
  unfold parseAuthority at h
  dsimp only at h
  split at h
  · split at h
    · split at h
      · cases h
        split <;> (try split) <;> simp
      · cases h
    · cases h
      split <;> (try split) <;> simp
  · cases h
    split <;> (try split) <;> simp

end URI

namespace URI

theorem parseAuthorityBlock_error (u : URI) (b : List Char) (e : URIError)
    (h : parseAuthorityBlock u b = .error e) : e = .portOutOfRange := by
  unfold parseAuthorityBlock at h
  split at h
  · dsimp only at h
    split at h
    · split at h
      · cases h
      · next e2 hs => cases h; exact parseAuthority_error _ _ _ hs
    · cases h
  · cases h

theorem parseAuthorityBlock_frame (u u1 : URI) (b r : List Char)
    (h : parseAuthorityBlock u b = .ok (u1, r)) :
    u1.scheme_ = u.scheme_ ∧ u1.path_ = u.path_ ∧ u1.query_ = u.query_ ∧
      u1.fragment_ = u.fragment_ := by
  unfold parseAuthorityBlock at h
  split at h
  · dsimp only at h
    split at h
    · split at h
      · next u2 hs =>
        simp only [Except.ok.injEq, Prod.mk.injEq] at h
        rw [← h.1]
        exact parseAuthority_scheme _ _ _ hs
      · cases h
    · simp only [Except.ok.injEq, Prod.mk.injEq] at h
      rw [← h.1]; simp
  · simp only [Except.ok.injEq, Prod.mk.injEq] at h
    rw [← h.1]; simp

theorem parsePathBlock_frame (u : URI) (b : List Char) :
    (parsePathBlock u b).1.scheme_ = u.scheme_ ∧
      (parsePathBlock u b).1.userinfo_ = u.userinfo_ ∧
      (parsePathBlock u b).1.host_ = u.host_ ∧
      (parsePathBlock u b).1.port_ = u.port_ ∧
      (parsePathBlock u b).1.query_ = u.query_ ∧
      (parsePathBlock u b).1.fragment_ = u.fragment_ := by
  unfold parsePathBlock
  split
  · dsimp only; split <;> simp
  · simp

theorem parseQueryBlock_frame (u : URI) (b : List Char) :
    (parseQueryBlock u b).1.scheme_ = u.scheme_ ∧
      (parseQueryBlock u b).1.userinfo_ = u.userinfo_ ∧
      (parseQueryBlock u b).1.host_ = u.host_ ∧
      (parseQueryBlock u b).1.port_ = u.port_ ∧
      (parseQueryBlock u b).1.path_ = u.path_ ∧
      (parseQueryBlock u b).1.fragment_ = u.fragment_ := by
  unfold parseQueryBlock
  split
  · dsimp only; split <;> simp
  · simp

theorem parseFragmentBlock_frame (u : URI) (b : List Char) :
    (parseFragmentBlock u b).scheme_ = u.scheme_ ∧
      (parseFragmentBlock u b).userinfo_ = u.userinfo_ ∧
      (parseFragmentBlock u b).host_ = u.host_ ∧
      (parseFragmentBlock u b).port_ = u.port_ ∧
      (parseFragmentBlock u b).path_ = u.path_ ∧
      (parseFragmentBlock u b).query_ = u.query_ := by
  unfold parseFragmentBlock
  split <;> simp

/-- The scheme loop: when the string has a `:`, it splits at the first one. -/
theorem scheme_split (s : List Char) (c : Char) (r : List Char)
    (h : s.dropWhile (fun c => c != ':') = c :: r) :
    s = s.takeWhile (fun c => c != ':') ++ ':' :: r ∧
      ':' ∉ s.takeWhile (fun c => c != ':') := by
  have hc := stops_dropWhile _ s c r h
  have hc2 : c = ':' := by simpa using hc
  subst hc2
  constructor
  · conv => lhs; rw [← List.takeWhile_append_dropWhile (fun c => c != ':') s, h]
  · intro hm
    have := List.mem_takeWhile_imp hm
    simp at this

end URI

/-- The three outcomes of the scheme check of `URI::parse`. -/
theorem URI.parse_scheme_cases (uri_str : List Char) :
    (URI.parse uri_str = .error .invalidScheme ↔
      (':' ∉ uri_str ∨ uri_str.head? = some ':')) ∧
    (∀ u : URI, URI.parse uri_str = .ok u →
      u.scheme_ ≠ [] ∧ ':' ∉ u.scheme_ ∧
        ∃ rest : List Char, uri_str = u.scheme_ ++ ':' :: rest) ∧
    (':' ∈ uri_str → uri_str.head? ≠ some ':' →
      URI.parse uri_str = .error .portOutOfRange ∨ ∃ u : URI, URI.parse uri_str = .ok u) := by
  unfold URI.parse
  cases hd : uri_str.dropWhile (fun c => c != ':') with
  | nil =>
    have hno : ':' ∉ uri_str := by
      intro hm
      have := List.dropWhile_eq_nil_iff.mp hd ':' hm
      simp at this
    simp [URI.empty, hno]
  | cons c r =>
    obtain ⟨hsplit, hnc⟩ := URI.scheme_split uri_str c r hd
    have hin : ':' ∈ uri_str := by rw [hsplit]; simp
    dsimp only
    by_cases ht : (uri_str.takeWhile (fun c => c != ':')).length = 0
    · have ht2 : uri_str.takeWhile (fun c => c != ':') = [] := List.length_eq_zero.mp ht
      have hhead : uri_str.head? = some ':' := by rw [hsplit, ht2]; rfl
      simp [ht, hhead]
    · have hne : uri_str.takeWhile (fun c => c != ':') ≠ [] := fun h0 => ht (by rw [h0]; rfl)
      have hhead : uri_str.head? ≠ some ':' := by
        intro hh
        cases htw : uri_str.takeWhile (fun c => c != ':') with
        | nil => exact hne htw
        | cons x xs =>
          rw [hsplit, htw] at hh
          simp at hh
          apply hnc; rw [htw, hh]; simp
      simp only [ht, if_false]
      cases hb : URI.parseAuthorityBlock
          { URI.empty with scheme_ := uri_str.takeWhile (fun c => c != ':') } r with
      | error e =>
        have he := URI.parseAuthorityBlock_error _ _ _ hb
        subst he
        simp [hin, hhead]
      | ok v =>
        obtain ⟨u1, b1⟩ := v
        have hf := URI.parseAuthorityBlock_frame _ _ _ _ hb
        have hp := URI.parsePathBlock_frame u1 b1
        have hq := URI.parseQueryBlock_frame (URI.parsePathBlock u1 b1).1
          (URI.parsePathBlock u1 b1).2
        have hfr := URI.parseFragmentBlock_frame
          (URI.parseQueryBlock (URI.parsePathBlock u1 b1).1 (URI.parsePathBlock u1 b1).2).1
          (URI.parseQueryBlock (URI.parsePathBlock u1 b1).1 (URI.parsePathBlock u1 b1).2).2
        have hs : (URI.parseFragmentBlock
          (URI.parseQueryBlock (URI.parsePathBlock u1 b1).1 (URI.parsePathBlock u1 b1).2).1
          (URI.parseQueryBlock (URI.parsePathBlock u1 b1).1
            (URI.parsePathBlock u1 b1).2).2).scheme_ =
            uri_str.takeWhile (fun c => c != ':') := by
          rw [hfr.1, hq.1, hp.1, hf.1]
        refine ⟨by simp [hin, hhead], ?_, ?_⟩
        · intro u hu
          simp only [Except.ok.injEq] at hu
          rw [← hu, hs]
          exact ⟨hne, hnc, r, hsplit⟩
        · intro _ _
          right
          exact ⟨_, rfl⟩

theorem digitChar_value (d : Nat) (h : d < 10) :
    (Nat.digitChar d).toNat - 48 = d ∧ isDigitChar (Nat.digitChar d) = true := by
  interval_cases d <;> exact ⟨rfl, rfl⟩

theorem toDigitsCore_value (fuel : Nat) :
    ∀ (n : Nat) (ds : List Char), n < fuel →
      (Nat.toDigitsCore 10 fuel n ds).foldl (fun acc c => acc * 10 + (c.toNat - 48)) 0 =
        ds.foldl (fun acc c => acc * 10 + (c.toNat - 48)) n := by
  induction fuel with
  | zero => intro n ds h; omega
  | succ f ih =>
    intro n ds h
    have hd := (digitChar_value (n % 10) (Nat.mod_lt _ (by decide))).1
    unfold Nat.toDigitsCore
    dsimp only
    split
    · next h0 =>
      have hn : n % 10 = n := Nat.mod_eq_of_lt (by omega)
      simp only [List.foldl_cons, Nat.zero_mul, Nat.zero_add, hd]
      rw [hn]
    · next h0 =>
      rw [ih (n / 10) _ (by omega)]
      simp only [List.foldl_cons, hd]
      congr 1
      omega

theorem toDigitsCore_digits (fuel : Nat) :
    ∀ (n : Nat) (ds : List Char), (∀ c ∈ ds, isDigitChar c = true) →
      ∀ c ∈ Nat.toDigitsCore 10 fuel n ds, isDigitChar c = true := by
  induction fuel with
  | zero => intro n ds h c hc; exact h c hc
  | succ f ih =>
    intro n ds h
    have hd := (digitChar_value (n % 10) (Nat.mod_lt _ (by decide))).2
    have hds : ∀ c ∈ Nat.digitChar (n % 10) :: ds, isDigitChar c = true := by
      intro c hc
      rcases List.mem_cons.mp hc with h1 | h1
      · rw [h1]; exact hd
      · exact h c h1
    unfold Nat.toDigitsCore
    dsimp only
    split
    · exact hds
    · exact ih _ _ hds

theorem toDigitsCore_ne_nil (fuel : Nat) :
    ∀ (n : Nat) (ds : List Char), (ds ≠ [] ∨ 0 < fuel) →
      Nat.toDigitsCore 10 fuel n ds ≠ [] := by
  induction fuel with
  | zero =>
    intro n ds h
    rcases h with h | h
    · exact h
    · omega
  | succ f ih =>
    intro n ds _
    unfold Nat.toDigitsCore
    dsimp only
    split
    · simp
    · exact ih _ _ (Or.inl (by simp))

/-- The decimal digits `std::to_string` prints are read back by `std::stoi`. -/
theorem to_string_facts (n : Nat) :
    decimalValue (to_string n) = n ∧ (∀ c ∈ to_string n, isDigitChar c = true) ∧
      to_string n ≠ [] := by
  refine ⟨?_, ?_, ?_⟩
  · exact toDigitsCore_value (n + 1) n [] (by omega)
  · exact toDigitsCore_digits (n + 1) n [] (by simp)
  · exact toDigitsCore_ne_nil (n + 1) n [] (Or.inr (by omega))

theorem isDigitChar_classes {c : Char} (h : isDigitChar c = true) :
    isUserinfoChar c = true ∧ isHostChar c = true ∧ isAuthorityChar c = true := by
  have h1 : c ≠ '/' := by intro hc; subst hc; exact absurd h (by decide)
  have h2 : c ≠ '?' := by intro hc; subst hc; exact absurd h (by decide)
  have h3 : c ≠ '#' := by intro hc; subst hc; exact absurd h (by decide)
  have h4 : c ≠ '@' := by intro hc; subst hc; exact absurd h (by decide)
  have h5 : c ≠ ':' := by intro hc; subst hc; exact absurd h (by decide)
  simp [isUserinfoChar, isHostChar, isAuthorityChar, h1, h2, h3, h4, h5]

namespace URI

theorem toString_eq (u : URI) (hh : 0 < u.host_.length) :
    toString u = u.scheme_ ++ ':' :: '/' :: '/' ::
      (authorityString u ++ (u.path_ ++ (queryString u ++ fragmentString u))) := by
  unfold toString authorityString queryString fragmentString
  simp only [hh, if_true]
  split <;> split <;> split <;> split <;> simp

/-- The authority `toString` prints is read back by `parseAuthority` field by
field. -/
theorem parseAuthority_authorityString (u0 u : URI)
    (h0u : u0.userinfo_ = []) (h0p : u0.port_ = 0)
    (hui : ∀ c ∈ u.userinfo_, isUserinfoChar c = true)
    (hhost : ∀ c ∈ u.host_, isHostChar c = true) (hat : '@' ∉ u.host_)
    (hport : u.port_ ≤ 2147483647) :
    parseAuthority u0 (authorityString u) =
      .ok { u0 with userinfo_ := u.userinfo_, host_ := u.host_, port_ := u.port_ } := by
  -- the port part
  have hP : ∀ c ∈ (if 0 < u.port_ then ':' :: to_string u.port_ else []),
      isUserinfoChar c = true := by
    intro c hc
    split at hc
    · rcases List.mem_cons.mp hc with h | h
      · rw [h]; rfl
      · exact (isDigitChar_classes ((to_string_facts u.port_).2.1 c h)).1
    · cases hc
  have hPstop : ∀ c r, (if 0 < u.port_ then ':' :: to_string u.port_ else []) = c :: r →
      isHostChar c = false := by
    intro c r h
    split at h
    · cases h; rfl
    · cases h
  have hhostU : ∀ c ∈ u.host_, isUserinfoChar c = true := by
    intro c hc
    have h1 := hhost c hc
    have h2 : c ≠ '@' := fun h => hat (h ▸ hc)
    simp only [isHostChar, isUserinfoChar, Bool.and_eq_true, bne_iff_ne] at h1 ⊢
    exact ⟨⟨⟨h1.1.1.1, h1.1.1.2⟩, h1.1.2⟩, h2⟩
  have hhp := takeWhile_append_stop isHostChar u.host_
    (if 0 < u.port_ then ':' :: to_string u.port_ else []) hhost hPstop
  have hd := to_string_facts u.port_
  have htw := takeWhile_append_stop isDigitChar (to_string u.port_) [] hd.2.1
    (by intro c r h; cases h)
  rw [List.append_nil] at htw
  have hlen : 0 < (to_string u.port_).length := List.length_pos.mpr hd.2.2
  have hlen2 : 1 < (to_string u.port_).length + 1 := by omega
  by_cases hu : 0 < u.userinfo_.length
  · have hA : authorityString u = u.userinfo_ ++ ('@' :: (u.host_ ++
        (if 0 < u.port_ then ':' :: to_string u.port_ else []))) := by
      simp [authorityString, hu]
    have := takeWhile_append_stop isUserinfoChar u.userinfo_
      ('@' :: (u.host_ ++ (if 0 < u.port_ then ':' :: to_string u.port_ else []))) hui
      (by intro c r h; cases h; rfl)
    unfold parseAuthority
    simp only [hA, this.1, this.2, if_true, hhp.1, hhp.2]
    by_cases hp : 0 < u.port_
    · simp only [hp, if_true, List.length_cons, List.head?_cons, List.tail_cons, htw.1, hlen,
        hlen2, and_self, stoi, hd.1, hport]
    · have hp0 : u.port_ = 0 := by omega
      simp [hp0, h0p]
  · have hu0 : u.userinfo_ = [] := by
      cases hl : u.userinfo_ with
      | nil => rfl
      | cons x xs => rw [hl] at hu; simp at hu
    have hA : authorityString u = (u.host_ ++
        (if 0 < u.port_ then ':' :: to_string u.port_ else [])) := by
      simp [authorityString, hu0]
    have := takeWhile_append_stop isUserinfoChar (u.host_ ++
        (if 0 < u.port_ then ':' :: to_string u.port_ else [])) []
      (by
        intro c hc
        rcases List.mem_append.mp hc with h | h
        · exact hhostU c h
        · exact hP c h)
      (by intro c r h; cases h)
    rw [List.append_nil] at this
    unfold parseAuthority
    simp only [hA, this.2, hhp.1, hhp.2]
    by_cases hp : 0 < u.port_
    · simp only [hp, if_true, List.length_cons, List.head?_cons, List.tail_cons, htw.1, hlen,
        hlen2, and_self, stoi, hd.1, hport, hu0, h0u]
    · have hp0 : u.port_ = 0 := by omega
      simp [hp0, h0p, hu0, h0u]

end URI

namespace URI

theorem parseAuthorityBlock_string (u0 uA : URI) (a t : List Char) (ha : a ≠ [])
    (hall : ∀ c ∈ a, isAuthorityChar c = true)
    (hstop : ∀ c r, t = c :: r → isAuthorityChar c = false)
    (hp : parseAuthority u0 a = .ok uA) :
    parseAuthorityBlock u0 ('/' :: '/' :: (a ++ t)) = .ok (uA, t) := by
  have htw := takeWhile_append_stop isAuthorityChar a t hall hstop
  have hlen : 0 < a.length := List.length_pos.mpr ha
  have hlen2 : 2 < (a ++ t).length + 1 + 1 := by simp; omega
  unfold parseAuthorityBlock
  simp only [List.length_cons, hlen2, List.get?_cons_zero, List.get?_cons_succ, and_self,
    if_true, List.drop_succ_cons, List.drop_zero, htw.1, htw.2, hlen, hp]

theorem parsePathBlock_string (u : URI) (path t : List Char) (h0 : u.path_ = [])
    (hall : ∀ c ∈ path, isPathChar c = true)
    (hstop : ∀ c r, t = c :: r → isPathChar c = false) :
    parsePathBlock u (path ++ t) = ({ u with path_ := path }, t) := by
  have htw := takeWhile_append_stop isPathChar path t hall hstop
  unfold parsePathBlock
  by_cases hl : 0 < (path ++ t).length
  · simp only [hl, if_true, htw.1, htw.2]
    by_cases hp : 0 < path.length
    · simp only [hp, if_true]
    · have hp0 : path = [] := by
        cases path with
        | nil => rfl
        | cons x xs => simp at hp
      subst hp0
      obtain ⟨a1, a2, a3, a4, a5, a6, a7⟩ := u
      simp only at h0
      subst h0
      simp
  · have hnil : path ++ t = [] := by
      cases hpt : path ++ t with
      | nil => rfl
      | cons x xs => rw [hpt] at hl; simp at hl
    have hp0 : path = [] := (List.append_eq_nil.mp hnil).1
    have ht0 : t = [] := (List.append_eq_nil.mp hnil).2
    subst hp0 ht0
    obtain ⟨a1, a2, a3, a4, a5, a6, a7⟩ := u
    simp only at h0
    subst h0
    simp

theorem parseQueryBlock_string (u v : URI) (t : List Char) (h0 : u.query_ = [])
    (hall : ∀ c ∈ v.query_, c ≠ '#')
    (hstop : ∀ c r, t = c :: r → c = '#') :
    parseQueryBlock u (queryString v ++ t) = ({ u with query_ := v.query_ }, t) := by
  unfold parseQueryBlock queryString
  by_cases hq : 0 < v.query_.length
  · have htw := takeWhile_append_stop (fun c => c != '#') v.query_ t
      (by intro c hc; simpa using hall c hc)
      (by intro c r h; simp [hstop c r h])
    have hl : 0 < (v.query_ ++ t).length + 1 := by omega
    simp only [hq, if_true, List.cons_append, List.length_cons, hl, List.head?_cons,
      and_self, List.tail_cons, htw.1, htw.2]
  · have hq0 : v.query_ = [] := by
      cases hv : v.query_ with
      | nil => rfl
      | cons x xs => rw [hv] at hq; simp at hq
    have hcond : ¬ (0 < t.length ∧ t.head? = some '?') := by
      rintro ⟨_, h2⟩
      cases t with
      | nil => simp at h2
      | cons c r =>
        have := hstop c r rfl
        simp at h2
        rw [this] at h2
        exact absurd h2 (by decide)
    obtain ⟨a1, a2, a3, a4, a5, a6, a7⟩ := u
    simp only at h0
    subst h0
    simp only [hq0, List.length_nil, Nat.lt_irrefl, if_false, List.nil_append, hcond]

theorem parseFragmentBlock_string (u v : URI) (h0 : u.fragment_ = []) :
    parseFragmentBlock u (fragmentString v) = { u with fragment_ := v.fragment_ } := by
  unfold parseFragmentBlock fragmentString
  by_cases hf : 0 < v.fragment_.length
  · have hl : 1 < v.fragment_.length + 1 := by omega
    simp only [hf, if_true, List.length_cons, hl, List.head?_cons, and_self, List.tail_cons]
  · have hf0 : v.fragment_ = [] := by
      cases hv : v.fragment_ with
      | nil => rfl
      | cons x xs => rw [hv] at hf; simp at hf
    obtain ⟨a1, a2, a3, a4, a5, a6, a7⟩ := u
    simp only at h0
    subst h0
    simp [hf, hf0]

/-- The string `toString` prints for a URI with the field properties `parse`
guarantees, a non-empty host and no `@` in the host is parsed back to the same
URI. -/
theorem parse_toString (u : URI) (hc : Canonical u) (hh : u.host_ ≠ [])
    (hat : '@' ∉ u.host_) : parse (toString u) = .ok u := by
  obtain ⟨hs1, hs2, hui, hhost, hport, hpath, hpathhead, hquery⟩ := hc
  have hhl : 0 < u.host_.length := List.length_pos.mpr hh
  rw [toString_eq u hhl]
  -- scheme
  have hsch := takeWhile_append_stop (fun c => c != ':') u.scheme_
    (':' :: '/' :: '/' :: (authorityString u ++ (u.path_ ++ (queryString u ++
      fragmentString u))))
    (by intro c hc; simpa using hs2 c hc) (by intro c r h; cases h; rfl)
  have hsl : u.scheme_.length ≠ 0 := fun h => hs1 (List.length_eq_zero.mp h)
  -- authority
  have hA := parseAuthority_authorityString { URI.empty with scheme_ := u.scheme_ } u rfl rfl
    hui hhost hat hport
  have hAne : authorityString u ≠ [] := by
    unfold authorityString
    intro h
    have := congrArg List.length h
    simp only [List.length_append, List.length_nil] at this
    omega
  have hAall : ∀ c ∈ authorityString u, isAuthorityChar c = true := by
    intro c hc
    unfold authorityString at hc
    rcases List.mem_append.mp hc with h | h
    · rcases List.mem_append.mp h with h | h
      · split at h
        · rcases List.mem_append.mp h with h | h
          · have := hui c h
            simp only [isUserinfoChar, isAuthorityChar, Bool.and_eq_true] at this ⊢
            exact this.1
          · simp at h; rw [h]; rfl
        · cases h
      · have := hhost c h
        simp only [isHostChar, isAuthorityChar, Bool.and_eq_true] at this ⊢
        exact this.1
    · split at h
      · rcases List.mem_cons.mp h with h | h
        · rw [h]; rfl
        · exact (isDigitChar_classes ((to_string_facts u.port_).2.1 c h)).2.2
      · cases h
  have hFstop : ∀ c r, fragmentString u = c :: r → c = '#' := by
    intro c r h
    unfold fragmentString at h
    split at h
    · cases h; rfl
    · cases h
  have hQFstop : ∀ c r, queryString u ++ fragmentString u = c :: r →
      isPathChar c = false := by
    intro c r h
    unfold queryString at h
    split at h
    · cases h; rfl
    · rw [List.nil_append] at h
      rw [hFstop c r h]; rfl
  have hTstop : ∀ c r, u.path_ ++ (queryString u ++ fragmentString u) = c :: r →
      isAuthorityChar c = false := by
    intro c r h
    cases hp : u.path_ with
    | nil =>
      rw [hp, List.nil_append] at h
      have := hQFstop c r h
      simp only [isPathChar, isAuthorityChar] at this ⊢
      simp only [Bool.and_eq_false_iff] at this ⊢
      rcases this with h1 | h1
      · exact Or.inl (Or.inr h1)
      · exact Or.inr h1
    | cons x xs =>
      rw [hp] at h
      cases h
      rw [hpathhead c xs hp]; rfl
  have hblock := parseAuthorityBlock_string { URI.empty with scheme_ := u.scheme_ } _
    (authorityString u) (u.path_ ++ (queryString u ++ fragmentString u)) hAne hAall hTstop hA
  unfold parse
  simp only [hsch.1, hsch.2, hsl, if_false, hblock]
  rw [parsePathBlock_string _ u.path_ _ rfl hpath hQFstop]
  simp only []
  rw [parseQueryBlock_string _ u _ rfl hquery hFstop]
  simp only []
  rw [parseFragmentBlock_string _ u rfl]

end URI

namespace URI

theorem parseAuthority_fields (u u1 : URI) (a : List Char)
    (h : parseAuthority u a = .ok u1) (hu : u.userinfo_ = []) (hp : u.port_ = 0) :
    (∀ c ∈ u1.userinfo_, isUserinfoChar c = true) ∧
      (∀ c ∈ u1.host_, isHostChar c = true) ∧ u1.port_ ≤ 2147483647 := by
  have hui : ∀ (found : List Char) (c : Char),
      c ∈ (match found with
        | [] => u
        | c :: _ =>
          if c = '@' then { u with userinfo_ := a.takeWhile isUserinfoChar }
          else u).userinfo_ → isUserinfoChar c = true := by
    intro found c hc
    split at hc
    · rw [hu] at hc; cases hc
    · split at hc
      · exact all_takeWhile _ _ c hc
      · rw [hu] at hc; cases hc
  unfold parseAuthority at h
  dsimp only at h
  split at h
  · split at h
    · split at h
      · next n hs =>
        cases h
        refine ⟨fun c hc => hui _ c hc, fun c hc => all_takeWhile _ _ c hc, ?_⟩
        unfold stoi at hs
        split at hs
        · next hle => cases hs; exact hle
        · cases hs
      · cases h
    · cases h
      refine ⟨fun c hc => hui _ c hc, fun c hc => all_takeWhile _ _ c hc, ?_⟩
      show _ ≤ 2147483647
      dsimp only
      split <;> (try split) <;> simp [hp]
  · cases h
    refine ⟨fun c hc => hui _ c hc, fun c hc => all_takeWhile _ _ c hc, ?_⟩
    show _ ≤ 2147483647
    dsimp only
    split <;> (try split) <;> simp [hp]

theorem parseAuthorityBlock_fields (u u1 : URI) (b r : List Char)
    (h : parseAuthorityBlock u b = .ok (u1, r)) (hu : u.userinfo_ = [])
    (hh : u.host_ = []) (hp : u.port_ = 0) :
    (∀ c ∈ u1.userinfo_, isUserinfoChar c = true) ∧
      (∀ c ∈ u1.host_, isHostChar c = true) ∧ u1.port_ ≤ 2147483647 ∧
      (u1.host_ ≠ [] → ∀ c t, r = c :: t → isAuthorityChar c = false) := by
  unfold parseAuthorityBlock at h
  split at h
  · dsimp only at h
    split at h
    · split at h
      · next u2 hs =>
        simp only [Except.ok.injEq, Prod.mk.injEq] at h
        obtain ⟨h1, h2⟩ := h
        subst h1
        have := parseAuthority_fields _ _ _ hs hu hp
        refine ⟨this.1, this.2.1, this.2.2, ?_⟩
        intro _ c t hr
        rw [← h2] at hr
        exact stops_dropWhile _ _ c t hr
      · cases h
    · simp only [Except.ok.injEq, Prod.mk.injEq] at h
      rw [← h.1]
      refine ⟨?_, ?_, ?_, ?_⟩
      · intro c hc; rw [hu] at hc; cases hc
      · intro c hc; rw [hh] at hc; cases hc
      · omega
      · intro hne; exact absurd hh hne
  · simp only [Except.ok.injEq, Prod.mk.injEq] at h
    rw [← h.1]
    refine ⟨?_, ?_, ?_, ?_⟩
    · intro c hc; rw [hu] at hc; cases hc
    · intro c hc; rw [hh] at hc; cases hc
    · omega
    · intro hne; exact absurd hh hne

theorem parsePathBlock_fields (u : URI) (b : List Char) (h0 : u.path_ = []) :
    (∀ c ∈ (parsePathBlock u b).1.path_, isPathChar c = true) ∧
      ((∀ c t, b = c :: t → isAuthorityChar c = false) →
        ∀ c t, (parsePathBlock u b).1.path_ = c :: t → c = '/') := by
  unfold parsePathBlock
  split
  · dsimp only
    split
    · refine ⟨fun c hc => all_takeWhile _ _ c hc, ?_⟩
      intro hb c t hpath
      simp only at hpath
      cases b with
      | nil => simp at hpath
      | cons x xs =>
        have hx := hb x xs rfl
        by_cases hpx : isPathChar x = true
        · rw [List.takeWhile_cons_of_pos hpx] at hpath
          cases hpath
          simp only [isPathChar, isAuthorityChar, Bool.and_eq_true, Bool.and_eq_false_iff,
            bne_iff_ne, ne_eq, bne_eq_false_iff_eq] at hpx hx
          rcases hx with (hx | hx) | hx
          · exact hx
          · exact absurd hx hpx.1
          · exact absurd hx hpx.2
        · rw [List.takeWhile_cons_of_neg hpx] at hpath
          cases hpath
    · refine ⟨?_, ?_⟩
      · intro c hc; simp only [h0] at hc; cases hc
      · intro _ c t hpath; simp only [h0] at hpath; cases hpath
  · refine ⟨?_, ?_⟩
    · intro c hc; simp only [h0] at hc; cases hc
    · intro _ c t hpath; simp only [h0] at hpath; cases hpath

theorem parseQueryBlock_fields (u : URI) (b : List Char) (h0 : u.query_ = []) :
    ∀ c ∈ (parseQueryBlock u b).1.query_, c ≠ '#' := by
  unfold parseQueryBlock
  split
  · dsimp only
    split
    · intro c hc
      have := all_takeWhile _ _ c hc
      simpa using this
    · intro c hc; simp only [h0] at hc; cases hc
  · intro c hc; simp only [h0] at hc; cases hc

/-- Every URI with a host that `parse` returns has the field properties
collected in `Canonical`. -/
theorem parse_canonical (s : List Char) (u : URI) (h : parse s = .ok u)
    (hh : u.host_ ≠ []) : Canonical u := by
  obtain ⟨hs1, hs2, _⟩ := (parse_scheme_cases s).2.1 u h
  unfold parse at h
  dsimp only at h
  split at h
  · cases h
  · split at h
    · cases h
    · next u1 begin1 hblock =>
      simp only [Except.ok.injEq] at h
      have hu0 : ∀ l : List Char,
          (match l with
            | [] => URI.empty
            | _ :: _ => { URI.empty with scheme_ := s.takeWhile (fun c => c != ':') }).userinfo_ = [] ∧
          (match l with
            | [] => URI.empty
            | _ :: _ => { URI.empty with scheme_ := s.takeWhile (fun c => c != ':') }).host_ = [] ∧
          (match l with
            | [] => URI.empty
            | _ :: _ => { URI.empty with scheme_ := s.takeWhile (fun c => c != ':') }).port_ = 0 ∧
          (match l with
            | [] => URI.empty
            | _ :: _ => { URI.empty with scheme_ := s.takeWhile (fun c => c != ':') }).path_ = [] ∧
          (match l with
            | [] => URI.empty
            | _ :: _ => { URI.empty with scheme_ := s.takeWhile (fun c => c != ':') }).query_ = [] := by
        intro l
        cases l <;> exact ⟨rfl, rfl, rfl, rfl, rfl⟩
      have hz := hu0 (s.dropWhile (fun c => c != ':'))
      have hA := parseAuthorityBlock_fields _ _ _ _ hblock hz.1 hz.2.1 hz.2.2.1
      have hAf := parseAuthorityBlock_frame _ _ _ _ hblock
      have hP := parsePathBlock_fields u1 begin1 (by rw [hAf.2.1]; exact hz.2.2.2.1)
      have hPf := parsePathBlock_frame u1 begin1
      have hQ := parseQueryBlock_fields (parsePathBlock u1 begin1).1 (parsePathBlock u1 begin1).2
        (by rw [hPf.2.2.2.2.1, hAf.2.2.1]; exact hz.2.2.2.2)
      have hQf := parseQueryBlock_frame (parsePathBlock u1 begin1).1 (parsePathBlock u1 begin1).2
      have hFf := parseFragmentBlock_frame
        (parseQueryBlock (parsePathBlock u1 begin1).1 (parsePathBlock u1 begin1).2).1
        (parseQueryBlock (parsePathBlock u1 begin1).1 (parsePathBlock u1 begin1).2).2
      rw [h] at hFf
      have e_ui : u.userinfo_ = u1.userinfo_ := by rw [hFf.2.1, hQf.2.1, hPf.2.1]
      have e_host : u.host_ = u1.host_ := by rw [hFf.2.2.1, hQf.2.2.1, hPf.2.2.1]
      have e_port : u.port_ = u1.port_ := by rw [hFf.2.2.2.1, hQf.2.2.2.1, hPf.2.2.2.1]
      have e_path : u.path_ = (parsePathBlock u1 begin1).1.path_ := by
        rw [hFf.2.2.2.2.1, hQf.2.2.2.2.1]
      have e_query : u.query_ =
          (parseQueryBlock (parsePathBlock u1 begin1).1 (parsePathBlock u1 begin1).2).1.query_ := by
        rw [hFf.2.2.2.2.2]
      refine ⟨hs1, fun c hc hcc => hs2 (hcc ▸ hc), ?_, ?_, ?_, ?_, ?_, ?_⟩
      · rw [e_ui]; exact hA.1
      · rw [e_host]; exact hA.2.1
      · rw [e_port]; exact hA.2.2.1
      · rw [e_path]; exact hP.1
      · rw [e_path]; exact hP.2 (hA.2.2.2 (by rw [← e_host]; exact hh))
      · rw [e_query]; exact hQ

end URI

/-- C20: URI scheme validation.  `URI::parse` raises the "invalid URI: must begin
with scheme:" exception if and only if the string contains no `:` or its first
character is `:`; and whenever it returns a URI, `scheme()` is the non-empty
prefix of the input that precedes its first `:` (in the remaining case it raises
the `std::out_of_range` of `std::stoi` on the port). -/
theorem parse_scheme_validation (uri_str : List Char) :
    (URI.parse uri_str = .error .invalidScheme ↔
      (':' ∉ uri_str ∨ uri_str.head? = some ':')) ∧
    (∀ u : URI, URI.parse uri_str = .ok u →
      u.scheme_ ≠ [] ∧ ':' ∉ u.scheme_ ∧
        ∃ rest : List Char, uri_str = u.scheme_ ++ ':' :: rest) ∧
    (':' ∈ uri_str → uri_str.head? ≠ some ':' →
      URI.parse uri_str = .error .portOutOfRange ∨ ∃ u : URI, URI.parse uri_str = .ok u) :=
  URI.parse_scheme_cases uri_str

theorem parse_uriExample : URI.parse uriExample = .ok uriExampleParsed := by
  rfl

theorem toString_uriExample : URI.toString uriExampleParsed = uriExample := by
  decide

/-- For the port-only and host-only shapes: `a://h:007` has port 7 and prints as
`a://h:7`; when the userinfo is empty and the host has an `@`, the printed
string parses to another URI (`a://@h@x` gives host `h@x`, printed `a://h@x`,
parsed back with userinfo `h` and host `x`). -/
theorem parse_uri_examples :
    URI.parse ['a', ':', '/', '/', 'h', ':', '0', '0', '7'] =
        .ok ⟨['a'], [], ['h'], 7, [], [], []⟩ ∧
      URI.toString ⟨['a'], [], ['h'], 7, [], [], []⟩ = ['a', ':', '/', '/', 'h', ':', '7'] ∧
      URI.parse ['a', ':', '/', '/', '@', 'h', '@', 'x'] =
        .ok ⟨['a'], [], ['h', '@', 'x'], 0, [], [], []⟩ ∧
      URI.parse (URI.toString ⟨['a'], [], ['h', '@', 'x'], 0, [], [], []⟩) =
        .ok ⟨['a'], ['h'], ['x'], 0, [], [], []⟩ :=
  ⟨rfl, rfl, rfl, rfl⟩

/-- C19: URI round trip.  For every string `s` which `URI::parse` accepts with a
non-empty host that has no `@` in it, parsing the string that `toString` prints
for the parsed URI succeeds and gives the same URI: the same scheme, userinfo,
host, port, path, query and fragment. -/
theorem uri_round_trip (s : List Char) (u : URI) (h : URI.parse s = .ok u)
    (hh : u.host_ ≠ []) (hat : '@' ∉ u.host_) :
    URI.parse (URI.toString u) = .ok u :=
  URI.parse_toString u (URI.parse_canonical s u h hh) hh hat

theorem uri_round_trip_witness :
    URI.parse uriExample = .ok uriExampleParsed ∧ uriExampleParsed.host_ ≠ [] ∧
      '@' ∉ uriExampleParsed.host_ ∧
      URI.parse (URI.toString uriExampleParsed) = .ok uriExampleParsed :=
  ⟨parse_uriExample, by decide, by decide,
    uri_round_trip uriExample uriExampleParsed parse_uriExample (by decide) (by decide)⟩

theorem parse_scheme_validation_witness :
    (URI.parse [':', 'a'] = .error .invalidScheme) ∧
      (URI.parse ['a', 'b'] = .error .invalidScheme) ∧
      (∀ u : URI, URI.parse uriExample = .ok u → u.scheme_ = ['a']) :=
  ⟨(parse_scheme_validation [':', 'a']).1.mpr (Or.inr rfl),
    (parse_scheme_validation ['a', 'b']).1.mpr (Or.inl (by decide)),
    fun u hu => by
      rw [parse_uriExample] at hu
      cases hu
      rfl⟩

end fnordmetric.util
